import Mathlib

/-! # Centrality classification, yield aggregation and ratio report

A shallow embedding of the centrality pipeline of the analysis macros
(`VFfE.C`, `RGbM.C`, `XVxX.cc`): the forward-track predicate, `calibration`,
the percentile extractor `findPercentiles` (linear-scan and binary-search
versions), the Policy A classifier (the `cIndex` loop of `analyze`), the
Policy B classifier (the `binIndex` loop over the fixed edge table), the yield
aggregation of `analyze` and the ratio step of
`drawRatioWithExperimentalData`; and of the per-class ratio loop of the
dNch/dEta programs (`k1V5.cc`, `Q5UN.cc`).

C++ `double` values are embedded as exact rationals (`ℚ`), C++ `int` values as
`Int`; loop counters that only run over `nbins, nbins-1, ..., 1` are `Nat`.
Where an expression can leave the finite range (a division by a zero
integral or yield) its value is a `Dbl`: a rational, an infinity or
not-a-number.
-/

/-! ## The histogram interface used by the macros -/

/-- Modelled from the spec: the one-dimensional histogram type `TH1D` of the
external histogramming toolkit (its declaration is not part of the sources).
A fixed number of uniform bins over `[xmin, xmax)`, numbered `1..nbins`, with
an underflow cell (bin `0`) and an overflow cell (bin `nbins+1`), each holding
an accumulated weight. -/
structure TH1D where
  xmin : ℚ
  xmax : ℚ
  underflow : ℚ
  bins : List ℚ
  overflow : ℚ

namespace TH1D

/-- Modelled from the spec: `GetNbinsX`, the number of regular bins. -/
def GetNbinsX (h : TH1D) : Int := (h.bins.length : Int)

/-- Modelled from the spec: `GetBinContent(bin)`; bin numbers at or below `0`
read the underflow cell, bin numbers above `nbins` read the overflow cell. -/
def GetBinContent (h : TH1D) (bin : Int) : ℚ :=
  if bin ≤ 0 then h.underflow
  else if bin ≤ h.GetNbinsX then h.bins.getD (bin.toNat - 1) 0
  else h.overflow

/-- Modelled from the spec: `GetBinWidth`, the common width of the uniform
bins, `(xmax - xmin) / nbins`. -/
def GetBinWidth (h : TH1D) : ℚ := (h.xmax - h.xmin) / (h.GetNbinsX : ℚ)

/-- Modelled from the spec: `GetBinCenter(bin)`, the centre of a bin of the
uniform axis, `xmin + (bin - 1) * width + width / 2`, also for bin numbers
outside `1..nbins`. -/
def GetBinCenter (h : TH1D) (bin : Int) : ℚ :=
  h.xmin + ((bin : ℚ) - 1) * h.GetBinWidth + h.GetBinWidth / 2

/-- The accumulation loop `for (b = lo; ...; ++b) sum += f(b)` over `n`
consecutive bin numbers starting at `lo`. -/
def sumBins (f : Int → ℚ) : Int → Nat → ℚ
  | _, 0 => 0
  | lo, n + 1 => f lo + sumBins f (lo + 1) n

/-- Modelled from the spec: `Integral(binx1, binx2, "width")`, the sum over
the bins `binx1..binx2` of bin content times bin width ("bin content × bin
width, summed"). As in the toolkit the range is clamped: a negative `binx1`
becomes `0`, and a `binx2` beyond the overflow cell or below `binx1` becomes
the overflow cell. -/
def Integral (h : TH1D) (binx1 binx2 : Int) : ℚ :=
  let first := if binx1 < 0 then 0 else binx1
  let last := if binx2 ≥ h.GetNbinsX + 2 ∨ binx2 < first then h.GetNbinsX + 1 else binx2
  sumBins (fun b => h.GetBinContent b * h.GetBinWidth) first (last + 1 - first).toNat

/-- Modelled from the spec: `Integral("width")` without a bin range, the
integral over the regular bins `1..nbins`. -/
def IntegralWidth (h : TH1D) : ℚ := h.Integral 1 h.GetNbinsX

end TH1D

/-! ## Percentile extractor -/

/-- The inner loop of the linear-scan `findPercentiles`:
`for (int bin = nbins; bin > 0; --bin)`, started at `bin`, returning the first
bin whose upper-tail integral `Integral(bin, nbins, "width")` reaches the
threshold, or `none` when the loop runs out without a `break`. -/
def scanDown (hCalib : TH1D) (nbins : Int) (threshold : ℚ) : Nat → Option Int
  | 0 => none
  | bin + 1 =>
    if hCalib.Integral ((bin : Int) + 1) nbins ≥ threshold then some ((bin : Int) + 1)
    else scanDown hCalib nbins threshold bin

/-- The body of the `for (double p : percentiles)` loop of the linear-scan
`findPercentiles`: the value pushed for the threshold `p`, if any. -/
def linearBoundary (hCalib : TH1D) (p : ℚ) : Option ℚ :=
  let totalIntegral := hCalib.IntegralWidth
  let nbins := hCalib.GetNbinsX
  let threshold := p / 100 * totalIntegral
  (scanDown hCalib nbins threshold nbins.toNat).map hCalib.GetBinCenter

/-- The linear-scan `findPercentiles` for a threshold list: one `push_back`
per threshold whose scan finds a bin, in the order of the thresholds. -/
def findPercentilesLinear (percentiles : List ℚ) (hCalib : TH1D) : List ℚ :=
  percentiles.filterMap (linearBoundary hCalib)

/-- The `while (low <= high)` loop of the binary-search `findPercentiles`,
returning the final value of `high`. -/
def bisect (hCalib : TH1D) (nbins : Int) (threshold : ℚ) (low high : Int) : Int :=
  if low ≤ high then
    let mid := (low + high).tdiv 2
    if hCalib.Integral mid nbins ≥ threshold then
      bisect hCalib nbins threshold (mid + 1) high
    else
      bisect hCalib nbins threshold low (mid - 1)
  else high
termination_by (high + 1 - low).toNat
decreasing_by
  all_goals simp_wf
  all_goals
    have hmid : 2 * (low + high).tdiv 2 ≤ low + high + 1 ∧
        low + high - 1 ≤ 2 * (low + high).tdiv 2 := by
      rcases le_total 0 (low + high) with h0 | h0
      · rw [Int.tdiv_eq_ediv h0 (by norm_num)]; omega
      · have h1 : (low + high).tdiv 2 = -((-(low + high)).tdiv 2) := by
          rw [Int.neg_tdiv, neg_neg]
        rw [h1, Int.tdiv_eq_ediv (by omega) (by norm_num)]; omega
    omega

/-- The body of the `for (double p : percentiles)` loop of the binary-search
`findPercentiles`: the value pushed for the threshold `p`,
`GetBinCenter(high)` for the final `high` of the search. -/
def binaryBoundary (hCalib : TH1D) (p : ℚ) : ℚ :=
  let totalIntegral := hCalib.IntegralWidth
  let nbins := hCalib.GetNbinsX
  let threshold := p / 100 * totalIntegral
  hCalib.GetBinCenter (bisect hCalib nbins threshold 1 nbins)

/-- The binary-search `findPercentiles` for a threshold list: exactly one
`push_back` per threshold. -/
def findPercentilesBinary (percentiles : List ℚ) (hCalib : TH1D) : List ℚ :=
  percentiles.map (binaryBoundary hCalib)

namespace VFfE

/-- The threshold list of `findPercentiles` in `VFfE.C`. -/
def percentiles : List ℚ := [95 / 100, 47 / 10, 95 / 10, 14, 19, 28, 38, 48, 68, 100]

/-- The `findPercentiles` of `VFfE.C` (linear scan). -/
def findPercentiles (hCalib : TH1D) : List ℚ := findPercentilesLinear percentiles hCalib

end VFfE

namespace XVxX

/-- The threshold list of `findPercentiles` in `XVxX.cc`. -/
def percentiles : List ℚ := [1, 5, 10, 15, 20, 30, 40, 50, 70, 100]

/-- The `findPercentiles` of `XVxX.cc` (linear scan). -/
def findPercentiles (hCalib : TH1D) : List ℚ := findPercentilesLinear percentiles hCalib

end XVxX

namespace RGbM

/-- The threshold list of `findPercentiles` in `RGbM.C`. -/
def percentiles : List ℚ := [1, 5, 10, 15, 20, 30, 40, 50, 70, 100]

/-- The `findPercentiles` of `RGbM.C` (binary search). -/
def findPercentiles (hCalib : TH1D) : List ℚ := findPercentilesBinary percentiles hCalib

end RGbM

/-! ## Policy A: the `cIndex` loop of `analyze` -/

/-- The loop `for (auto p : percentiles) { if (double(nFwd) > p) break;
cIndex -= 1.0; }` over the remaining boundaries, from the running value
`cIndex`. -/
def cIndexLoop (nFwd : Int) : List ℚ → ℚ → ℚ
  | [], cIndex => cIndex
  | p :: rest, cIndex =>
    if (nFwd : ℚ) > p then cIndex else cIndexLoop nFwd rest (cIndex - 1)

/-- The class index that `analyze` computes for an event with forward count
`nFwd`: the loop started at `cIndex = 9.5`. -/
def cIndex (percentiles : List ℚ) (nFwd : Int) : ℚ :=
  cIndexLoop nFwd percentiles (19 / 2)

/-! ## Policy B: the `binIndex` loop over the edge table -/

/-- The loop `for (int k = 0; k < nMultClasses; k++)` of the Thermal-FIST
passes, started at `k` with `fuel` iterations left: the first `k` with
`centrality >= kCentClasses[k] && centrality < kCentClasses[k + 1]` sets
`binIndex = nMultClasses - 1 - k` and breaks; without a match `binIndex` keeps
its initial value `0`. -/
def binIndexLoop (nMultClasses : Nat) (kCentClasses : List ℚ) (centrality : ℚ) :
    Nat → Nat → Int
  | 0, _ => 0
  | fuel + 1, k =>
    if centrality ≥ kCentClasses.getD k 0 ∧ centrality < kCentClasses.getD (k + 1) 0 then
      (nMultClasses : Int) - 1 - (k : Int)
    else binIndexLoop nMultClasses kCentClasses centrality fuel (k + 1)

/-- The class index of Policy B for a table of `nMultClasses + 1` edges. -/
def binIndex (nMultClasses : Nat) (kCentClasses : List ℚ) (centrality : ℚ) : Int :=
  binIndexLoop nMultClasses kCentClasses centrality nMultClasses 0

/-- The edge table `kCentClasses` of `readFISTData` and `analyze` in `VFfE.C`. -/
def kCentClasses : List ℚ := [0, 95 / 100, 47 / 10, 95 / 10, 14, 19, 28, 38, 48, 68, 100]

/-- The constant `nMultClasses` of `readFISTData` and `analyze` in `VFfE.C`. -/
def nMultClasses : Nat := 10


/-! ## Specification vocabulary and sample histograms -/

/-- Bin `b` is the highest-numbered regular bin whose upper-tail integral over
the bins `b..nbins` reaches the threshold. -/
def IsTopBin (hCalib : TH1D) (threshold : ℚ) (b : Int) : Prop :=
  1 ≤ b ∧ b ≤ hCalib.GetNbinsX ∧ threshold ≤ hCalib.Integral b hCalib.GetNbinsX ∧
    ∀ b2 : Int, b < b2 → b2 ≤ hCalib.GetNbinsX →
      hCalib.Integral b2 hCalib.GetNbinsX < threshold

/-- A normalised calibration histogram (100 bins over `[0, 200)`) whose whole
weight sits in its two highest bins. -/
def calibTop : TH1D :=
  { xmin := 0, xmax := 200, underflow := 0,
    bins := List.replicate 98 0 ++ [1 / 4, 1 / 4], overflow := 0 }

/-- A two-bin histogram over `[0, 4)` with contents `1` and `3`. -/
def histTwo : TH1D :=
  { xmin := 0, xmax := 4, underflow := 0, bins := [1, 3], overflow := 0 }

/-- A one-bin histogram over `[0, 2)` holding a single negative weight. -/
def histNeg : TH1D :=
  { xmin := 0, xmax := 2, underflow := 0, bins := [-1], overflow := 0 }

/-! ## Event records (`RootEvent.h`, `MyParticle.h`, `MyEvent.h`) -/

/-- The track record `RootTrack` of `RootEvent.h`. -/
structure RootTrack where
  phi : ℚ
  eta : ℚ
  y : ℚ
  pT : ℚ
  pid : Int
  isHadron : Bool
  isCharged : Bool

/-- The event record `RootEvent` of `RootEvent.h`. -/
structure RootEvent where
  weight : ℚ
  tracks : List RootTrack

/-- The particle record `MyParticle` of `MyParticle.h` (data members only). -/
structure MyParticle where
  fPt : ℚ
  fPhi : ℚ
  fY : ℚ
  fMass : ℚ
  fEta : ℚ
  fPDG : Int
  fCharge : Int
  fIsPrimary : Int
  fStatus : Int

/-- The accessor `MyParticle::Y`. -/
def MyParticle.Y (p : MyParticle) : ℚ := p.fY

/-- The event record `MyEvent` of `MyEvent.h`. -/
structure MyEvent where
  fV0A : Int
  fV0C : Int
  fCL1 : Int

/-- One entry of the Thermal-FIST tree `TT`: the branch `event` and the
branch `tracks`. -/
structure FistEntry where
  event : MyEvent
  tracks : List MyParticle

/-! ## Forward-track predicate -/

namespace VFfE

/-- The `isForwardTrack` of `VFfE.C` (nested `if`). -/
def isForwardTrack (trk : RootTrack) : Bool :=
  if trk.isHadron && trk.isCharged && decide (trk.pT > 1 / 10) then
    if (decide (trk.eta > -37 / 10) && decide (trk.eta < -17 / 10)) ||
        (decide (trk.eta > 28 / 10) && decide (trk.eta < 51 / 10)) then true
    else false
  else false

end VFfE

namespace RGbM

/-- The `isForwardTrack` of `RGbM.C` (early return). -/
def isForwardTrack (trk : RootTrack) : Bool :=
  if !trk.isHadron || !trk.isCharged || decide (trk.pT ≤ 1 / 10) then false
  else
    let eta := trk.eta
    (decide (eta > -37 / 10) && decide (eta < -17 / 10)) ||
      (decide (eta > 28 / 10) && decide (eta < 51 / 10))

end RGbM

/-! ## Values of C++ floating-point expressions that may leave the finite range -/

/-- A value of a C++ `double` or `float` expression: a finite number (taken as
an exact rational), an infinity, or not-a-number. -/
inductive Dbl where
  | fin (q : ℚ)
  | pinf
  | ninf
  | nan
  deriving DecidableEq

namespace Dbl

/-- The quotient `a / b` of two finite values; a zero divisor is the positive
zero that a sum of non-negative terms produces, so `a / 0` is an infinity for
`a ≠ 0` and not-a-number for `a = 0`. -/
def div (a b : ℚ) : Dbl :=
  if b = 0 then (if a = 0 then nan else if a > 0 then pinf else ninf)
  else fin (a / b)

/-- The product `c * x` of a value `c` and a finite value `x`; zero times an
infinity is not-a-number. -/
def mul (c : Dbl) (x : ℚ) : Dbl :=
  match c with
  | fin q => fin (q * x)
  | pinf => if x = 0 then nan else if x > 0 then pinf else ninf
  | ninf => if x = 0 then nan else if x > 0 then ninf else pinf
  | nan => nan

/-- The finite number held by a value, if it is finite. -/
def toRat? : Dbl → Option ℚ
  | fin q => some q
  | _ => none

end Dbl

/-! ## Filling and scaling histograms -/

/-- Modelled from the spec: the axis lookup `FindBin(x)` of a uniform axis
with `nbins` bins over `[xmin, xmax)`: `0` below the axis, `nbins + 1` at or
above its upper end, otherwise `1 + int(nbins * (x - xmin) / (xmax - xmin))`. -/
def axisFindBin (nbins : Int) (xmin xmax x : ℚ) : Int :=
  if x < xmin then 0
  else if ¬ (x < xmax) then nbins + 1
  else 1 + ⌊(nbins : ℚ) * (x - xmin) / (xmax - xmin)⌋

/-- Add `w` to the entry at position `i` of a list of bin contents. -/
def addAt (l : List ℚ) (i : Nat) (w : ℚ) : List ℚ :=
  match l, i with
  | [], _ => []
  | x :: rest, 0 => (x + w) :: rest
  | x :: rest, i + 1 => x :: addAt rest i w

deriving instance DecidableEq for TH1D

/-- A histogram whose cells hold values of C++ `double` expressions, as left
by `Scale` with an arbitrary factor. -/
structure TH1DValues where
  xmin : ℚ
  xmax : ℚ
  underflow : Dbl
  bins : List Dbl
  overflow : Dbl
  deriving DecidableEq

namespace TH1D

/-- Modelled from the spec: `FindBin(x)` on the axis of the histogram. -/
def FindBin (h : TH1D) (x : ℚ) : Int := axisFindBin h.GetNbinsX h.xmin h.xmax x

/-- Modelled from the spec: `Fill(x)`, adding the weight `1` to the cell that
`FindBin(x)` names (the underflow or overflow cell outside the axis). -/
def Fill (h : TH1D) (x : ℚ) : TH1D :=
  let bin := h.FindBin x
  if bin ≤ 0 then { h with underflow := h.underflow + 1 }
  else if bin ≤ h.GetNbinsX then { h with bins := addAt h.bins (bin.toNat - 1) 1 }
  else { h with overflow := h.overflow + 1 }

/-- Modelled from the spec: `Scale(c1)` for a finite factor, multiplying the
content of every cell by `c1`. -/
def Scale (h : TH1D) (c1 : ℚ) : TH1D :=
  { h with underflow := c1 * h.underflow, bins := h.bins.map (fun x => c1 * x),
           overflow := c1 * h.overflow }

/-- Modelled from the spec: `Scale(c1)` for the value of an arbitrary `double`
expression, multiplying the content of every cell by `c1`. -/
def ScaleValue (h : TH1D) (c1 : Dbl) : TH1DValues :=
  { xmin := h.xmin, xmax := h.xmax, underflow := c1.mul h.underflow,
    bins := h.bins.map c1.mul, overflow := c1.mul h.overflow }

/-- Modelled from the spec: `Divide(h1)`, replacing the content of every cell
by its quotient with the content of the same cell of `h1`; where that content
is `0` no division is made and the cell is set to `0`. -/
def Divide (h h1 : TH1D) : TH1D :=
  { h with underflow := if h1.underflow = 0 then 0 else h.underflow / h1.underflow,
           bins := List.zipWith (fun c0 c1 => if c1 = 0 then 0 else c0 / c1) h.bins h1.bins,
           overflow := if h1.overflow = 0 then 0 else h.overflow / h1.overflow }

end TH1D

/-- The finite numbers held by a list of values, if all of them are finite. -/
def Dbl.toRats? : List Dbl → Option (List ℚ)
  | [] => some []
  | c :: rest =>
    match c.toRat?, Dbl.toRats? rest with
    | some q, some qs => some (q :: qs)
    | _, _ => none

/-- The histogram with finite cells held by a histogram of `double` values, if
all its cells are finite. -/
def TH1DValues.toTH1D? (h : TH1DValues) : Option TH1D :=
  match h.underflow.toRat?, Dbl.toRats? h.bins, h.overflow.toRat? with
  | some u, some bs, some o =>
    some { xmin := h.xmin, xmax := h.xmax, underflow := u, bins := bs, overflow := o }
  | _, _, _ => none

/-! ## Profile aggregates -/

/-- Modelled from the spec: one cell of a profile, the yield aggregate
"running count of contributing events, running sum of per-event particle
counts, running sum of squares". -/
structure ProfBin where
  count : ℚ
  sum : ℚ
  sumOfSquares : ℚ
  deriving DecidableEq

namespace ProfBin

/-- The empty aggregate. -/
def zero : ProfBin := { count := 0, sum := 0, sumOfSquares := 0 }

/-- Elementwise addition of two aggregates. -/
def add (a b : ProfBin) : ProfBin :=
  { count := a.count + b.count, sum := a.sum + b.sum,
    sumOfSquares := a.sumOfSquares + b.sumOfSquares }

/-- The contribution of one filled value `y`: count `1`, sum `y`, sum of
squares `y * y`. -/
def single (y : ℚ) : ProfBin := { count := 1, sum := y, sumOfSquares := y * y }

/-- Modelled from the spec: the mean `sum / count` of an aggregate, `0` for an
empty aggregate. -/
def mean (a : ProfBin) : ℚ := if a.count = 0 then 0 else a.sum / a.count

/-- Modelled from the spec: the square of the standard error of the mean,
`(sumOfSquares / count - mean²) / count`, `0` for an empty aggregate. -/
def stdErrSq (a : ProfBin) : ℚ :=
  if a.count = 0 then 0 else |a.sumOfSquares / a.count - a.mean * a.mean| / a.count

end ProfBin

/-- Add an aggregate to the entry at position `i` of a list of aggregates. -/
def addAtBin (l : List ProfBin) (i : Nat) (w : ProfBin) : List ProfBin :=
  match l, i with
  | [], _ => []
  | x :: rest, 0 => x.add w :: rest
  | x :: rest, i + 1 => x :: addAtBin rest i w

/-- Modelled from the spec: the profile histogram type `TProfile` of the
external toolkit: uniform bins over `[xmin, xmax)`, numbered `1..nbins`, with
an underflow and an overflow cell, each cell a yield aggregate. -/
structure TProfile where
  xmin : ℚ
  xmax : ℚ
  underflow : ProfBin
  bins : List ProfBin
  overflow : ProfBin
  deriving DecidableEq

namespace TProfile

/-- Modelled from the spec: the constructor `TProfile(name, title, nbins,
xlow, xup)`: all cells empty. -/
def new (nbins : Nat) (xlow xup : ℚ) : TProfile :=
  { xmin := xlow, xmax := xup, underflow := ProfBin.zero,
    bins := List.replicate nbins ProfBin.zero, overflow := ProfBin.zero }

/-- Modelled from the spec: the number of regular bins. -/
def GetNbinsX (p : TProfile) : Int := (p.bins.length : Int)

/-- Modelled from the spec: `FindBin(x)` on the axis of the profile. -/
def FindBin (p : TProfile) (x : ℚ) : Int := axisFindBin p.GetNbinsX p.xmin p.xmax x

/-- Modelled from the spec: `Fill(x, y)`, adding the value `y` to the
aggregate of the cell that `FindBin(x)` names (the underflow or overflow cell
outside the axis). -/
def Fill (p : TProfile) (x y : ℚ) : TProfile :=
  let bin := p.FindBin x
  if bin ≤ 0 then { p with underflow := p.underflow.add (ProfBin.single y) }
  else if bin ≤ p.GetNbinsX then
    { p with bins := addAtBin p.bins (bin.toNat - 1) (ProfBin.single y) }
  else { p with overflow := p.overflow.add (ProfBin.single y) }

/-- Merging two profiles: elementwise addition of the aggregates, cell by
cell. -/
def merge (p q : TProfile) : TProfile :=
  { p with underflow := p.underflow.add q.underflow,
           bins := List.zipWith ProfBin.add p.bins q.bins,
           overflow := p.overflow.add q.overflow }

/-- Modelled from the spec: `ProjectionX()`, the histogram of the cell means
(bin errors are not part of the embedding). -/
def ProjectionX (p : TProfile) : TH1D :=
  { xmin := p.xmin, xmax := p.xmax, underflow := p.underflow.mean,
    bins := p.bins.map ProfBin.mean, overflow := p.overflow.mean }

end TProfile

/-! ## Calibration -/

/-- The inner loop of `calibration` and `analyze`'s forward count:
`for (auto &trk : evt->tracks) if (isForwardTrack(trk)) ++nFwd;`. -/
def countForward (isForwardTrack : RootTrack → Bool) (tracks : List RootTrack) : Int :=
  tracks.foldl (fun nFwd trk => if isForwardTrack trk then nFwd + 1 else nFwd) 0

/-- The event loop of `calibration`: the histogram `hCalib("hCalib", "nFwd",
100, 0, 200)` after one `Fill(nFwd)` per event. -/
def calibrationPass (isForwardTrack : RootTrack → Bool) (events : List RootEvent) : TH1D :=
  events.foldl (fun hCalib evt => hCalib.Fill (countForward isForwardTrack evt.tracks))
    { xmin := 0, xmax := 200, underflow := 0, bins := List.replicate 100 0, overflow := 0 }

/-- The histogram that `calibration` writes: the filled histogram after
`hCalib.Scale(1.0 / hCalib.Integral("width"))`. -/
def calibrationWith (isForwardTrack : RootTrack → Bool) (events : List RootEvent) :
    TH1DValues :=
  let hCalib := calibrationPass isForwardTrack events
  hCalib.ScaleValue (Dbl.div 1 hCalib.IntegralWidth)

namespace VFfE

/-- The `calibration` of `VFfE.C`, on the chained event sequence. -/
def calibration (events : List RootEvent) : TH1DValues :=
  calibrationWith isForwardTrack events

end VFfE

namespace XVxX

/-- The `isForwardTrack` of `XVxX.cc` (nested `if`, as in `VFfE.C`). -/
def isForwardTrack (trk : RootTrack) : Bool :=
  if trk.isHadron && trk.isCharged && decide (trk.pT > 1 / 10) then
    if (decide (trk.eta > -37 / 10) && decide (trk.eta < -17 / 10)) ||
        (decide (trk.eta > 28 / 10) && decide (trk.eta < 51 / 10)) then true
    else false
  else false

/-- The `calibration` of `XVxX.cc`, on the chained event sequence. -/
def calibration (events : List RootEvent) : TH1DValues :=
  calibrationWith isForwardTrack events

end XVxX

/-! ## Yield aggregation (`analyze`) -/

/-- The seven per-event counters of `analyze`. -/
structure Counts where
  nFwd : Int
  nPi : Int
  nP : Int
  nK : Int
  nL : Int
  nXi : Int
  nO : Int
  deriving DecidableEq

/-- The sum of the seven counters. -/
def Counts.total (c : Counts) : Int :=
  c.nFwd + c.nPi + c.nP + c.nK + c.nL + c.nXi + c.nO

/-- The six species counters of the Thermal-FIST loop of `analyze`. -/
structure FistCounts where
  nPi : Int
  nP : Int
  nK : Int
  nL : Int
  nXi : Int
  nO : Int
  deriving DecidableEq

/-- The six profiles that one pass of `analyze` fills. -/
structure Yields where
  hPiCent : TProfile
  hPCent : TProfile
  hKCent : TProfile
  hLCent : TProfile
  hXiCent : TProfile
  hOmegaCent : TProfile
  deriving DecidableEq

namespace Yields

/-- The six profiles as created by `analyze`: `TProfile(.., 10, 0, 10)`. -/
def new : Yields :=
  { hPiCent := TProfile.new 10 0 10, hPCent := TProfile.new 10 0 10,
    hKCent := TProfile.new 10 0 10, hLCent := TProfile.new 10 0 10,
    hXiCent := TProfile.new 10 0 10, hOmegaCent := TProfile.new 10 0 10 }

/-- Merging two sets of profiles, profile by profile. -/
def merge (a b : Yields) : Yields :=
  { hPiCent := a.hPiCent.merge b.hPiCent, hPCent := a.hPCent.merge b.hPCent,
    hKCent := a.hKCent.merge b.hKCent, hLCent := a.hLCent.merge b.hLCent,
    hXiCent := a.hXiCent.merge b.hXiCent, hOmegaCent := a.hOmegaCent.merge b.hOmegaCent }

/-- The six profiles as a list. -/
def toList (a : Yields) : List TProfile :=
  [a.hPiCent, a.hPCent, a.hKCent, a.hLCent, a.hXiCent, a.hOmegaCent]

end Yields

namespace VFfE

/-- The body of the track loop of `analyze` (PYTHIA pass) for one track. -/
def countTrack (c : Counts) (trk : RootTrack) : Counts :=
  if isForwardTrack trk then { c with nFwd := c.nFwd + 1 }
  else if |trk.y| < 1 / 2 then
    let id := |trk.pid|
    if id = 211 then { c with nPi := c.nPi + 1 }
    else if id = 2212 then { c with nP := c.nP + 1 }
    else if id = 310 then { c with nK := c.nK + 1 }
    else if id = 3122 then { c with nL := c.nL + 1 }
    else if id = 3312 then { c with nXi := c.nXi + 1 }
    else if id = 3334 then { c with nO := c.nO + 1 }
    else c
  else c

/-- The track loop of `analyze` (PYTHIA pass): the counters of one event. -/
def countTracks (tracks : List RootTrack) : Counts :=
  tracks.foldl countTrack
    { nFwd := 0, nPi := 0, nP := 0, nK := 0, nL := 0, nXi := 0, nO := 0 }

/-- The body of the PYTHIA event loop of `analyze`: count the tracks, compute
the class index `cIndex` from the boundaries, fill the six profiles. -/
def analyzeEvent (percentiles : List ℚ) (ys : Yields) (evt : RootEvent) : Yields :=
  let c := countTracks evt.tracks
  let cIdx := cIndex percentiles c.nFwd
  { hPiCent := ys.hPiCent.Fill cIdx c.nPi, hPCent := ys.hPCent.Fill cIdx c.nP,
    hKCent := ys.hKCent.Fill cIdx c.nK, hLCent := ys.hLCent.Fill cIdx c.nL,
    hXiCent := ys.hXiCent.Fill cIdx c.nXi, hOmegaCent := ys.hOmegaCent.Fill cIdx c.nO }

/-- The PYTHIA event loop of `analyze`, continued from the profiles `ys`. -/
def analyzePythiaFrom (percentiles : List ℚ) (ys : Yields) (events : List RootEvent) : Yields :=
  events.foldl (analyzeEvent percentiles) ys

/-- The PYTHIA event loop of `analyze`, from freshly created profiles. -/
def analyzePythia (percentiles : List ℚ) (events : List RootEvent) : Yields :=
  analyzePythiaFrom percentiles Yields.new events

/-- The body of the track loop of the Thermal-FIST pass of `analyze`. -/
def countFistTrack (c : FistCounts) (track : MyParticle) : FistCounts :=
  if |track.Y| < 1 / 2 then
    let id := |track.fPDG|
    if id = 211 then { c with nPi := c.nPi + 1 }
    else if id = 2212 then { c with nP := c.nP + 1 }
    else if id = 311 then { c with nK := c.nK + 1 }
    else if id = 3122 then { c with nL := c.nL + 1 }
    else if id = 3312 then { c with nXi := c.nXi + 1 }
    else if id = 3334 then { c with nO := c.nO + 1 }
    else c
  else c

/-- The track loop of the Thermal-FIST pass of `analyze`. -/
def countFistTracks (tracks : List MyParticle) : FistCounts :=
  tracks.foldl countFistTrack { nPi := 0, nP := 0, nK := 0, nL := 0, nXi := 0, nO := 0 }

/-- The class index of one Thermal-FIST entry: `double centrality =
event->fV0A;` followed by the `binIndex` loop. -/
def fistBinIndex (entry : FistEntry) : Int :=
  binIndex nMultClasses kCentClasses (entry.event.fV0A : ℚ)

/-- The body of the Thermal-FIST loop of `analyze`: count the tracks, compute
`binIndex`, fill the six profiles. -/
def analyzeFistEntry (ys : Yields) (entry : FistEntry) : Yields :=
  let c := countFistTracks entry.tracks
  let b := fistBinIndex entry
  { hPiCent := ys.hPiCent.Fill b c.nPi, hPCent := ys.hPCent.Fill b c.nP,
    hKCent := ys.hKCent.Fill b c.nK, hLCent := ys.hLCent.Fill b c.nL,
    hXiCent := ys.hXiCent.Fill b c.nXi, hOmegaCent := ys.hOmegaCent.Fill b c.nO }

/-- The Thermal-FIST loop of `analyze`, from freshly created profiles. -/
def analyzeFist (entries : List FistEntry) : Yields :=
  entries.foldl analyzeFistEntry Yields.new

/-- The profiles of `yields.root`: the PYTHIA profiles and the Thermal-FIST
profiles written by `analyze`. -/
structure YieldsFile where
  pythia : Yields
  fist : Yields

/-- The function `analyze` on the calibration histogram read from
`calibration.root`, the chained PYTHIA events and the chained Thermal-FIST
entries. -/
def analyze (hCalib : TH1D) (events : List RootEvent) (entries : List FistEntry) :
    YieldsFile :=
  let percentiles := findPercentiles hCalib
  { pythia := analyzePythia percentiles events, fist := analyzeFist entries }

/-- The eight ratio histograms of `drawRatioWithExperimentalData`. -/
structure Ratios where
  k_sim : TH1D
  L_sim : TH1D
  X_sim : TH1D
  O_sim : TH1D
  k_fist : TH1D
  L_fist : TH1D
  X_fist : TH1D
  O_fist : TH1D

/-- The simulated ratio histograms of `drawRatioWithExperimentalData`, on the
profiles of `yields.root` (the path on which the file and the experimental
tables are found): `ProjectionX`, `Scale`, `Divide`. -/
def drawRatioWithExperimentalData (yieldsFile : YieldsFile) : Ratios :=
  let pi_sim := yieldsFile.pythia.hPiCent.ProjectionX
  let k_sim := yieldsFile.pythia.hKCent.ProjectionX
  let L_sim := yieldsFile.pythia.hLCent.ProjectionX
  let X_sim := yieldsFile.pythia.hXiCent.ProjectionX
  let O_sim := yieldsFile.pythia.hOmegaCent.ProjectionX
  let pi_fist := yieldsFile.fist.hPiCent.ProjectionX
  let k_fist := yieldsFile.fist.hKCent.ProjectionX
  let L_fist := yieldsFile.fist.hLCent.ProjectionX
  let X_fist := yieldsFile.fist.hXiCent.ProjectionX
  let O_fist := yieldsFile.fist.hOmegaCent.ProjectionX
  { k_sim := (k_sim.Scale 2).Divide pi_sim,
    L_sim := (L_sim.Scale 2).Divide pi_sim,
    X_sim := (X_sim.Scale 6).Divide pi_sim,
    O_sim := (O_sim.Scale 16).Divide pi_sim,
    k_fist := (k_fist.Scale 1).Divide pi_fist,
    L_fist := (L_fist.Scale 2).Divide pi_fist,
    X_fist := (X_fist.Scale 6).Divide pi_fist,
    O_fist := (O_fist.Scale 16).Divide pi_fist }

end VFfE

/-- Two profiles over the same axis: same range and same number of bins. -/
def TProfile.SameAxis (p q : TProfile) : Prop :=
  p.xmin = q.xmin ∧ p.xmax = q.xmax ∧ p.bins.length = q.bins.length

/-- Two sets of profiles over the same axes, profile by profile. -/
def Yields.SameAxis (a b : Yields) : Prop :=
  a.hPiCent.SameAxis b.hPiCent ∧ a.hPCent.SameAxis b.hPCent ∧ a.hKCent.SameAxis b.hKCent ∧
    a.hLCent.SameAxis b.hLCent ∧ a.hXiCent.SameAxis b.hXiCent ∧
    a.hOmegaCent.SameAxis b.hOmegaCent

/-- A profile over the class axis (10 bins over `[0, 10)`) whose regular bins
hold `k` fills in total and whose underflow and overflow cells hold none. -/
def TProfile.ClassFilled (p : TProfile) (k : ℚ) : Prop :=
  p.xmin = 0 ∧ p.xmax = 10 ∧ p.bins.length = 10 ∧ p.underflow.count = 0 ∧
    p.overflow.count = 0 ∧ (p.bins.map ProfBin.count).sum = k

/-- A profile over the class axis whose `n` fills of the value `c` all sit in
the underflow cell. -/
def underflowProfile (n c : ℚ) : TProfile :=
  { xmin := 0, xmax := 10, underflow := { count := n, sum := n * c, sumOfSquares := n * (c * c) },
    bins := List.replicate 10 ProfBin.zero, overflow := ProfBin.zero }

/-! ## Per-class ratios of the dNch/dEta programs (`k1V5.cc`, `Q5UN.cc`) -/

/-- The point set for one class by the ratio loop: the abscissa and the four
ratios. -/
structure RatioPoint where
  dNch_dEtaAvg : ℚ
  ratioKp : Dbl
  ratioLp : Dbl
  ratioXp : Dbl
  ratioOp : Dbl
  deriving DecidableEq

/-- The conditional expression `(yieldPions[iClass] > 0) ? yield[iClass] /
yieldPions[iClass] : 0` of the ratio loop. -/
def guardedRatio (yieldNum yieldPions : ℚ) : Dbl :=
  if yieldPions > 0 then Dbl.div yieldNum yieldPions else Dbl.fin 0

/-- The body of the ratio loop of `main` for the class `iClass`, on the
accumulated yield arrays. -/
def ratioPoint (dNch_dEtaLimits yieldPions yieldKaons yieldLambdas yieldXis yieldOmegas :
    List ℚ) (iClass : Nat) : RatioPoint :=
  { dNch_dEtaAvg :=
      1 / 2 * (dNch_dEtaLimits.getD iClass 0 + dNch_dEtaLimits.getD (iClass + 1) 0),
    ratioKp := guardedRatio (yieldKaons.getD iClass 0) (yieldPions.getD iClass 0),
    ratioLp := guardedRatio (yieldLambdas.getD iClass 0) (yieldPions.getD iClass 0),
    ratioXp := guardedRatio (yieldXis.getD iClass 0) (yieldPions.getD iClass 0),
    ratioOp := guardedRatio (yieldOmegas.getD iClass 0) (yieldPions.getD iClass 0) }

namespace k1V5

/-- The constant `nClasses` of `k1V5.cc`. -/
def nClasses : Nat := 10

/-- The table `dNch_dEtaLimits` of `k1V5.cc`. -/
def dNch_dEtaLimits : List ℚ := [0, 5, 10, 15, 20, 25, 30, 35, 40, 45, 50]

/-- The ratio loop `for (int iClass = 0; iClass < nClasses; ++iClass)` of
`main` in `k1V5.cc`: the points set in the four graphs. -/
def ratioLoop (yieldPions yieldKaons yieldLambdas yieldXis yieldOmegas : List ℚ) :
    List RatioPoint :=
  (List.range nClasses).map
    (ratioPoint dNch_dEtaLimits yieldPions yieldKaons yieldLambdas yieldXis yieldOmegas)

end k1V5

namespace Q5UN

/-- The constant `nClasses` of `Q5UN.cc`. -/
def nClasses : Nat := 10

/-- The table `dNch_dEtaLimits` of `Q5UN.cc`. -/
def dNch_dEtaLimits : List ℚ := [0, 5, 10, 15, 20, 25, 30, 35, 40, 45, 50]

/-- The ratio loop `for (int iClass = 0; iClass < nClasses; ++iClass)` of
`main` in `Q5UN.cc`: the points set in the four graphs. -/
def ratioLoop (yieldPions yieldKaons yieldLambdas yieldXis yieldOmegas : List ℚ) :
    List RatioPoint :=
  (List.range nClasses).map
    (ratioPoint dNch_dEtaLimits yieldPions yieldKaons yieldLambdas yieldXis yieldOmegas)

end Q5UN

/-! ## Sample events -/

/-- A charged pion at rapidity `0`, pseudorapidity `0`, `pT = 1`. -/
def pionTrack : RootTrack :=
  { phi := 0, eta := 0, y := 0, pT := 1, pid := 211, isHadron := true, isCharged := true }

/-- A kaon in the convention of the PYTHIA pass (`pid = 310`) at rapidity `0`,
pseudorapidity `0`, `pT = 1`. -/
def kaonTrack : RootTrack :=
  { phi := 0, eta := 0, y := 0, pT := 1, pid := 310, isHadron := true, isCharged := false }

/-- A charged hadron inside the forward acceptance window `(2.8, 5.1)`. -/
def forwardTrack : RootTrack :=
  { phi := 0, eta := 3, y := 3, pT := 1, pid := 211, isHadron := true, isCharged := true }

/-- An event with exactly five pions and one kaon, all at mid-rapidity. -/
def fivePionsOneKaon : RootEvent :=
  { weight := 1, tracks := [pionTrack, pionTrack, pionTrack, pionTrack, pionTrack, kaonTrack] }

/-- An event with 200 forward tracks. -/
def busyForwardEvent : RootEvent :=
  { weight := 1, tracks := List.replicate 200 forwardTrack }

/-- The calibration histogram of a sample in which every event has a forward
count of `0` or `1`: the whole weight, `1/2` per unit width, sits in bin `1`. -/
def calibLowest : TH1D :=
  { xmin := 0, xmax := 200, underflow := 0, bins := 1 / 2 :: List.replicate 99 0,
    overflow := 0 }

/-- A Thermal-FIST entry with centrality value `50` holding one pion and one
neutral kaon (`fPDG = 311`) at rapidity `0`. -/
def fistPionKaon : FistEntry :=
  { event := { fV0A := 50, fV0C := 0, fCL1 := 0 },
    tracks :=
      [{ fPt := 1, fPhi := 0, fY := 0, fMass := 0, fEta := 0, fPDG := 211, fCharge := 1,
         fIsPrimary := 1, fStatus := 0 },
       { fPt := 1, fPhi := 0, fY := 0, fMass := 0, fEta := 0, fPDG := 311, fCharge := 0,
         fIsPrimary := 1, fStatus := 0 }] }

/-- A kaon profile whose fourth class bin holds the aggregate (count 100,
sum 50). -/
def kaonProfileSample : TProfile :=
  { xmin := 0, xmax := 10, underflow := ProfBin.zero,
    bins := List.replicate 3 ProfBin.zero ++
      [{ count := 100, sum := 50, sumOfSquares := 30 }] ++ List.replicate 6 ProfBin.zero,
    overflow := ProfBin.zero }

/-- A pion profile whose fourth class bin holds the aggregate (count 100,
sum 200). -/
def pionProfileSample : TProfile :=
  { xmin := 0, xmax := 10, underflow := ProfBin.zero,
    bins := List.replicate 3 ProfBin.zero ++
      [{ count := 100, sum := 200, sumOfSquares := 500 }] ++ List.replicate 6 ProfBin.zero,
    overflow := ProfBin.zero }

/-- A histogram over the calibration axis (100 bins over `[0, 200)`) whose
whole weight `k` sits in bin `1`. -/
def lowestBinHist (k : ℚ) : TH1D :=
  { xmin := 0, xmax := 200, underflow := 0, bins := k :: List.replicate 99 0, overflow := 0 }

/-- The six profiles after `k` events with five pions and one kaon each, all
filled into the underflow cells. -/
def underflowYields (k : ℚ) : Yields :=
  { hPiCent := underflowProfile k 5, hPCent := underflowProfile k 0,
    hKCent := underflowProfile k 1, hLCent := underflowProfile k 0,
    hXiCent := underflowProfile k 0, hOmegaCent := underflowProfile k 0 }

/-! ## Xi-proximity analyses (`analyzexixibar` and its variants) -/

/-- The variables set by the first track loop of the Xi-proximity analyses:
the two flags and the two reference pseudorapidities. -/
structure XiRef where
  hasXi : Bool
  hasXibar : Bool
  etaXi : ℚ
  etaXiBar : ℚ
  deriving DecidableEq

/-- The counters of one event in the PYTHIA Xi-proximity analyses. -/
structure XiCounts where
  nFwd : Int
  nKPlus : Int
  nKMinus : Int
  nPiPlus : Int
  nPiMinus : Int
  deriving DecidableEq

/-- The counters of one entry in `analyzexixibarFIST`. -/
structure FistXiCounts where
  nKPlus : Int
  nKMinus : Int
  nPiPlus : Int
  nPiMinus : Int
  deriving DecidableEq

/-- The four profiles of a Xi-proximity analysis. -/
structure XiProfiles where
  hKPlusCent : TProfile
  hPiPlusCent : TProfile
  hKMinusCent : TProfile
  hPiMinusCent : TProfile
  deriving DecidableEq

/-- The four profiles as created by the Xi-proximity analyses:
`TProfile(.., 10, 0, 10)`. -/
def XiProfiles.new : XiProfiles :=
  { hKPlusCent := TProfile.new 10 0 10, hPiPlusCent := TProfile.new 10 0 10,
    hKMinusCent := TProfile.new 10 0 10, hPiMinusCent := TProfile.new 10 0 10 }

namespace VFfE

/-- The body of the first track loop of `analyzexixibar` (and of its three
variants) for one track. The statements `double etaXi = trk.eta;` and
`double etaXiBar = trk.eta;` declare new variables local to their blocks, so
the outer `etaXi` and `etaXiBar` keep their value; only the flags are set. -/
def findXiStep (r : XiRef) (trk : RootTrack) : XiRef :=
  if |trk.eta| > 1 then r
  else if trk.pid = 3312 then { r with hasXi := true }
  else if trk.pid = -3312 then { r with hasXibar := true }
  else r

/-- The first track loop of `analyzexixibar`, from `hasXi = false, hasXibar =
false` and `double etaXi = 0, etaXiBar = 0;`. -/
def findXi (tracks : List RootTrack) : XiRef :=
  tracks.foldl findXiStep { hasXi := false, hasXibar := false, etaXi := 0, etaXiBar := 0 }

/-- The body of the counting loop of the Xi-proximity analyses for one track,
with the cut width `width` and the constant `piMinusCode` to which
`abs(trk.pid)` is compared in the `nPiMinus` line. -/
def countXiTrack (width : ℚ) (piMinusCode : Int) (etaXi etaXiBar : ℚ) (c : XiCounts)
    (trk : RootTrack) : XiCounts :=
  let c1 := if isForwardTrack trk then { c with nFwd := c.nFwd + 1 } else c
  if |trk.eta| > 1 then c1
  else
    let c2 := if |trk.pid| = 211 ∧ |trk.eta - etaXi| < width then
      { c1 with nPiPlus := c1.nPiPlus + 1 } else c1
    let c3 := if |trk.pid| = piMinusCode ∧ |trk.eta - etaXiBar| < width then
      { c2 with nPiMinus := c2.nPiMinus + 1 } else c2
    let c4 := if trk.pid = 321 ∧ |trk.eta - etaXi| < width then
      { c3 with nKPlus := c3.nKPlus + 1 } else c3
    if trk.pid = -321 ∧ |trk.eta - etaXiBar| < width then
      { c4 with nKMinus := c4.nKMinus + 1 } else c4

/-- The body of the event loop of a Xi-proximity analysis up to the `Fill`
calls: `none` when the event is skipped by `continue`, otherwise the class
index `cIndex` and the counters. -/
def xixibarEvent (width : ℚ) (piMinusCode : Int) (percentiles : List ℚ) (evt : RootEvent) :
    Option (ℚ × XiCounts) :=
  let r := findXi evt.tracks
  if !r.hasXi || !r.hasXibar then none
  else
    let c := evt.tracks.foldl (countXiTrack width piMinusCode r.etaXi r.etaXiBar)
      { nFwd := 0, nKPlus := 0, nKMinus := 0, nPiPlus := 0, nPiMinus := 0 }
    some (cIndex percentiles c.nFwd, c)

/-- The event loop of a Xi-proximity analysis: the four `Fill` calls for every
event that is not skipped. -/
def xixibarLoop (width : ℚ) (piMinusCode : Int) (percentiles : List ℚ)
    (events : List RootEvent) : XiProfiles :=
  events.foldl (fun ps evt =>
    match xixibarEvent width piMinusCode percentiles evt with
    | none => ps
    | some (cIdx, c) =>
      { hKPlusCent := ps.hKPlusCent.Fill cIdx c.nKPlus,
        hPiPlusCent := ps.hPiPlusCent.Fill cIdx c.nPiPlus,
        hKMinusCent := ps.hKMinusCent.Fill cIdx c.nKMinus,
        hPiMinusCent := ps.hPiMinusCent.Fill cIdx c.nPiMinus }) XiProfiles.new

/-- The function `analyzexixibar`: cut width `0.2`, `abs(trk.pid) == 211` in
the `nPiMinus` line. -/
def analyzexixibar (hCalib : TH1D) (events : List RootEvent) : XiProfiles :=
  xixibarLoop (2 / 10) 211 (findPercentiles hCalib) events

/-- The function `analyzexixibar01`: cut width `0.1`, `abs(trk.pid) == 211` in
the `nPiMinus` line. -/
def analyzexixibar01 (hCalib : TH1D) (events : List RootEvent) : XiProfiles :=
  xixibarLoop (1 / 10) 211 (findPercentiles hCalib) events

/-- The function `analyzexixibar005`: cut width `0.05`, `abs(trk.pid) == -211`
in the `nPiMinus` line. -/
def analyzexixibar005 (hCalib : TH1D) (events : List RootEvent) : XiProfiles :=
  xixibarLoop (5 / 100) (-211) (findPercentiles hCalib) events

/-- The function `analyzexixibar002`: cut width `0.02`, `abs(trk.pid) == -211`
in the `nPiMinus` line. -/
def analyzexixibar002 (hCalib : TH1D) (events : List RootEvent) : XiProfiles :=
  xixibarLoop (2 / 100) (-211) (findPercentiles hCalib) events

/-- The body of the first track loop of `analyzexixibarFIST` for one track:
here `etaXi` and `etaXiBar` are assigned. -/
def findXiFistStep (r : XiRef) (track : MyParticle) : XiRef :=
  if |track.fEta| > 1 then r
  else if track.fPDG = 3312 then { r with hasXi := true, etaXi := track.fEta }
  else if track.fPDG = -3312 then { r with hasXibar := true, etaXiBar := track.fEta }
  else r

/-- The first track loop of `analyzexixibarFIST`. -/
def findXiFist (tracks : List MyParticle) : XiRef :=
  tracks.foldl findXiFistStep
    { hasXi := false, hasXibar := false, etaXi := 0, etaXiBar := 0 }

/-- The body of the second track loop of `analyzexixibarFIST` for one
track. -/
def countXiFistTrack (etaXi etaXiBar : ℚ) (c : FistXiCounts) (track : MyParticle) :
    FistXiCounts :=
  if |track.fEta| > 1 then c
  else
    let c2 := if |track.fPDG| = 211 ∧ |track.fEta - etaXi| < 2 / 10 then
      { c with nPiPlus := c.nPiPlus + 1 } else c
    let c3 := if |track.fPDG| = 211 ∧ |track.fEta - etaXiBar| < 2 / 10 then
      { c2 with nPiMinus := c2.nPiMinus + 1 } else c2
    let c4 := if track.fPDG = 321 ∧ |track.fEta - etaXi| < 2 / 10 then
      { c3 with nKPlus := c3.nKPlus + 1 } else c3
    if track.fPDG = -321 ∧ |track.fEta - etaXiBar| < 2 / 10 then
      { c4 with nKMinus := c4.nKMinus + 1 } else c4

/-- The event-selection decision of `analyzexixibarFIST`: the entry is kept
unless `!hasXi || !hasXibar`. -/
def fistXiSelected (tracks : List MyParticle) : Bool :=
  !(!(findXiFist tracks).hasXi || !(findXiFist tracks).hasXibar)

/-- The four counts of `analyzexixibarFIST` for the track list of an entry
(computed for the entries that pass the selection). -/
def fistXiCounts (tracks : List MyParticle) : FistXiCounts :=
  tracks.foldl (countXiFistTrack (findXiFist tracks).etaXi (findXiFist tracks).etaXiBar)
    { nKPlus := 0, nKMinus := 0, nPiPlus := 0, nPiMinus := 0 }

/-- The body of the entry loop of `analyzexixibarFIST` up to the `Fill` calls:
`none` when the entry is skipped, otherwise `binIndex` and the counters. -/
def xixibarFistEntry (entry : FistEntry) : Option (Int × FistXiCounts) :=
  if fistXiSelected entry.tracks then some (fistBinIndex entry, fistXiCounts entry.tracks)
  else none

/-- The function `analyzexixibarFIST`: the four `Fill` calls for every entry
that is not skipped. -/
def analyzexixibarFIST (entries : List FistEntry) : XiProfiles :=
  entries.foldl (fun ps entry =>
    match xixibarFistEntry entry with
    | none => ps
    | some (b, c) =>
      { hKPlusCent := ps.hKPlusCent.Fill b c.nKPlus,
        hPiPlusCent := ps.hPiPlusCent.Fill b c.nPiPlus,
        hKMinusCent := ps.hKMinusCent.Fill b c.nKMinus,
        hPiMinusCent := ps.hPiMinusCent.Fill b c.nPiMinus }) XiProfiles.new

end VFfE

/-! ## Generator-level programs (`k1V5.cc`, `Q5UN.cc`, `YOdb.cc`, `GwTx.cc`)
and `RootTrack::init` -/

/-- Modelled from the spec: the particle record of the external event
generator, reduced to the accessors that the programs call (`isFinal`,
`isCharged`, `isHadron`, `phi`, `eta`, `y`, `pT`, `id`). -/
structure Particle where
  isFinal : Bool
  isCharged : Bool
  isHadron : Bool
  phi : ℚ
  eta : ℚ
  y : ℚ
  pT : ℚ
  id : Int

/-- The per-event variables of the dNch/dEta programs. -/
structure DNchCounts where
  nCharged : Int
  nPions : Int
  nKaons : Int
  nLambdas : Int
  nXis : Int
  nOmegas : Int
  dNch_dEta : ℚ
  deriving DecidableEq

/-- The five per-class yield arrays of the dNch/dEta programs. -/
structure DNchYields where
  yieldPions : List ℚ
  yieldKaons : List ℚ
  yieldLambdas : List ℚ
  yieldXis : List ℚ
  yieldOmegas : List ℚ
  deriving DecidableEq

/-- The body of the particle loop of the dNch/dEta programs for one
particle. -/
def dNchCountParticle (c : DNchCounts) (p : Particle) : DNchCounts :=
  if p.isFinal && p.isCharged && decide (|p.eta| < 1 / 2) then
    let c1 := { c with dNch_dEta := c.dNch_dEta + 1 }
    if decide (|p.eta| < 5 / 2) && decide (p.pT > 1 / 10) then
      let c2 := { c1 with nCharged := c1.nCharged + 1 }
      let absid := |p.id|
      if absid = 211 then { c2 with nPions := c2.nPions + 1 }
      else if absid = 310 then { c2 with nKaons := c2.nKaons + 1 }
      else if absid = 3122 then { c2 with nLambdas := c2.nLambdas + 1 }
      else if absid = 3312 then { c2 with nXis := c2.nXis + 1 }
      else if absid = 3334 then { c2 with nOmegas := c2.nOmegas + 1 }
      else c2
    else c1
  else c

/-- The particle loop of the dNch/dEta programs, from all counters `0`. -/
def dNchCount (event : List Particle) : DNchCounts :=
  event.foldl dNchCountParticle
    { nCharged := 0, nPions := 0, nKaons := 0, nLambdas := 0, nXis := 0, nOmegas := 0,
      dNch_dEta := 0 }

/-- The loop `for (int iClass = 0; iClass < nClasses; ++iClass)` that
determines `multiplicityClass`, started at `iClass` with `fuel` iterations
left; without a match `multiplicityClass` keeps its initial value `-1`. -/
def multiplicityClassLoop (dNch_dEtaLimits : List ℚ) (dNch_dEta : ℚ) : Nat → Nat → Int
  | 0, _ => -1
  | fuel + 1, iClass =>
    if dNch_dEta ≥ dNch_dEtaLimits.getD iClass 0 ∧
        dNch_dEta < dNch_dEtaLimits.getD (iClass + 1) 0 then (iClass : Int)
    else multiplicityClassLoop dNch_dEtaLimits dNch_dEta fuel (iClass + 1)

/-- The body of the event loop of the dNch/dEta programs, as far as the yield
arrays are concerned; `event` is `none` when `pythia.next()` fails. -/
def dNchEventStep (nClasses : Nat) (dNch_dEtaLimits : List ℚ) (ys : DNchYields)
    (event : Option (List Particle)) : DNchYields :=
  match event with
  | none => ys
  | some particles =>
    let c := dNchCount particles
    let multiplicityClass := multiplicityClassLoop dNch_dEtaLimits c.dNch_dEta nClasses 0
    if multiplicityClass = -1 ∨ c.nCharged < 10 then ys
    else
      { yieldPions := addAt ys.yieldPions multiplicityClass.toNat c.nPions,
        yieldKaons := addAt ys.yieldKaons multiplicityClass.toNat c.nKaons,
        yieldLambdas := addAt ys.yieldLambdas multiplicityClass.toNat c.nLambdas,
        yieldXis := addAt ys.yieldXis multiplicityClass.toNat c.nXis,
        yieldOmegas := addAt ys.yieldOmegas multiplicityClass.toNat c.nOmegas }

/-- The yield arrays as initialised: `float yield..[nClasses] = {0}`. -/
def DNchYields.new (nClasses : Nat) : DNchYields :=
  { yieldPions := List.replicate nClasses 0, yieldKaons := List.replicate nClasses 0,
    yieldLambdas := List.replicate nClasses 0, yieldXis := List.replicate nClasses 0,
    yieldOmegas := List.replicate nClasses 0 }

namespace k1V5

/-- The event loop of `main` in `k1V5.cc`: the yield arrays after all
events. -/
def eventLoop (events : List (Option (List Particle))) : DNchYields :=
  events.foldl (dNchEventStep nClasses dNch_dEtaLimits) (DNchYields.new nClasses)

end k1V5

namespace Q5UN

/-- The event loop of `main` in `Q5UN.cc`: the yield arrays after all
events. -/
def eventLoop (events : List (Option (List Particle))) : DNchYields :=
  events.foldl (dNchEventStep nClasses dNch_dEtaLimits) (DNchYields.new nClasses)

end Q5UN

namespace YOdb

/-- The per-event counters of `YOdb.cc`. -/
structure Counts where
  nCharged : Int
  nPions : Int
  nKaons : Int
  nLambdas : Int
  nXis : Int
  nOmegas : Int
  forwardMult : Int
  highEtaMult : Int
  deriving DecidableEq

/-- The body of the particle loop of `main` in `YOdb.cc` for one particle. -/
def countParticle (c : Counts) (p : Particle) : Counts :=
  let c1 :=
    if p.isFinal && p.isCharged then
      let eta := p.eta
      let a := if (eta > 28 / 10 ∧ eta < 51 / 10) ∨ (eta > -38 / 10 ∧ eta < -17 / 10) then
        { c with forwardMult := c.forwardMult + 1 } else c
      if |eta| > 3 ∧ |eta| < 5 then { a with highEtaMult := a.highEtaMult + 1 } else a
    else c
  if p.isFinal && decide (|p.eta| < 5 / 2) && decide (p.pT > 1 / 10) then
    let c2 := if p.isCharged then { c1 with nCharged := c1.nCharged + 1 } else c1
    let absid := |p.id|
    if absid = 211 then { c2 with nPions := c2.nPions + 1 }
    else if absid = 310 then { c2 with nKaons := c2.nKaons + 1 }
    else if absid = 3122 then { c2 with nLambdas := c2.nLambdas + 1 }
    else if absid = 3312 then { c2 with nXis := c2.nXis + 1 }
    else if absid = 3334 then { c2 with nOmegas := c2.nOmegas + 1 }
    else c2
  else c1

/-- The particle loop of `main` in `YOdb.cc`, from all counters `0`. -/
def count (event : List Particle) : Counts :=
  event.foldl countParticle
    { nCharged := 0, nPions := 0, nKaons := 0, nLambdas := 0, nXis := 0, nOmegas := 0,
      forwardMult := 0, highEtaMult := 0 }

/-- The table `multThresholds` of `YOdb.cc`. -/
def multThresholds : List Int := [100, 70, 50, 40, 30, 20, 15, 10, 5, 1]

/-- The loop `for (int i = 0; i < 10; ++i)` over `multThresholds`, started at
`i` with `fuel` iterations left; without a match `multiplicityClass` keeps its
initial value `-1`. -/
def multiplicityClassLoop (forwardMult : Int) : Nat → Nat → Int
  | 0, _ => -1
  | fuel + 1, i =>
    if forwardMult ≥ multThresholds.getD i 0 then (i : Int)
    else multiplicityClassLoop forwardMult fuel (i + 1)

/-- The value of `multiplicityClass` after the threshold loop. -/
def multiplicityClass (forwardMult : Int) : Int := multiplicityClassLoop forwardMult 10 0

/-- The index used by `hRatio[multiplicityClass]->Fill(...)` for an event, if
the event reaches that statement (`nCharged >= 10` and `nPions > 0`). -/
def fillIndex (event : List Particle) : Option Int :=
  let c := count event
  if c.nCharged < 10 then none
  else if c.nPions > 0 then some (multiplicityClass c.forwardMult)
  else none

end YOdb

namespace GwTx

/-- The `isForwardTrack` of `GwTx.cc` (charged-only variant). -/
def isForwardTrack (p : Particle) : Bool :=
  if !p.isCharged || decide (p.pT < 1 / 10) then false
  else
    let eta := p.eta
    (decide (eta > -37 / 10) && decide (eta < -17 / 10)) ||
      (decide (eta > 28 / 10) && decide (eta < 51 / 10))

end GwTx

/-- The default constructor `RootTrack()` of `RootEvent.h`. -/
def RootTrack.default : RootTrack :=
  { phi := 0, eta := 0, y := 0, pT := 0, pid := 0, isHadron := false, isCharged := false }

namespace main144

/-- The method `RootTrack::init` of `main144.h`: the returned flag and the
track after the call. -/
def init (trk : RootTrack) (p : Particle) : Bool × RootTrack :=
  if p.isFinal then
    (true, { trk with phi := p.phi, eta := p.eta, y := p.y, pT := p.pT, pid := p.id })
  else (false, trk)

end main144

namespace dSiB

/-- The method `RootTrack::init` of `RootEvent.cxx` (`dSiB.cxx`): the returned
flag and the track after the call. -/
def init (trk : RootTrack) (p : Particle) : Bool × RootTrack :=
  (true, { trk with phi := p.phi, eta := p.eta, y := p.y, pT := p.pT, pid := p.id,
                    isHadron := p.isHadron, isCharged := p.isCharged })

end dSiB

/-! ## Sample events for the generator-level programs and the Xi analyses -/

/-- A final charged pion at pseudorapidity `0` with `pT = 1`. -/
def centralPion : Particle :=
  { isFinal := true, isCharged := true, isHadron := true, phi := 0, eta := 0, y := 0,
    pT := 1, id := 211 }

/-- A final charged pion inside the forward window `(2.8, 5.1)` with `pT`
exactly `0.1`. -/
def softForwardPion : Particle :=
  { isFinal := true, isCharged := true, isHadron := true, phi := 0, eta := 3, y := 3,
    pT := 1 / 10, id := 211 }

/-- A track of kind `pid` at pseudorapidity `eta`. -/
def trackAt (pid : Int) (eta : ℚ) : RootTrack :=
  { phi := 0, eta := eta, y := eta, pT := 1, pid := pid, isHadron := true, isCharged := true }

/-- A Thermal-FIST particle of kind `fPDG` at pseudorapidity `fEta`. -/
def fistParticleAt (fPDG : Int) (fEta : ℚ) : MyParticle :=
  { fPt := 1, fPhi := 0, fY := fEta, fMass := 0, fEta := fEta, fPDG := fPDG, fCharge := 1,
    fIsPrimary := 1, fStatus := 0 }

/-- An event with a Xi at `eta = 0.8`, an anti-Xi at `eta = -0.8` and a pion
at `eta = 0.1`. -/
def xiFarFromPion : RootEvent :=
  { weight := 1, tracks := [trackAt 3312 (8 / 10), trackAt (-3312) (-8 / 10),
      trackAt 211 (1 / 10)] }

/-- An event with a Xi, an anti-Xi and a negative pion, all at `eta = 0`. -/
def xiWithPiMinus : RootEvent :=
  { weight := 1, tracks := [trackAt 3312 0, trackAt (-3312) 0, trackAt (-211) 0] }

/-- A Thermal-FIST track list with two Xi at different pseudorapidities
(`0.5`, then `-0.5`), an anti-Xi at `0` and a pion at `0.5`. -/
def twoXiTracks : List MyParticle :=
  [fistParticleAt 3312 (1 / 2), fistParticleAt 3312 (-1 / 2), fistParticleAt (-3312) 0,
    fistParticleAt 211 (1 / 2)]

/-- The track list `twoXiTracks` with its first two particles exchanged. -/
def twoXiTracksSwapped : List MyParticle :=
  [fistParticleAt 3312 (-1 / 2), fistParticleAt 3312 (1 / 2), fistParticleAt (-3312) 0,
    fistParticleAt 211 (1 / 2)]

/-- A Thermal-FIST track list with one Xi, one anti-Xi and a pion, all at
pseudorapidity `0`. -/
def oneXiTracks : List MyParticle :=
  [fistParticleAt 3312 0, fistParticleAt (-3312) 0, fistParticleAt 211 0]

/-- The track list `oneXiTracks` with the pion first. -/
def oneXiTracksRotated : List MyParticle :=
  [fistParticleAt 211 0, fistParticleAt 3312 0, fistParticleAt (-3312) 0]

/-- The first two cells of each of the five yield arrays are `0`. -/
def DNchYields.LowClassesEmpty (ys : DNchYields) : Prop :=
  (ys.yieldPions.getD 0 0 = 0 ∧ ys.yieldPions.getD 1 0 = 0) ∧
  (ys.yieldKaons.getD 0 0 = 0 ∧ ys.yieldKaons.getD 1 0 = 0) ∧
  (ys.yieldLambdas.getD 0 0 = 0 ∧ ys.yieldLambdas.getD 1 0 = 0) ∧
  (ys.yieldXis.getD 0 0 = 0 ∧ ys.yieldXis.getD 1 0 = 0) ∧
  (ys.yieldOmegas.getD 0 0 = 0 ∧ ys.yieldOmegas.getD 1 0 = 0)
/-! ## Auxiliary facts about the histogram integral -/

namespace TH1D

lemma sumBins_nonneg (f : Int → ℚ) (n : Nat) :
    ∀ lo : Int, (∀ i, lo ≤ i → i < lo + n → 0 ≤ f i) → 0 ≤ sumBins f lo n := by
  induction n with
  | zero => intro lo _; simp [sumBins]
  | succ n ih =>
    intro lo hf
    have h1 : 0 ≤ f lo := hf lo le_rfl (by push_cast; omega)
    have h2 : 0 ≤ sumBins f (lo + 1) n :=
      ih (lo + 1) (fun i hi hi2 => hf i (by omega) (by push_cast; omega))
    simp only [sumBins]
    linarith

lemma sumBins_nonpos (f : Int → ℚ) (n : Nat) :
    ∀ lo : Int, (∀ i, lo ≤ i → i < lo + n → f i ≤ 0) → sumBins f lo n ≤ 0 := by
  induction n with
  | zero => intro lo _; simp [sumBins]
  | succ n ih =>
    intro lo hf
    have h1 : f lo ≤ 0 := hf lo le_rfl (by push_cast; omega)
    have h2 : sumBins f (lo + 1) n ≤ 0 :=
      ih (lo + 1) (fun i hi hi2 => hf i (by omega) (by push_cast; omega))
    simp only [sumBins]
    linarith

/-- Inside the regular range no clamping happens: the upper-tail integral is
the plain accumulation over the bins `b..nbins`. -/
lemma Integral_tail (h : TH1D) (b : Int) (hb0 : 0 ≤ b) (hb : b ≤ h.GetNbinsX) :
    h.Integral b h.GetNbinsX =
      sumBins (fun i => h.GetBinContent i * h.GetBinWidth) b (h.GetNbinsX + 1 - b).toNat := by
  unfold Integral
  have h1 : ¬ b < 0 := by omega
  simp only [h1, if_false]
  have h2 : ¬ (h.GetNbinsX ≥ h.GetNbinsX + 2 ∨ h.GetNbinsX < b) := by omega
  simp only [h2, if_false]

/-- The upper-tail integral loses exactly the content of bin `b` (times the
bin width) when its lower bound moves from `b` to `b + 1`. -/
lemma Integral_tail_step (h : TH1D) (b : Int) (hb0 : 0 ≤ b) (hb : b < h.GetNbinsX) :
    h.Integral b h.GetNbinsX =
      h.GetBinContent b * h.GetBinWidth + h.Integral (b + 1) h.GetNbinsX := by
  rw [Integral_tail h b hb0 (by omega), Integral_tail h (b + 1) (by omega) (by omega)]
  have h1 : (h.GetNbinsX + 1 - b).toNat = (h.GetNbinsX + 1 - (b + 1)).toNat + 1 := by omega
  rw [h1, sumBins]

lemma Integral_tail_last (h : TH1D) (hn : 0 ≤ h.GetNbinsX) :
    h.Integral h.GetNbinsX h.GetNbinsX = h.GetBinContent h.GetNbinsX * h.GetBinWidth := by
  rw [Integral_tail h _ hn le_rfl]
  have h1 : (h.GetNbinsX + 1 - h.GetNbinsX).toNat = 0 + 1 := by omega
  rw [h1, sumBins, sumBins, add_zero]

lemma GetNbinsX_nonneg (h : TH1D) : 0 ≤ h.GetNbinsX := by
  unfold GetNbinsX; omega

lemma GetBinContent_nonneg (h : TH1D) (hpos : ∀ x ∈ h.bins, 0 ≤ x) (b : Int)
    (hb1 : 1 ≤ b) (hb : b ≤ h.GetNbinsX) : 0 ≤ h.GetBinContent b := by
  unfold GetBinContent
  have h1 : ¬ b ≤ 0 := by omega
  simp only [h1, if_false, hb, if_true]
  have hlt : b.toNat - 1 < h.bins.length := by unfold GetNbinsX at hb; omega
  rw [List.getD_eq_getElem _ _ hlt]
  exact hpos _ (List.getElem_mem _)

/-- With non-negative contents and a non-negative bin width the upper-tail
integral does not grow when its lower bound is raised by one bin. -/
lemma Integral_tail_succ_le (h : TH1D) (hpos : ∀ x ∈ h.bins, 0 ≤ x) (hw : 0 ≤ h.GetBinWidth)
    (b : Int) (hb1 : 1 ≤ b) (hb : b < h.GetNbinsX) :
    h.Integral (b + 1) h.GetNbinsX ≤ h.Integral b h.GetNbinsX := by
  rw [Integral_tail_step h b (by omega) hb]
  have := mul_nonneg (GetBinContent_nonneg h hpos b hb1 (by omega)) hw
  linarith

/-- With non-negative contents and a non-negative bin width the upper-tail
integral is antitone in its lower bound. -/
lemma Integral_tail_anti (h : TH1D) (hpos : ∀ x ∈ h.bins, 0 ≤ x) (hw : 0 ≤ h.GetBinWidth)
    (b b2 : Int) (hb1 : 1 ≤ b) (hbb : b ≤ b2) (hb2 : b2 ≤ h.GetNbinsX) :
    h.Integral b2 h.GetNbinsX ≤ h.Integral b h.GetNbinsX := by
  obtain ⟨d, rfl⟩ : ∃ d : Nat, b2 = b + d := ⟨(b2 - b).toNat, by omega⟩
  clear hbb
  induction d with
  | zero => simp
  | succ d ih =>
    have h1 := ih (by push_cast at hb2 ⊢; omega)
    have h2 := Integral_tail_succ_le h hpos hw (b + d) (by omega) (by push_cast at hb2 ⊢; omega)
    have h3 : b + ((d + 1 : Nat) : Int) = b + d + 1 := by push_cast; ring
    rw [h3]
    linarith

lemma Integral_tail_nonneg (h : TH1D) (hpos : ∀ x ∈ h.bins, 0 ≤ x) (hw : 0 ≤ h.GetBinWidth)
    (b : Int) (hb1 : 1 ≤ b) (hb : b ≤ h.GetNbinsX) : 0 ≤ h.Integral b h.GetNbinsX := by
  rw [Integral_tail h b (by omega) hb]
  apply sumBins_nonneg
  intro i hi hi2
  exact mul_nonneg (GetBinContent_nonneg h hpos i (by omega) (by omega)) hw

/-- A histogram without regular bins has integral zero. -/
lemma IntegralWidth_eq_zero_of_nbins (h : TH1D) (hn : h.GetNbinsX = 0) :
    h.IntegralWidth = 0 := by
  have hw : h.GetBinWidth = 0 := by simp [GetBinWidth, hn]
  unfold IntegralWidth Integral
  apply le_antisymm
  · apply sumBins_nonpos; intro i _ _; simp [hw]
  · apply sumBins_nonneg; intro i _ _; simp [hw]

/-- A positive total integral of non-negative contents forces at least one
regular bin and a positive bin width. -/
lemma pos_of_IntegralWidth_pos (h : TH1D) (hpos : ∀ x ∈ h.bins, 0 ≤ x)
    (ht : 0 < h.IntegralWidth) : 1 ≤ h.GetNbinsX ∧ 0 < h.GetBinWidth := by
  have hn : 1 ≤ h.GetNbinsX := by
    rcases (GetNbinsX_nonneg h).lt_or_eq with h1 | h1
    · omega
    · rw [IntegralWidth_eq_zero_of_nbins h h1.symm] at ht; exact absurd ht (lt_irrefl _)
  refine ⟨hn, ?_⟩
  by_contra hw
  push_neg at hw
  have : h.IntegralWidth ≤ 0 := by
    unfold IntegralWidth
    rw [Integral_tail h 1 (by omega) hn]
    apply sumBins_nonpos
    intro i hi hi2
    exact mul_nonpos_of_nonneg_of_nonpos (GetBinContent_nonneg h hpos i hi (by omega)) hw
  linarith

end TH1D

/-! ## The two searches -/

/-- A found bin of the downward scan is the highest bin at or below the start
whose upper-tail integral reaches the threshold. -/
lemma scanDown_some (hCalib : TH1D) (nbins : Int) (thr : ℚ) (n : Nat) (b : Int)
    (hs : scanDown hCalib nbins thr n = some b) :
    1 ≤ b ∧ b ≤ n ∧ thr ≤ hCalib.Integral b nbins ∧
      ∀ b2 : Int, b < b2 → b2 ≤ n → hCalib.Integral b2 nbins < thr := by
  induction n with
  | zero => simp [scanDown] at hs
  | succ n ih =>
    simp only [scanDown] at hs
    split at hs
    · rename_i hge
      injection hs with hs
      subst hs
      refine ⟨by omega, by push_cast; omega, hge, ?_⟩
      intro b2 h1 h2
      push_cast at h2
      omega
    · rename_i hlt
      obtain ⟨h1, h2, h3, h4⟩ := ih hs
      refine ⟨h1, by push_cast; omega, h3, ?_⟩
      intro b2 hb2 hb2n
      push_cast at hb2n
      rcases (show b2 ≤ n ∨ b2 = n + 1 by omega) with h5 | h5
      · exact h4 b2 hb2 h5
      · subst h5; exact lt_of_not_ge hlt

/-- A downward scan that runs out has seen only bins whose upper-tail integral
is below the threshold. -/
lemma scanDown_none (hCalib : TH1D) (nbins : Int) (thr : ℚ) (n : Nat)
    (hs : scanDown hCalib nbins thr n = none) :
    ∀ b : Int, 1 ≤ b → b ≤ n → hCalib.Integral b nbins < thr := by
  induction n with
  | zero => intro b h1 h2; simp at h2; omega
  | succ n ih =>
    simp only [scanDown] at hs
    split at hs
    · simp at hs
    · rename_i hlt
      intro b h1 h2
      push_cast at h2
      rcases (show b ≤ n ∨ b = n + 1 by omega) with h5 | h5
      · exact ih hs b h1 h5
      · subst h5; exact lt_of_not_ge hlt

/-- The midpoint `(low + high) / 2` of C++ integer division lies between
`low` and `high`. -/
lemma mid_bounds (low high : Int) (h : low ≤ high) :
    low ≤ (low + high).tdiv 2 ∧ (low + high).tdiv 2 ≤ high := by
  have hmid : 2 * (low + high).tdiv 2 ≤ low + high + 1 ∧
      low + high - 1 ≤ 2 * (low + high).tdiv 2 := by
    rcases le_total 0 (low + high) with h0 | h0
    · rw [Int.tdiv_eq_ediv h0 (by norm_num)]; omega
    · have h1 : (low + high).tdiv 2 = -((-(low + high)).tdiv 2) := by
        rw [Int.neg_tdiv, neg_neg]
      rw [h1, Int.tdiv_eq_ediv (by omega) (by norm_num)]; omega
  omega

/-- Loop invariant of the binary search: when the bins below `low` reach the
threshold, the bins above `high` do not, and reaching the threshold is
inherited by lower bins, the final `high` separates the two kinds of bins. -/
lemma bisect_spec (hCalib : TH1D) (nbins : Int) (thr : ℚ)
    (hmono : ∀ b b2 : Int, 1 ≤ b → b ≤ b2 → b2 ≤ nbins →
      thr ≤ hCalib.Integral b2 nbins → thr ≤ hCalib.Integral b nbins)
    (m : Nat) : ∀ low high : Int, (high + 1 - low).toNat = m →
    1 ≤ low → high ≤ nbins → low ≤ high + 1 →
    (∀ b : Int, 1 ≤ b → b < low → thr ≤ hCalib.Integral b nbins) →
    (∀ b : Int, high < b → b ≤ nbins → hCalib.Integral b nbins < thr) →
    low - 1 ≤ bisect hCalib nbins thr low high ∧
    bisect hCalib nbins thr low high ≤ high ∧
    (∀ b : Int, 1 ≤ b → b ≤ bisect hCalib nbins thr low high →
      thr ≤ hCalib.Integral b nbins) ∧
    (∀ b : Int, bisect hCalib nbins thr low high < b → b ≤ nbins →
      hCalib.Integral b nbins < thr) := by
  induction m using Nat.strong_induction_on with
  | _ m ih =>
    intro low high hm hl hh hlh hbelow habove
    rw [bisect]
    by_cases hle : low ≤ high
    · simp only [hle, if_true]
      obtain ⟨hm1, hm2⟩ := mid_bounds low high hle
      by_cases hint : hCalib.Integral ((low + high).tdiv 2) nbins ≥ thr
      · simp only [hint, if_true]
        have := ih (high + 1 - ((low + high).tdiv 2 + 1)).toNat (by omega)
          ((low + high).tdiv 2 + 1) high rfl (by omega) hh (by omega)
          (fun b hb1 hb2 => hmono b _ hb1 (by omega) (by omega) hint) habove
        obtain ⟨h1, h2, h3, h4⟩ := this
        exact ⟨by omega, h2, h3, h4⟩
      · simp only [hint, if_false]
        have := ih ((low + high).tdiv 2 - 1 + 1 - low).toNat (by omega)
          low ((low + high).tdiv 2 - 1) rfl hl (by omega) (by omega) hbelow
          (fun b hb1 hb2 => by
            by_contra hc
            push_neg at hc
            exact hint (hmono _ b (by omega) (by omega) hb2 hc))
        obtain ⟨h1, h2, h3, h4⟩ := this
        exact ⟨h1, by omega, h3, h4⟩
    · simp only [hle, if_false]
      refine ⟨by omega, le_rfl, ?_, habove⟩
      intro b hb1 hb2
      exact hbelow b hb1 (by omega)

/-- Bin numbers found by the binary search, for an upper-tail integral that is
antitone in its lower bound: the final `high` is `0` or the highest bin
reaching the threshold. -/
lemma bisect_top (hCalib : TH1D) (thr : ℚ)
    (hmono : ∀ b b2 : Int, 1 ≤ b → b ≤ b2 → b2 ≤ hCalib.GetNbinsX →
      thr ≤ hCalib.Integral b2 hCalib.GetNbinsX → thr ≤ hCalib.Integral b hCalib.GetNbinsX) :
    0 ≤ bisect hCalib hCalib.GetNbinsX thr 1 hCalib.GetNbinsX ∧
    bisect hCalib hCalib.GetNbinsX thr 1 hCalib.GetNbinsX ≤ hCalib.GetNbinsX ∧
    (∀ b : Int, 1 ≤ b → b ≤ bisect hCalib hCalib.GetNbinsX thr 1 hCalib.GetNbinsX →
      thr ≤ hCalib.Integral b hCalib.GetNbinsX) ∧
    (∀ b : Int, bisect hCalib hCalib.GetNbinsX thr 1 hCalib.GetNbinsX < b →
      b ≤ hCalib.GetNbinsX → hCalib.Integral b hCalib.GetNbinsX < thr) := by
  have hn := TH1D.GetNbinsX_nonneg hCalib
  have := bisect_spec hCalib hCalib.GetNbinsX thr hmono _ 1 hCalib.GetNbinsX rfl le_rfl le_rfl
    (by omega) (fun b h1 h2 => by omega) (fun b h1 h2 => by omega)
  obtain ⟨h1, h2, h3, h4⟩ := this
  exact ⟨by omega, h2, h3, h4⟩

/-- The two searches agree whenever the upper-tail integral is antitone: the
binary search ends at the bin found by the downward scan, and at `0` when the
scan finds none. -/
lemma bisect_eq_scanDown (hCalib : TH1D) (thr : ℚ)
    (hmono : ∀ b b2 : Int, 1 ≤ b → b ≤ b2 → b2 ≤ hCalib.GetNbinsX →
      thr ≤ hCalib.Integral b2 hCalib.GetNbinsX → thr ≤ hCalib.Integral b hCalib.GetNbinsX) :
    bisect hCalib hCalib.GetNbinsX thr 1 hCalib.GetNbinsX =
      (scanDown hCalib hCalib.GetNbinsX thr hCalib.GetNbinsX.toNat).getD 0 := by
  have hn := TH1D.GetNbinsX_nonneg hCalib
  obtain ⟨h0, h1, h2, h3⟩ := bisect_top hCalib thr hmono
  cases hs : scanDown hCalib hCalib.GetNbinsX thr hCalib.GetNbinsX.toNat with
  | none =>
    have hnone := scanDown_none hCalib _ thr _ hs
    simp only [Option.getD_none]
    by_contra hne
    have hr := h2 (bisect hCalib hCalib.GetNbinsX thr 1 hCalib.GetNbinsX) (by omega) le_rfl
    have := hnone (bisect hCalib hCalib.GetNbinsX thr 1 hCalib.GetNbinsX) (by omega) (by omega)
    linarith
  | some b =>
    obtain ⟨s1, s2, s3, s4⟩ := scanDown_some hCalib _ thr _ b hs
    simp only [Option.getD_some]
    rcases lt_trichotomy (bisect hCalib hCalib.GetNbinsX thr 1 hCalib.GetNbinsX) b with h | h | h
    · have := h3 b h (by omega); linarith
    · exact h
    · have := s4 (bisect hCalib hCalib.GetNbinsX thr 1 hCalib.GetNbinsX) h (by omega)
      have := h2 (bisect hCalib hCalib.GetNbinsX thr 1 hCalib.GetNbinsX) (by omega) le_rfl
      linarith

/-! ## From the searches to the boundaries -/

lemma IsTopBin_unique (hCalib : TH1D) (thr : ℚ) (b b2 : Int)
    (h1 : IsTopBin hCalib thr b) (h2 : IsTopBin hCalib thr b2) : b = b2 := by
  obtain ⟨_, a2, a3, a4⟩ := h1
  obtain ⟨_, c2, c3, c4⟩ := h2
  rcases lt_trichotomy b b2 with h | h | h
  · have := a4 b2 h c2; linarith
  · exact h
  · have := c4 b h a2; linarith

/-- A bin found by the downward scan from `nbins` is the top bin. -/
lemma scanDown_isTopBin (hCalib : TH1D) (thr : ℚ) (b : Int)
    (hs : scanDown hCalib hCalib.GetNbinsX thr hCalib.GetNbinsX.toNat = some b) :
    IsTopBin hCalib thr b := by
  have hn := TH1D.GetNbinsX_nonneg hCalib
  obtain ⟨s1, s2, s3, s4⟩ := scanDown_some hCalib _ thr _ b hs
  exact ⟨s1, by omega, s3, fun b2 h1 h2 => s4 b2 h1 (by omega)⟩

/-- The downward scan finds a bin as soon as bin `1` reaches the threshold. -/
lemma scanDown_found (hCalib : TH1D) (thr : ℚ) (hn : 1 ≤ hCalib.GetNbinsX)
    (h1 : thr ≤ hCalib.Integral 1 hCalib.GetNbinsX) :
    ∃ b, scanDown hCalib hCalib.GetNbinsX thr hCalib.GetNbinsX.toNat = some b := by
  cases hs : scanDown hCalib hCalib.GetNbinsX thr hCalib.GetNbinsX.toNat with
  | none =>
    have := scanDown_none hCalib _ thr _ hs 1 le_rfl (by omega)
    linarith
  | some b => exact ⟨b, rfl⟩

lemma threshold_le_total (p total : ℚ) (hp : p ≤ 100) (ht : 0 ≤ total) :
    p / 100 * total ≤ total := by
  have h1 : p / 100 ≤ 1 := by linarith
  calc p / 100 * total ≤ 1 * total := mul_le_mul_of_nonneg_right h1 ht
    _ = total := one_mul _

/-- For a threshold of at most 100 percent of a non-negative total the linear
scan pushes the centre of the top bin. -/
lemma linearBoundary_topBin (hCalib : TH1D) (p : ℚ) (hn : 1 ≤ hCalib.GetNbinsX)
    (ht : 0 ≤ hCalib.IntegralWidth) (hp : p ≤ 100) :
    ∃ b : Int, IsTopBin hCalib (p / 100 * hCalib.IntegralWidth) b ∧
      linearBoundary hCalib p = some (hCalib.GetBinCenter b) := by
  obtain ⟨b, hb⟩ := scanDown_found hCalib (p / 100 * hCalib.IntegralWidth) hn
    (threshold_le_total p _ hp ht)
  refine ⟨b, scanDown_isTopBin hCalib _ b hb, ?_⟩
  simp only [linearBoundary, hb, Option.map_some']

/-- The upper-tail integral is antitone in its lower bound, in the form the
binary search needs. -/
lemma tail_reaches_mono (hCalib : TH1D) (hpos : ∀ x ∈ hCalib.bins, 0 ≤ x)
    (hw : 0 ≤ hCalib.GetBinWidth) (thr : ℚ) :
    ∀ b b2 : Int, 1 ≤ b → b ≤ b2 → b2 ≤ hCalib.GetNbinsX →
      thr ≤ hCalib.Integral b2 hCalib.GetNbinsX → thr ≤ hCalib.Integral b hCalib.GetNbinsX :=
  fun b b2 h1 h2 h3 h4 => le_trans h4 (TH1D.Integral_tail_anti hCalib hpos hw b b2 h1 h2 h3)

/-- For a threshold of at most 100 percent of a non-negative total the binary
search pushes what the linear scan pushes. -/
lemma linearBoundary_eq_binaryBoundary (hCalib : TH1D) (hpos : ∀ x ∈ hCalib.bins, 0 ≤ x)
    (hw : 0 ≤ hCalib.GetBinWidth) (hn : 1 ≤ hCalib.GetNbinsX)
    (ht : 0 ≤ hCalib.IntegralWidth) (p : ℚ) (hp : p ≤ 100) :
    linearBoundary hCalib p = some (binaryBoundary hCalib p) := by
  obtain ⟨b, hb⟩ := scanDown_found hCalib (p / 100 * hCalib.IntegralWidth) hn
    (threshold_le_total p _ hp ht)
  have hbis := bisect_eq_scanDown hCalib (p / 100 * hCalib.IntegralWidth)
    (tail_reaches_mono hCalib hpos hw _)
  rw [hb, Option.getD_some] at hbis
  simp only [linearBoundary, binaryBoundary, hb, hbis, Option.map_some']

lemma filterMap_eq_map_of_some {α β : Type} (f : α → Option β) (g : α → β) (l : List α)
    (h : ∀ a ∈ l, f a = some (g a)) : l.filterMap f = l.map g := by
  induction l with
  | nil => rfl
  | cons a l ih =>
    rw [List.filterMap_cons, h a (List.mem_cons_self _ _), List.map_cons,
      ih (fun x hx => h x (List.mem_cons_of_mem _ hx))]

lemma findPercentilesBinary_eq_linear (hCalib : TH1D) (hpos : ∀ x ∈ hCalib.bins, 0 ≤ x)
    (hw : 0 ≤ hCalib.GetBinWidth) (hn : 1 ≤ hCalib.GetNbinsX)
    (ht : 0 ≤ hCalib.IntegralWidth) (ps : List ℚ) (hps : ∀ p ∈ ps, p ≤ 100) :
    findPercentilesBinary ps hCalib = findPercentilesLinear ps hCalib := by
  unfold findPercentilesBinary findPercentilesLinear
  exact (filterMap_eq_map_of_some _ _ ps
    (fun p hp => linearBoundary_eq_binaryBoundary hCalib hpos hw hn ht p (hps p hp))).symm

lemma percentilesVFfE_le : ∀ p ∈ VFfE.percentiles, p ≤ 100 := by
  intro p hp
  simp only [VFfE.percentiles, List.mem_cons, List.mem_singleton, List.not_mem_nil,
    or_false] at hp
  rcases hp with h | h | h | h | h | h | h | h | h | h <;> subst h <;> norm_num

lemma percentilesXVxX_le : ∀ p ∈ XVxX.percentiles, p ≤ 100 := by
  intro p hp
  simp only [XVxX.percentiles, List.mem_cons, List.mem_singleton, List.not_mem_nil,
    or_false] at hp
  rcases hp with h | h | h | h | h | h | h | h | h | h <;> subst h <;> norm_num

lemma percentilesVFfE_sorted : List.Pairwise (fun a b => a ≤ b) VFfE.percentiles := by
  norm_num [VFfE.percentiles, List.pairwise_cons]

lemma GetBinWidth_pos (hCalib : TH1D) (hx : hCalib.xmin < hCalib.xmax)
    (hn : 1 ≤ hCalib.GetNbinsX) : 0 < hCalib.GetBinWidth := by
  unfold TH1D.GetBinWidth
  apply div_pos (by linarith)
  exact_mod_cast (by omega : 0 < hCalib.GetNbinsX)

lemma GetBinCenter_mono (hCalib : TH1D) (hw : 0 ≤ hCalib.GetBinWidth) (b b2 : Int)
    (h : b ≤ b2) : hCalib.GetBinCenter b ≤ hCalib.GetBinCenter b2 := by
  unfold TH1D.GetBinCenter
  have h1 : (b : ℚ) ≤ (b2 : ℚ) := by exact_mod_cast h
  have := mul_le_mul_of_nonneg_right (sub_le_sub_right h1 1) hw
  linarith

/-- Below the lowest non-empty bin the upper-tail integral is the total. -/
lemma Integral_tail_eq_total_below (hCalib : TH1D) (m : Int) (hmn : m ≤ hCalib.GetNbinsX)
    (hzero : ∀ i : Int, 1 ≤ i → i < m → hCalib.GetBinContent i = 0) :
    ∀ d : Nat, 1 + (d : Int) ≤ m →
      hCalib.Integral (1 + d) hCalib.GetNbinsX = hCalib.Integral 1 hCalib.GetNbinsX := by
  intro d
  induction d with
  | zero => intro _; simp
  | succ d ih =>
    intro hd
    push_cast at hd
    have h1 := ih (by omega)
    have h2 := TH1D.Integral_tail_step hCalib (1 + d) (by omega) (by omega)
    rw [hzero (1 + d) (by omega) (by omega), zero_mul, zero_add] at h2
    have h3 : (1 : Int) + ((d + 1 : Nat) : Int) = 1 + d + 1 := by push_cast; ring
    rw [h3, ← h2, h1]

/-! ## Policy A -/

/-- The loop never raises the running class index. -/
lemma cIndexLoop_le (nFwd : Int) (bs : List ℚ) : ∀ c : ℚ, cIndexLoop nFwd bs c ≤ c := by
  induction bs with
  | nil => intro c; simp [cIndexLoop]
  | cons p rest ih =>
    intro c
    simp only [cIndexLoop]
    split
    · exact le_rfl
    · have := ih (c - 1); linarith

/-- The loop decrements once per boundary visited before the first boundary
that the count exceeds. -/
lemma cIndexLoop_findIdx (nFwd : Int) (bs : List ℚ) : ∀ c : ℚ,
    cIndexLoop nFwd bs c = c - (bs.findIdx (fun p => decide ((nFwd : ℚ) > p)) : ℚ) := by
  induction bs with
  | nil => intro c; simp [cIndexLoop]
  | cons p rest ih =>
    intro c
    simp only [cIndexLoop, List.findIdx_cons]
    by_cases h : (nFwd : ℚ) > p
    · simp [h]
    · simp only [h, if_false, decide_False, cond_false, ih]
      push_cast
      ring

/-- A count that exceeds no boundary is decremented once per boundary. -/
lemma cIndexLoop_all (nFwd : Int) (bs : List ℚ) (h : ∀ p ∈ bs, (nFwd : ℚ) ≤ p) : ∀ c : ℚ,
    cIndexLoop nFwd bs c = c - (bs.length : ℚ) := by
  induction bs with
  | nil => intro c; simp [cIndexLoop]
  | cons p rest ih =>
    intro c
    have hp : ¬ (nFwd : ℚ) > p := not_lt.mpr (h p (List.mem_cons_self _ _))
    simp only [cIndexLoop, hp, if_false, List.length_cons]
    rw [ih (fun q hq => h q (List.mem_cons_of_mem _ hq))]
    push_cast
    ring

lemma cIndexLoop_mono (n1 n2 : Int) (h : n1 ≤ n2) (bs : List ℚ) : ∀ c : ℚ,
    cIndexLoop n1 bs c ≤ cIndexLoop n2 bs c := by
  have hq : (n1 : ℚ) ≤ (n2 : ℚ) := by exact_mod_cast h
  induction bs with
  | nil => intro c; simp [cIndexLoop]
  | cons p rest ih =>
    intro c
    simp only [cIndexLoop]
    by_cases h1 : (n1 : ℚ) > p
    · have h2 : (n2 : ℚ) > p := lt_of_lt_of_le h1 hq
      simp [h1, h2]
    · by_cases h2 : (n2 : ℚ) > p
      · simp only [h1, h2, if_false, if_true]
        have := cIndexLoop_le n1 rest (c - 1)
        linarith
      · simp only [h1, h2, if_false]
        exact ih (c - 1)

/-- C2 (as stated, refuted): with the ten boundaries `5, 10, ..., 50` and the
forward count `0`, which is at most the smallest boundary, the class index is
not `0.5`. -/
theorem cIndex_lowest_not_half :
    ¬ (∀ (bs : List ℚ) (n : Int), bs.length = 10 → (∀ p ∈ bs, (n : ℚ) ≤ p) →
      cIndex bs n = 1 / 2) := by
  intro hall
  have h := hall [5, 10, 15, 20, 25, 30, 35, 40, 45, 50] 0 rfl (by
    intro p hp
    simp only [List.mem_cons, List.mem_singleton, List.not_mem_nil, or_false] at hp
    rcases hp with h | h | h | h | h | h | h | h | h | h <;> subst h <;> norm_num)
  norm_num [cIndex, cIndexLoop] at h

/-- C2 (amended): for every list of exactly ten boundaries and every forward
count that is at most every boundary (hence at most the smallest one), the
class index is `9.5 - 10 = -0.5`, one step below the lowest class value
`0.5`. -/
theorem cIndex_lowest (bs : List ℚ) (n : Int) (hlen : bs.length = 10)
    (hle : ∀ p ∈ bs, (n : ℚ) ≤ p) : cIndex bs n = -1 / 2 := by
  unfold cIndex
  rw [cIndexLoop_all n bs hle, hlen]
  norm_num

/-- Witness for C2 (amended): the boundaries `50, 45, ..., 5` and the
count `3`. -/
theorem cIndex_lowest_witness :
    ([50, 45, 40, 35, 30, 25, 20, 15, 10, 5] : List ℚ).length = 10 ∧
    (∀ p ∈ ([50, 45, 40, 35, 30, 25, 20, 15, 10, 5] : List ℚ), ((3 : Int) : ℚ) ≤ p) ∧
    cIndex [50, 45, 40, 35, 30, 25, 20, 15, 10, 5] 3 = -1 / 2 :=
  have hle : ∀ p ∈ ([50, 45, 40, 35, 30, 25, 20, 15, 10, 5] : List ℚ), ((3 : Int) : ℚ) ≤ p := by
    intro p hp
    simp only [List.mem_cons, List.mem_singleton, List.not_mem_nil, or_false] at hp
    rcases hp with h | h | h | h | h | h | h | h | h | h <;> subst h <;> norm_num
  ⟨rfl, hle, cIndex_lowest _ 3 rfl hle⟩

/-- C3 (as stated, refuted): with the boundaries `5, 10, ..., 50` the counts
`0, 5, 12, 50, 51` do not yield the class indices `0.5, 1.5, 2.5, 9.5, 9.5`. -/
theorem cIndex_example_not_as_stated :
    ([0, 5, 12, 50, 51] : List Int).map (cIndex [5, 10, 15, 20, 25, 30, 35, 40, 45, 50]) ≠
      [1 / 2, 3 / 2, 5 / 2, 19 / 2, 19 / 2] := by
  norm_num [cIndex, cIndexLoop]

/-- C3 (amended): with the boundaries `5, 10, ..., 50` the counts
`0, 5, 12, 50, 51` yield the class indices `-0.5, -0.5, 9.5, 9.5, 9.5`. -/
theorem cIndex_example :
    ([0, 5, 12, 50, 51] : List Int).map (cIndex [5, 10, 15, 20, 25, 30, 35, 40, 45, 50]) =
      [-1 / 2, -1 / 2, 19 / 2, 19 / 2, 19 / 2] := by
  norm_num [cIndex, cIndexLoop]

/-- C4: for every boundary list and every forward count `n` the class index
is `9.5 - j`, where `j` is the number of boundaries visited before the first
boundary `p` with `n > p` (the list length when there is none); the comparison
is strict: a count equal to the first boundary gives at most `8.5`, a count
above the first boundary gives exactly `9.5`. -/
theorem cIndex_spec (bs : List ℚ) (n : Int) :
    cIndex bs n = 19 / 2 - (bs.findIdx (fun p => decide ((n : ℚ) > p)) : ℚ) ∧
    (∀ (p : ℚ) (rest : List ℚ), bs = p :: rest → (n : ℚ) = p → cIndex bs n ≤ 17 / 2) ∧
    (∀ (p : ℚ) (rest : List ℚ), bs = p :: rest → (n : ℚ) > p → cIndex bs n = 19 / 2) := by
  refine ⟨cIndexLoop_findIdx n bs _, ?_, ?_⟩
  · intro p rest hbs hnp
    subst hbs
    have h : ¬ (n : ℚ) > p := by rw [hnp]; exact lt_irrefl _
    simp only [cIndex, cIndexLoop, h, if_false]
    have := cIndexLoop_le n rest (19 / 2 - 1)
    linarith
  · intro p rest hbs hnp
    subst hbs
    simp only [cIndex, cIndexLoop, hnp, if_true]

/-- Witness for C4: the boundaries `7, 4, 2` with the count `7`
(equal to the first boundary) and the boundaries `4, 2` with the count `7`
(above the first boundary). -/
theorem cIndex_spec_witness :
    (((7 : Int) : ℚ) = 7 ∧ cIndex [7, 4, 2] 7 ≤ 17 / 2) ∧
    (((7 : Int) : ℚ) > 4 ∧ cIndex [4, 2] 7 = 19 / 2) :=
  ⟨⟨by norm_num, (cIndex_spec [7, 4, 2] 7).2.1 7 [4, 2] rfl (by norm_num)⟩,
   ⟨by norm_num, (cIndex_spec [4, 2] 7).2.2 4 [2] rfl (by norm_num)⟩⟩

/-- C5: Policy A is monotone in the count: for every boundary list, in any
order, and all counts `n1 ≤ n2` the class index of `n1` is at most the class
index of `n2`. -/
theorem cIndex_mono (bs : List ℚ) (n1 n2 : Int) (h : n1 ≤ n2) :
    cIndex bs n1 ≤ cIndex bs n2 :=
  cIndexLoop_mono n1 n2 h bs _

/-- Witness for C5: the boundaries `9, 3, 6` and the counts
`4 ≤ 8`. -/
theorem cIndex_mono_witness :
    (4 : Int) ≤ 8 ∧ cIndex [9, 3, 6] 4 ≤ cIndex [9, 3, 6] 8 :=
  ⟨by decide, cIndex_mono [9, 3, 6] 4 8 (by decide)⟩

/-! ## Policy B -/

/-- The loop returns `0` or `nMultClasses - 1 - k` for a visited `k`, hence a
value in `0 .. nMultClasses - 1` when it visits only `k < nMultClasses`. -/
lemma binIndexLoop_range (n : Nat) (edges : List ℚ) (c : ℚ) (hn : 1 ≤ n) :
    ∀ fuel k : Nat, k + fuel ≤ n →
      0 ≤ binIndexLoop n edges c fuel k ∧ binIndexLoop n edges c fuel k ≤ (n : Int) - 1 := by
  intro fuel
  induction fuel with
  | zero => intro k _; simp only [binIndexLoop]; omega
  | succ fuel ih =>
    intro k hk
    simp only [binIndexLoop]
    split
    · omega
    · exact ih (k + 1) (by omega)

/-- In an ascending table an interval below the `k`-th one cannot contain a
value of the `k`-th interval, so the loop runs on to `k` and stops there. -/
lemma binIndexLoop_hit (n : Nat) (edges : List ℚ) (c : ℚ) (k : Nat)
    (hlen : edges.length = n + 1) (hsorted : List.Pairwise (fun a b => a ≤ b) edges)
    (hk : k < n) (hlo : edges.getD k 0 ≤ c) (hhi : c < edges.getD (k + 1) 0) :
    ∀ fuel j : Nat, j + fuel = n → j ≤ k →
      binIndexLoop n edges c fuel j = (n : Int) - 1 - (k : Int) := by
  intro fuel
  induction fuel with
  | zero => intro j hj hjk; omega
  | succ fuel ih =>
    intro j hj hjk
    simp only [binIndexLoop]
    rcases Nat.lt_or_eq_of_le hjk with hlt | heq
    · have hj1 : j + 1 < edges.length := by omega
      have hk0 : k < edges.length := by omega
      have hle : edges.getD (j + 1) 0 ≤ edges.getD k 0 := by
        rw [List.getD_eq_getElem _ _ hj1, List.getD_eq_getElem _ _ hk0]
        rcases Nat.lt_or_eq_of_le (Nat.succ_le_of_lt hlt) with h1 | h1
        · exact (List.pairwise_iff_getElem.mp hsorted) (j + 1) k hj1 hk0 h1
        · simp only [Nat.succ_eq_add_one] at h1
          simp [h1]
      have hnot : ¬ (c ≥ edges.getD j 0 ∧ c < edges.getD (j + 1) 0) := by
        intro hc
        linarith [hc.2]
      simp only [hnot, if_false]
      exact ih (j + 1) (by omega) (by omega)
    · subst heq
      have hyes : c ≥ edges.getD j 0 ∧ c < edges.getD (j + 1) 0 := ⟨hlo, hhi⟩
      simp only [hyes, and_self, if_true]

/-- C6: Policy B over an ascending table of `nClasses + 1` edges: a value `c`
with `edges[k] ≤ c < edges[k+1]` gets the class index `nClasses - 1 - k`
(lower edge inclusive, upper edge exclusive), an integer in
`0 .. nClasses - 1`; with the edges `0, 1, 5, 10, 100` and `c = 3` the index
is `2`; and with the table of the code every `c` in `[0, 100)` gets an index
in `0 .. 9`. -/
theorem binIndex_spec :
    (∀ (nClasses : Nat) (edges : List ℚ) (c : ℚ) (k : Nat),
      edges.length = nClasses + 1 → List.Pairwise (fun a b => a ≤ b) edges →
      k < nClasses → edges.getD k 0 ≤ c → c < edges.getD (k + 1) 0 →
      binIndex nClasses edges c = (nClasses : Int) - 1 - (k : Int) ∧
      0 ≤ binIndex nClasses edges c ∧ binIndex nClasses edges c ≤ (nClasses : Int) - 1) ∧
    binIndex 4 [0, 1, 5, 10, 100] 3 = 2 ∧
    (∀ c : ℚ, 0 ≤ c → c < 100 →
      0 ≤ binIndex nMultClasses kCentClasses c ∧ binIndex nMultClasses kCentClasses c ≤ 9) := by
  refine ⟨?_, ?_, ?_⟩
  · intro nClasses edges c k hlen hsorted hk hlo hhi
    have h := binIndexLoop_hit nClasses edges c k hlen hsorted hk hlo hhi nClasses 0
      (by omega) (by omega)
    unfold binIndex
    rw [h]
    omega
  · norm_num [binIndex, binIndexLoop]
  · intro c _ _
    have h := binIndexLoop_range nMultClasses kCentClasses c (by decide) nMultClasses 0 (by omega)
    unfold binIndex
    simpa [nMultClasses] using h

/-- Witness for C6: the edges `0, 1, 5, 10, 100` (four classes),
the value `3` and the interval number `k = 1`. -/
theorem binIndex_spec_witness :
    ([0, 1, 5, 10, 100] : List ℚ).length = 4 + 1 ∧
    List.Pairwise (fun a b => a ≤ b) ([0, 1, 5, 10, 100] : List ℚ) ∧
    1 < 4 ∧ ([0, 1, 5, 10, 100] : List ℚ).getD 1 0 ≤ 3 ∧
    (3 : ℚ) < ([0, 1, 5, 10, 100] : List ℚ).getD (1 + 1) 0 ∧
    binIndex 4 [0, 1, 5, 10, 100] 3 = ((4 : Nat) : Int) - 1 - ((1 : Nat) : Int) :=
  have hs : List.Pairwise (fun a b => a ≤ b) ([0, 1, 5, 10, 100] : List ℚ) := by
    norm_num [List.pairwise_cons]
  have h1 : ([0, 1, 5, 10, 100] : List ℚ).getD 1 0 ≤ 3 := by norm_num
  have h2 : (3 : ℚ) < ([0, 1, 5, 10, 100] : List ℚ).getD (1 + 1) 0 := by norm_num
  ⟨rfl, hs, by decide, h1, h2,
    (binIndex_spec.1 4 [0, 1, 5, 10, 100] 3 1 rfl hs (by decide) h1 h2).1⟩

/-! ## Percentile extractor: the claims -/

/-- C1: for every histogram with non-negative bin contents and positive total
integral the linear-scan `findPercentiles` returns exactly one boundary per
threshold of its ten-element list, in list order, and the boundary of the
threshold `p` is the centre of the highest-numbered bin `b` in `1..nbins`
whose upper-tail integral over the bins `b..nbins` is at least `p/100` times
the total integral. -/
theorem findPercentiles_linear_spec (hCalib : TH1D) (hpos : ∀ x ∈ hCalib.bins, 0 ≤ x)
    (ht : 0 < hCalib.IntegralWidth) :
    (VFfE.findPercentiles hCalib).length = 10 ∧
    List.Forall₂
      (fun p x => ∃ b : Int, IsTopBin hCalib (p / 100 * hCalib.IntegralWidth) b ∧
        x = hCalib.GetBinCenter b)
      VFfE.percentiles (VFfE.findPercentiles hCalib) := by
  obtain ⟨hn, _⟩ := TH1D.pos_of_IntegralWidth_pos hCalib hpos ht
  have key : ∀ ps : List ℚ, (∀ p ∈ ps, p ≤ 100) →
      List.Forall₂
        (fun p x => ∃ b : Int, IsTopBin hCalib (p / 100 * hCalib.IntegralWidth) b ∧
          x = hCalib.GetBinCenter b)
        ps (findPercentilesLinear ps hCalib) := by
    intro ps
    induction ps with
    | nil => intro _; exact List.Forall₂.nil
    | cons p ps ih =>
      intro hps
      obtain ⟨b, hb, hlin⟩ := linearBoundary_topBin hCalib p hn (le_of_lt ht)
        (hps p (List.mem_cons_self _ _))
      unfold findPercentilesLinear
      rw [List.filterMap_cons, hlin]
      exact List.Forall₂.cons ⟨b, hb, rfl⟩ (ih (fun q hq => hps q (List.mem_cons_of_mem _ hq)))
  have h2 := key VFfE.percentiles percentilesVFfE_le
  refine ⟨?_, h2⟩
  show (findPercentilesLinear VFfE.percentiles hCalib).length = 10
  rw [← h2.length_eq]
  rfl

/-- Witness for C1: the two-bin histogram with
contents `1` and `3`. -/
theorem findPercentiles_linear_spec_witness :
    (∀ x ∈ histTwo.bins, 0 ≤ x) ∧ 0 < histTwo.IntegralWidth ∧
    (VFfE.findPercentiles histTwo).length = 10 :=
  have hpos : ∀ x ∈ histTwo.bins, 0 ≤ x := by
    intro x hx
    simp only [histTwo, List.mem_cons, List.mem_singleton, List.not_mem_nil, or_false] at hx
    rcases hx with h | h <;> subst h <;> norm_num
  have ht : 0 < histTwo.IntegralWidth := by decide!
  ⟨hpos, ht, (findPercentiles_linear_spec histTwo hpos ht).1⟩

/-- C7: for every histogram (over an axis with `xmin < xmax`) with
non-negative contents and at least one non-empty bin, the boundary that
`findPercentiles` returns for the threshold `p = 100`, the last of its list,
is the centre of the lowest-numbered bin `m` with nonzero content. -/
theorem findPercentiles_full_threshold (hCalib : TH1D) (hpos : ∀ x ∈ hCalib.bins, 0 ≤ x)
    (hx : hCalib.xmin < hCalib.xmax) (m : Int) (hm1 : 1 ≤ m) (hmn : m ≤ hCalib.GetNbinsX)
    (hne : hCalib.GetBinContent m ≠ 0)
    (hzero : ∀ i : Int, 1 ≤ i → i < m → hCalib.GetBinContent i = 0) :
    linearBoundary hCalib 100 = some (hCalib.GetBinCenter m) ∧
    (VFfE.findPercentiles hCalib)[9]? = some (hCalib.GetBinCenter m) := by
  have hn : 1 ≤ hCalib.GetNbinsX := by omega
  have hw := GetBinWidth_pos hCalib hx hn
  have ht : 0 ≤ hCalib.IntegralWidth :=
    TH1D.Integral_tail_nonneg hCalib hpos (le_of_lt hw) 1 le_rfl hn
  -- the tail from `m` is the total
  have htm : hCalib.Integral m hCalib.GetNbinsX = hCalib.IntegralWidth := by
    have := Integral_tail_eq_total_below hCalib m hmn hzero (m - 1).toNat (by omega)
    have h1 : (1 : Int) + ((m - 1).toNat : Int) = m := by omega
    rw [h1] at this
    exact this
  have hthr : (100 : ℚ) / 100 * hCalib.IntegralWidth = hCalib.IntegralWidth := by norm_num
  have hcm : 0 < hCalib.GetBinContent m :=
    lt_of_le_of_ne (TH1D.GetBinContent_nonneg hCalib hpos m hm1 hmn) (Ne.symm hne)
  have htop : IsTopBin hCalib (100 / 100 * hCalib.IntegralWidth) m := by
    refine ⟨hm1, hmn, by rw [hthr, htm], ?_⟩
    intro b2 hb hb2
    rw [hthr, ← htm]
    have h1 := TH1D.Integral_tail_anti hCalib hpos (le_of_lt hw) (m + 1) b2 (by omega)
      (by omega) hb2
    have h2 := TH1D.Integral_tail_step hCalib m (by omega) (by omega)
    have h3 := mul_pos hcm hw
    linarith
  obtain ⟨b, hb, hlin⟩ := linearBoundary_topBin hCalib 100 hn ht le_rfl
  have hbm : b = m := IsTopBin_unique hCalib _ b m hb htop
  rw [hbm] at hlin
  refine ⟨hlin, ?_⟩
  have hmap : VFfE.findPercentiles hCalib =
      VFfE.percentiles.map (fun p => (linearBoundary hCalib p).getD 0) := by
    unfold VFfE.findPercentiles findPercentilesLinear
    apply filterMap_eq_map_of_some
    intro p hp
    obtain ⟨b2, _, h2⟩ := linearBoundary_topBin hCalib p hn ht (percentilesVFfE_le p hp)
    rw [h2, Option.getD_some]
  rw [hmap]
  simp [VFfE.percentiles, hlin]

/-- Witness for C7: the calibration histogram
whose lowest non-empty bin is bin `99`. -/
theorem findPercentiles_full_threshold_witness :
    (∀ x ∈ calibTop.bins, 0 ≤ x) ∧ calibTop.xmin < calibTop.xmax ∧
    calibTop.GetBinContent 99 ≠ 0 ∧
    (∀ i : Int, 1 ≤ i → i < 99 → calibTop.GetBinContent i = 0) ∧
    (VFfE.findPercentiles calibTop)[9]? = some (calibTop.GetBinCenter 99) :=
  have hpos : ∀ x ∈ calibTop.bins, 0 ≤ x := by
    intro x hx
    simp only [calibTop, List.mem_append, List.mem_replicate, List.mem_cons,
      List.mem_singleton, List.not_mem_nil, or_false] at hx
    rcases hx with ⟨_, h⟩ | h | h <;> subst h <;> norm_num
  have hx : calibTop.xmin < calibTop.xmax := by decide!
  have hne : calibTop.GetBinContent 99 ≠ 0 := by decide!
  have hzero : ∀ i : Int, 1 ≤ i → i < 99 → calibTop.GetBinContent i = 0 := by
    intro i h1 h2
    have hi : i.toNat - 1 < 98 := by omega
    have h3 : ¬ i ≤ 0 := by omega
    have h4 : i ≤ calibTop.GetNbinsX := by
      have : calibTop.GetNbinsX = 100 := by decide
      omega
    unfold TH1D.GetBinContent
    rw [if_neg h3, if_pos h4]
    show List.getD (List.replicate 98 (0 : ℚ) ++ [1 / 4, 1 / 4]) (i.toNat - 1) 0 = (0 : ℚ)
    rw [List.getD_eq_getElem?_getD,
      List.getElem?_append_left (by rw [List.length_replicate]; exact hi),
      List.getElem?_replicate, if_pos hi, Option.getD_some]
  ⟨hpos, hx, hne, hzero,
    (findPercentiles_full_threshold calibTop hpos hx 99 (by decide) (by decide) hne hzero).2⟩

/-- C8 (as stated, refuted): for the normalised calibration histogram whose
weight sits in bins `99` and `100`, the boundary of the eighth threshold
(`199`) is larger than the boundary of the ninth threshold (`197`), so the
boundaries are not non-decreasing along the ascending threshold list. -/
theorem findPercentiles_not_nondecreasing :
    calibTop.GetNbinsX = 100 ∧ calibTop.IntegralWidth = 1 ∧
    (VFfE.findPercentiles calibTop)[7]? = some 199 ∧
    (VFfE.findPercentiles calibTop)[8]? = some 197 ∧
    ¬ ((199 : ℚ) ≤ 197) := by
  refine ⟨by decide!, by decide!, by decide!, by decide!, by norm_num⟩

/-- C8 (amended): for every histogram with non-negative bin contents (over an
axis with `xmin < xmax`) the boundaries returned by `findPercentiles` are
non-increasing when read in the order of the ascending threshold list: a
later boundary is at most every earlier one. -/
theorem findPercentiles_nonincreasing (hCalib : TH1D) (hpos : ∀ x ∈ hCalib.bins, 0 ≤ x)
    (hx : hCalib.xmin < hCalib.xmax) :
    List.Pairwise (fun a b => b ≤ a) (VFfE.findPercentiles hCalib) := by
  unfold VFfE.findPercentiles findPercentilesLinear
  refine List.Pairwise.filterMap (linearBoundary hCalib) ?_ percentilesVFfE_sorted
  intro p q hpq x hxp y hyq
  simp only [linearBoundary, Option.mem_def, Option.map_eq_some'] at hxp hyq
  obtain ⟨b, hb, rfl⟩ := hxp
  obtain ⟨b2, hb2, rfl⟩ := hyq
  have hn0 := TH1D.GetNbinsX_nonneg hCalib
  obtain ⟨s1, s2, s3, s4⟩ := scanDown_some hCalib _ _ _ b hb
  obtain ⟨t1, t2, t3, t4⟩ := scanDown_some hCalib _ _ _ b2 hb2
  have hn : 1 ≤ hCalib.GetNbinsX := by omega
  have hw := le_of_lt (GetBinWidth_pos hCalib hx hn)
  have ht : 0 ≤ hCalib.IntegralWidth := TH1D.Integral_tail_nonneg hCalib hpos hw 1 le_rfl hn
  have hthr : p / 100 * hCalib.IntegralWidth ≤ q / 100 * hCalib.IntegralWidth :=
    mul_le_mul_of_nonneg_right (by linarith) ht
  apply GetBinCenter_mono hCalib hw
  by_contra hlt
  push_neg at hlt
  have := s4 b2 hlt t2
  linarith

/-- Witness for C8 (amended): the calibration histogram
whose weight sits in bins `99` and `100`. -/
theorem findPercentiles_nonincreasing_witness :
    (∀ x ∈ calibTop.bins, 0 ≤ x) ∧ calibTop.xmin < calibTop.xmax ∧
    List.Pairwise (fun a b => b ≤ a) (VFfE.findPercentiles calibTop) :=
  have hpos : ∀ x ∈ calibTop.bins, 0 ≤ x := by
    intro x hx
    simp only [calibTop, List.mem_append, List.mem_replicate, List.mem_cons,
      List.mem_singleton, List.not_mem_nil, or_false] at hx
    rcases hx with ⟨_, h⟩ | h | h <;> subst h <;> norm_num
  have hx : calibTop.xmin < calibTop.xmax := by decide!
  ⟨hpos, hx, findPercentiles_nonincreasing calibTop hpos hx⟩

/-- C9: for every histogram with non-negative bin contents and positive total
integral the binary-search `findPercentiles` (`RGbM.C`) and the linear-scan
`findPercentiles` (`XVxX.cc`) return the same boundary list, and so do the two
searches for every common threshold list of percentages up to 100; for each
such threshold the final `high` of the binary search is the bin at which the
downward linear scan stops. -/
theorem findPercentiles_binary_eq_linear (hCalib : TH1D) (hpos : ∀ x ∈ hCalib.bins, 0 ≤ x)
    (ht : 0 < hCalib.IntegralWidth) :
    RGbM.findPercentiles hCalib = XVxX.findPercentiles hCalib ∧
    (∀ ps : List ℚ, (∀ p ∈ ps, p ≤ 100) →
      findPercentilesBinary ps hCalib = findPercentilesLinear ps hCalib) ∧
    (∀ p : ℚ, p ≤ 100 →
      scanDown hCalib hCalib.GetNbinsX (p / 100 * hCalib.IntegralWidth)
          hCalib.GetNbinsX.toNat =
        some (bisect hCalib hCalib.GetNbinsX (p / 100 * hCalib.IntegralWidth) 1
          hCalib.GetNbinsX)) := by
  obtain ⟨hn, hw⟩ := TH1D.pos_of_IntegralWidth_pos hCalib hpos ht
  have key := findPercentilesBinary_eq_linear hCalib hpos (le_of_lt hw) hn (le_of_lt ht)
  refine ⟨key XVxX.percentiles percentilesXVxX_le, key, ?_⟩
  intro p hp
  obtain ⟨b, hb⟩ := scanDown_found hCalib (p / 100 * hCalib.IntegralWidth) hn
    (threshold_le_total p _ hp (le_of_lt ht))
  have hbis := bisect_eq_scanDown hCalib (p / 100 * hCalib.IntegralWidth)
    (tail_reaches_mono hCalib hpos (le_of_lt hw) _)
  rw [hb, Option.getD_some] at hbis
  rw [hb, hbis]

/-- Witness for C9: the two-bin histogram with
contents `1` and `3`. -/
theorem findPercentiles_binary_eq_linear_witness :
    (∀ x ∈ histTwo.bins, 0 ≤ x) ∧ 0 < histTwo.IntegralWidth ∧
    RGbM.findPercentiles histTwo = XVxX.findPercentiles histTwo :=
  have hpos : ∀ x ∈ histTwo.bins, 0 ≤ x := by
    intro x hx
    simp only [histTwo, List.mem_cons, List.mem_singleton, List.not_mem_nil, or_false] at hx
    rcases hx with h | h <;> subst h <;> norm_num
  have ht : 0 < histTwo.IntegralWidth := by decide!
  ⟨hpos, ht, (findPercentiles_binary_eq_linear histTwo hpos ht).1⟩

/-- C10 (as stated, refuted): not every histogram and threshold for which no
bin reaches the target gets the centre of bin `1` recorded by both versions;
the one-bin histogram with content `-1` and the threshold `p = 1` is such a
case. -/
theorem findPercentiles_no_fallback :
    ¬ (∀ (hCalib : TH1D) (p : ℚ),
      (∀ b : Int, 1 ≤ b → b ≤ hCalib.GetNbinsX →
        hCalib.Integral b hCalib.GetNbinsX < p / 100 * hCalib.IntegralWidth) →
      linearBoundary hCalib p = some (hCalib.GetBinCenter 1) ∧
      binaryBoundary hCalib p = hCalib.GetBinCenter 1) := by
  intro hall
  have hprem : ∀ b : Int, 1 ≤ b → b ≤ histNeg.GetNbinsX →
      histNeg.Integral b histNeg.GetNbinsX < 1 / 100 * histNeg.IntegralWidth := by
    intro b h1 h2
    have hn : histNeg.GetNbinsX = 1 := by decide
    have hb : b = 1 := by omega
    subst hb
    decide!
  have h := (hall histNeg 1 hprem).1
  have hnone : linearBoundary histNeg 1 = none := by decide!
  rw [hnone] at h
  exact absurd h (by simp)

/-- C10 (amended): for every histogram and threshold for which no bin
`1..nbins` has an upper-tail integral reaching the target, the linear-scan
version records no boundary for that threshold, and the binary-search version
records `GetBinCenter(0) = xmin - width / 2`, the centre of the underflow
cell below bin `1`. -/
theorem findPercentiles_unreached (hCalib : TH1D) (p : ℚ)
    (hnone : ∀ b : Int, 1 ≤ b → b ≤ hCalib.GetNbinsX →
      hCalib.Integral b hCalib.GetNbinsX < p / 100 * hCalib.IntegralWidth) :
    linearBoundary hCalib p = none ∧ findPercentilesLinear [p] hCalib = [] ∧
    binaryBoundary hCalib p = hCalib.GetBinCenter 0 ∧
    findPercentilesBinary [p] hCalib = [hCalib.GetBinCenter 0] ∧
    hCalib.GetBinCenter 0 = hCalib.xmin - hCalib.GetBinWidth / 2 := by
  have hn0 := TH1D.GetNbinsX_nonneg hCalib
  have hlin : linearBoundary hCalib p = none := by
    cases hs : scanDown hCalib hCalib.GetNbinsX (p / 100 * hCalib.IntegralWidth)
        hCalib.GetNbinsX.toNat with
    | none => simp only [linearBoundary, hs, Option.map_none']
    | some b =>
      obtain ⟨s1, s2, s3, _⟩ := scanDown_some hCalib _ _ _ b hs
      have := hnone b s1 (by omega)
      linarith
  have hbis : bisect hCalib hCalib.GetNbinsX (p / 100 * hCalib.IntegralWidth) 1
      hCalib.GetNbinsX = 0 := by
    obtain ⟨h0, h1, h2, _⟩ := bisect_top hCalib (p / 100 * hCalib.IntegralWidth)
      (fun b b2 hb hbb hb2 hreach => by
        have := hnone b2 (by omega) hb2
        linarith)
    by_contra hne
    have hr := h2 (bisect hCalib hCalib.GetNbinsX (p / 100 * hCalib.IntegralWidth) 1
      hCalib.GetNbinsX) (by omega) le_rfl
    have := hnone (bisect hCalib hCalib.GetNbinsX (p / 100 * hCalib.IntegralWidth) 1
      hCalib.GetNbinsX) (by omega) h1
    linarith
  have hbin : binaryBoundary hCalib p = hCalib.GetBinCenter 0 := by
    simp only [binaryBoundary, hbis]
  refine ⟨hlin, ?_, hbin, ?_, ?_⟩
  · simp only [findPercentilesLinear, List.filterMap_cons, hlin, List.filterMap_nil]
  · simp only [findPercentilesBinary, List.map_cons, hbin, List.map_nil]
  · unfold TH1D.GetBinCenter
    push_cast
    ring

/-- Witness for C10 (amended): the one-bin histogram with
content `-1` and the threshold `p = 1`. -/
theorem findPercentiles_unreached_witness :
    (∀ b : Int, 1 ≤ b → b ≤ histNeg.GetNbinsX →
      histNeg.Integral b histNeg.GetNbinsX < 1 / 100 * histNeg.IntegralWidth) ∧
    linearBoundary histNeg 1 = none ∧ binaryBoundary histNeg 1 = histNeg.GetBinCenter 0 :=
  have hprem : ∀ b : Int, 1 ≤ b → b ≤ histNeg.GetNbinsX →
      histNeg.Integral b histNeg.GetNbinsX < 1 / 100 * histNeg.IntegralWidth := by
    intro b h1 h2
    have hn : histNeg.GetNbinsX = 1 := by decide
    have hb : b = 1 := by omega
    subst hb
    decide!
  ⟨hprem, (findPercentiles_unreached histNeg 1 hprem).1,
    (findPercentiles_unreached histNeg 1 hprem).2.2.1⟩

/-! ## Forward-track predicate and per-event counting -/

/-- C11: `isForwardTrack` returns true if and only if the track is a hadron,
is charged, has `pT` strictly above `0.1` and has `eta` strictly inside
`(-3.7, -1.7)` or strictly inside `(2.8, 5.1)`; the endpoint values of `eta`
and `pT = 0.1` are rejected; the nested-`if` version (`VFfE.C`) and the
early-return version (`RGbM.C`) agree on every track. -/
theorem isForwardTrack_spec (trk : RootTrack) :
    (VFfE.isForwardTrack trk = true ↔
      trk.isHadron = true ∧ trk.isCharged = true ∧ 1 / 10 < trk.pT ∧
        ((-37 / 10 < trk.eta ∧ trk.eta < -17 / 10) ∨
          (28 / 10 < trk.eta ∧ trk.eta < 51 / 10))) ∧
    ((trk.eta = -37 / 10 ∨ trk.eta = -17 / 10 ∨ trk.eta = 28 / 10 ∨ trk.eta = 51 / 10) →
      VFfE.isForwardTrack trk = false) ∧
    (trk.pT = 1 / 10 → VFfE.isForwardTrack trk = false) ∧
    RGbM.isForwardTrack trk = VFfE.isForwardTrack trk := by
  refine ⟨?_, ?_, ?_, ?_⟩
  · unfold VFfE.isForwardTrack
    simp only [gt_iff_lt, Bool.and_eq_true, Bool.or_eq_true, decide_eq_true_eq,
      Bool.if_false_right, Bool.and_true, Bool.if_true_left, Bool.or_false]
    tauto
  · intro h
    unfold VFfE.isForwardTrack
    rcases h with h | h | h | h <;> rw [h] <;> norm_num
  · intro h
    unfold VFfE.isForwardTrack
    rw [h]
    norm_num
  · unfold RGbM.isForwardTrack VFfE.isForwardTrack
    have hdec : decide (trk.pT > 1 / 10) = !decide (trk.pT ≤ 1 / 10) := by
      by_cases hp : trk.pT ≤ 1 / 10
      · rw [decide_eq_true hp, decide_eq_false (not_lt.mpr hp)]; rfl
      · rw [decide_eq_false hp, decide_eq_true (not_le.mp hp)]; rfl
    rw [hdec]
    cases trk.isHadron <;> cases trk.isCharged <;> cases decide (trk.pT ≤ 1 / 10) <;>
      cases (decide (trk.eta > -37 / 10) && decide (trk.eta < -17 / 10) ||
        decide (trk.eta > 28 / 10) && decide (trk.eta < 51 / 10)) <;> rfl

/-- Witness for C11: a charged hadron sitting exactly on the window edge
`eta = 2.8`, and one with `pT` exactly `0.1`. -/
theorem isForwardTrack_spec_witness :
    VFfE.isForwardTrack
      { phi := 0, eta := 28 / 10, y := 0, pT := 1, pid := 211, isHadron := true,
        isCharged := true } = false ∧
    VFfE.isForwardTrack
      { phi := 0, eta := 3, y := 0, pT := 1 / 10, pid := 211, isHadron := true,
        isCharged := true } = false :=
  ⟨(isForwardTrack_spec
      { phi := 0, eta := 28 / 10, y := 0, pT := 1, pid := 211, isHadron := true,
        isCharged := true }).2.1 (Or.inr (Or.inr (Or.inl rfl))),
   (isForwardTrack_spec
      { phi := 0, eta := 3, y := 0, pT := 1 / 10, pid := 211, isHadron := true,
        isCharged := true }).2.2.1 rfl⟩

/-- One track changes the counters by `0` or `1` each, and their sum by at
most `1`. -/
lemma countTrack_step (c : Counts) (trk : RootTrack) :
    (c.nFwd ≤ (VFfE.countTrack c trk).nFwd ∧ c.nPi ≤ (VFfE.countTrack c trk).nPi ∧
      c.nP ≤ (VFfE.countTrack c trk).nP ∧ c.nK ≤ (VFfE.countTrack c trk).nK ∧
      c.nL ≤ (VFfE.countTrack c trk).nL ∧ c.nXi ≤ (VFfE.countTrack c trk).nXi ∧
      c.nO ≤ (VFfE.countTrack c trk).nO) ∧
    (VFfE.countTrack c trk).total ≤ c.total + 1 := by
  unfold VFfE.countTrack Counts.total
  split
  · simp only []; omega
  · split
    · simp only []
      split_ifs <;> first | omega | (simp only []; omega)
    · omega

lemma countTracks_foldl_total (tracks : List RootTrack) : ∀ c : Counts,
    (tracks.foldl VFfE.countTrack c).total ≤ c.total + tracks.length := by
  induction tracks with
  | nil => intro c; simp
  | cons trk rest ih =>
    intro c
    have h1 := ih (VFfE.countTrack c trk)
    have h2 := (countTrack_step c trk).2
    simp only [List.foldl_cons, List.length_cons]
    push_cast
    omega

/-- C15: in the track loop of `analyze` every track raises at most one of the
seven counters, by one; a track accepted by `isForwardTrack` raises `nFwd`
and leaves every species counter unchanged; hence the seven counters of an
event sum to at most the number of its tracks. -/
theorem countTracks_at_most_one :
    (∀ (c : Counts) (trk : RootTrack),
      ((VFfE.countTrack c trk).nFwd - c.nFwd) + ((VFfE.countTrack c trk).nPi - c.nPi) +
        ((VFfE.countTrack c trk).nP - c.nP) + ((VFfE.countTrack c trk).nK - c.nK) +
        ((VFfE.countTrack c trk).nL - c.nL) + ((VFfE.countTrack c trk).nXi - c.nXi) +
        ((VFfE.countTrack c trk).nO - c.nO) ≤ 1 ∧
      c.nFwd ≤ (VFfE.countTrack c trk).nFwd ∧ c.nPi ≤ (VFfE.countTrack c trk).nPi ∧
      c.nP ≤ (VFfE.countTrack c trk).nP ∧ c.nK ≤ (VFfE.countTrack c trk).nK ∧
      c.nL ≤ (VFfE.countTrack c trk).nL ∧ c.nXi ≤ (VFfE.countTrack c trk).nXi ∧
      c.nO ≤ (VFfE.countTrack c trk).nO) ∧
    (∀ (c : Counts) (trk : RootTrack), VFfE.isForwardTrack trk = true →
      VFfE.countTrack c trk = { c with nFwd := c.nFwd + 1 }) ∧
    (∀ evt : RootEvent,
      (VFfE.countTracks evt.tracks).nFwd + (VFfE.countTracks evt.tracks).nPi +
        (VFfE.countTracks evt.tracks).nP + (VFfE.countTracks evt.tracks).nK +
        (VFfE.countTracks evt.tracks).nL + (VFfE.countTracks evt.tracks).nXi +
        (VFfE.countTracks evt.tracks).nO ≤ evt.tracks.length) := by
  refine ⟨?_, ?_, ?_⟩
  · intro c trk
    obtain ⟨⟨h1, h2, h3, h4, h5, h6, h7⟩, ht⟩ := countTrack_step c trk
    refine ⟨?_, h1, h2, h3, h4, h5, h6, h7⟩
    unfold Counts.total at ht
    omega
  · intro c trk h
    simp only [VFfE.countTrack, h, if_true]
  · intro evt
    have h := countTracks_foldl_total evt.tracks
      { nFwd := 0, nPi := 0, nP := 0, nK := 0, nL := 0, nXi := 0, nO := 0 }
    unfold VFfE.countTracks
    simpa [Counts.total] using h

/-- Witness for C15: the forward sample track, counted from the counters of an
event that already holds one pion. -/
theorem countTracks_at_most_one_witness :
    VFfE.isForwardTrack forwardTrack = true ∧
    VFfE.countTrack { nFwd := 0, nPi := 1, nP := 0, nK := 0, nL := 0, nXi := 0, nO := 0 }
        forwardTrack =
      { nFwd := 0 + 1, nPi := 1, nP := 0, nK := 0, nL := 0, nXi := 0, nO := 0 } :=
  ⟨by decide!, countTracks_at_most_one.2.1 _ forwardTrack (by decide!)⟩

/-! ## Per-class ratios of the dNch/dEta programs -/

lemma guardedRatio_zero (yieldNum : ℚ) : guardedRatio yieldNum 0 = Dbl.fin 0 := by
  simp [guardedRatio]

/-- C18 (as stated, refuted): in `k1V5.cc` and `Q5UN.cc` the ratio `ratioKp` of
a class whose accumulated pion yield is `0` (here class `0` of all-zero yield
arrays) is the number `0`, not an undefined value. -/
theorem ratioLoop_zero_pions_not_undefined :
    ((k1V5.ratioLoop (List.replicate 10 0) (List.replicate 10 0) (List.replicate 10 0)
        (List.replicate 10 0) (List.replicate 10 0)).map RatioPoint.ratioKp)[0]? =
      some (Dbl.fin 0) ∧
    ((Q5UN.ratioLoop (List.replicate 10 0) (List.replicate 10 0) (List.replicate 10 0)
        (List.replicate 10 0) (List.replicate 10 0)).map RatioPoint.ratioKp)[0]? =
      some (Dbl.fin 0) ∧
    Dbl.fin 0 ≠ Dbl.nan := by
  refine ⟨by decide!, by decide!, by decide⟩

/-- C18 (amended): in `k1V5.cc` and `Q5UN.cc`, for every class whose
accumulated pion yield is `0`, no quotient by that yield is formed and each of
the four ratios `ratioKp`, `ratioLp`, `ratioXp`, `ratioOp` is reported as the
number `0`, whatever the numerator yields are. -/
theorem ratioLoop_zero_pions (yieldPions yieldKaons yieldLambdas yieldXis yieldOmegas : List ℚ)
    (iClass : Nat) (hi : iClass < 10) (hzero : yieldPions.getD iClass 0 = 0) :
    (k1V5.ratioLoop yieldPions yieldKaons yieldLambdas yieldXis yieldOmegas)[iClass]? =
      some { dNch_dEtaAvg :=
               1 / 2 * (k1V5.dNch_dEtaLimits.getD iClass 0 +
                 k1V5.dNch_dEtaLimits.getD (iClass + 1) 0),
             ratioKp := Dbl.fin 0, ratioLp := Dbl.fin 0, ratioXp := Dbl.fin 0,
             ratioOp := Dbl.fin 0 } ∧
    Q5UN.ratioLoop yieldPions yieldKaons yieldLambdas yieldXis yieldOmegas =
      k1V5.ratioLoop yieldPions yieldKaons yieldLambdas yieldXis yieldOmegas := by
  refine ⟨?_, rfl⟩
  unfold k1V5.ratioLoop k1V5.nClasses
  rw [List.getElem?_map, List.getElem?_range hi]
  simp only [Option.map_some', ratioPoint, hzero, guardedRatio_zero]

/-- Witness for C18 (amended): yield arrays in which class `3` holds kaons but
no pion. -/
theorem ratioLoop_zero_pions_witness :
    (3 < 10) ∧ ([4, 4, 4, 0, 4, 4, 4, 4, 4, 4] : List ℚ).getD 3 0 = 0 ∧
    ((k1V5.ratioLoop [4, 4, 4, 0, 4, 4, 4, 4, 4, 4] [1, 1, 1, 7, 1, 1, 1, 1, 1, 1]
        (List.replicate 10 0) (List.replicate 10 0) (List.replicate 10 0)).map
      RatioPoint.ratioKp)[3]? = some (Dbl.fin 0) :=
  have hz : ([4, 4, 4, 0, 4, 4, 4, 4, 4, 4] : List ℚ).getD 3 0 = 0 := by decide!
  ⟨by decide, hz, by
    rw [List.getElem?_map,
      (ratioLoop_zero_pions [4, 4, 4, 0, 4, 4, 4, 4, 4, 4] [1, 1, 1, 7, 1, 1, 1, 1, 1, 1]
        (List.replicate 10 0) (List.replicate 10 0) (List.replicate 10 0) 3 (by decide) hz).1]
    rfl⟩

/-! ## Ratio report -/

/-- The value that `ProjectionX`, `Scale(s)` and `Divide` leave in a regular
bin: `s` times the numerator mean over the denominator mean, and `0` where
the denominator mean is `0`. -/
lemma ratio_bin (num den : TProfile) (s : ℚ) (i : Nat) (a b : ProfBin)
    (ha : num.bins[i]? = some a) (hb : den.bins[i]? = some b) :
    ((num.ProjectionX.Scale s).Divide den.ProjectionX).bins[i]? =
      some (if b.mean = 0 then 0 else s * a.mean / b.mean) := by
  simp only [TH1D.Divide, TH1D.Scale, TProfile.ProjectionX, List.getElem?_zipWith,
    List.getElem?_map, ha, hb, Option.map_some']

lemma mean_of_count_pos (b : ProfBin) (hc : 0 < b.count) : b.mean = b.sum / b.count := by
  simp [ProfBin.mean, ne_of_gt hc]

lemma mean_eq_div (a : ProfBin) : a.mean = a.sum / a.count := by
  unfold ProfBin.mean
  split
  · rename_i h; rw [h, div_zero]
  · rfl

/-- C16: for every class bin whose pion aggregate has count `> 0` and mean
`> 0`, the value left in that bin by `ProjectionX`, `Scale(scaleFactor)` and
`Divide` is `scaleFactor * (numerator sum / numerator count) / (pion sum /
pion count)` (for an empty numerator aggregate both sides are `0`); with a
kaon aggregate (count 100, sum 50), a pion aggregate (count 100, sum 200) and
the factor `2` of `k_sim` the value is exactly `0.5`. -/
theorem ratio_report_value (num pion : TProfile) (scaleFactor : ℚ) (i : Nat) (a b : ProfBin)
    (ha : num.bins[i]? = some a) (hb : pion.bins[i]? = some b)
    (hcount : 0 < b.count) (hmean : 0 < b.sum / b.count) :
    ((num.ProjectionX.Scale scaleFactor).Divide pion.ProjectionX).bins[i]? =
      some (scaleFactor * (a.sum / a.count) / (b.sum / b.count)) ∧
    (a = { count := 100, sum := 50, sumOfSquares := a.sumOfSquares } →
      b = { count := 100, sum := 200, sumOfSquares := b.sumOfSquares } →
      scaleFactor = 2 →
      ((num.ProjectionX.Scale scaleFactor).Divide pion.ProjectionX).bins[i]? =
        some (1 / 2)) := by
  have hbm : b.mean = b.sum / b.count := mean_of_count_pos b hcount
  have hne : b.mean ≠ 0 := by rw [hbm]; exact ne_of_gt hmean
  have key := ratio_bin num pion scaleFactor i a b ha hb
  rw [if_neg hne, mean_eq_div a, hbm] at key
  refine ⟨key, ?_⟩
  intro h1 h2 h3
  rw [key, h1, h2, h3]
  norm_num

/-- Witness for C16: a kaon profile and a pion profile whose fourth class bin
holds the aggregates (count 100, sum 50) and (count 100, sum 200). -/
theorem ratio_report_value_witness :
    kaonProfileSample.bins[3]? = some { count := 100, sum := 50, sumOfSquares := 30 } ∧
    pionProfileSample.bins[3]? = some { count := 100, sum := 200, sumOfSquares := 500 } ∧
    ((kaonProfileSample.ProjectionX.Scale 2).Divide pionProfileSample.ProjectionX).bins[3]? =
      some (1 / 2) :=
  ⟨by decide!, by decide!,
    (ratio_report_value kaonProfileSample pionProfileSample 2 3
      { count := 100, sum := 50, sumOfSquares := 30 }
      { count := 100, sum := 200, sumOfSquares := 500 } (by decide!) (by decide!)
      (by norm_num) (by norm_num)).2 rfl rfl rfl⟩

/-- C17 (as stated, refuted): for the yields that `analyze` accumulates from
one Thermal-FIST entry with one pion and one neutral kaon, the kaon/pion ratio
of means in the populated class bin is `1`, and `drawRatioWithExperimentalData`
reports `1`, not `2` times that ratio, in `k_fist`. -/
theorem drawRatio_fist_kaon_not_doubled :
    (VFfE.analyze calibLowest [] [fistPionKaon]).fist.hKCent.bins[1]? =
      some { count := 1, sum := 1, sumOfSquares := 1 } ∧
    (VFfE.analyze calibLowest [] [fistPionKaon]).fist.hPiCent.bins[1]? =
      some { count := 1, sum := 1, sumOfSquares := 1 } ∧
    (VFfE.drawRatioWithExperimentalData
      (VFfE.analyze calibLowest [] [fistPionKaon])).k_fist.bins[1]? = some 1 ∧
    (1 : ℚ) ≠ 2 * (1 / 1) / (1 / 1) := by
  refine ⟨by decide!, by decide!, by decide!, by norm_num⟩

/-- C17 (amended): in every class bin with a nonzero pion mean
`drawRatioWithExperimentalData` reports the species/pion ratio of means times
a fixed factor: kaon ×2, lambda ×2, xi ×6, omega ×16 for the PYTHIA profiles,
and kaon ×1, lambda ×2, xi ×6, omega ×16 for the Thermal-FIST profiles. -/
theorem drawRatio_scale_factors (yieldsFile : VFfE.YieldsFile) (i : Nat)
    (piSim k l x o piFist kF lF xF oF : ProfBin)
    (hpi : yieldsFile.pythia.hPiCent.bins[i]? = some piSim)
    (hk : yieldsFile.pythia.hKCent.bins[i]? = some k)
    (hl : yieldsFile.pythia.hLCent.bins[i]? = some l)
    (hx : yieldsFile.pythia.hXiCent.bins[i]? = some x)
    (ho : yieldsFile.pythia.hOmegaCent.bins[i]? = some o)
    (hpiF : yieldsFile.fist.hPiCent.bins[i]? = some piFist)
    (hkF : yieldsFile.fist.hKCent.bins[i]? = some kF)
    (hlF : yieldsFile.fist.hLCent.bins[i]? = some lF)
    (hxF : yieldsFile.fist.hXiCent.bins[i]? = some xF)
    (hoF : yieldsFile.fist.hOmegaCent.bins[i]? = some oF)
    (hsim : piSim.mean ≠ 0) (hfist : piFist.mean ≠ 0) :
    (VFfE.drawRatioWithExperimentalData yieldsFile).k_sim.bins[i]? =
      some (2 * k.mean / piSim.mean) ∧
    (VFfE.drawRatioWithExperimentalData yieldsFile).L_sim.bins[i]? =
      some (2 * l.mean / piSim.mean) ∧
    (VFfE.drawRatioWithExperimentalData yieldsFile).X_sim.bins[i]? =
      some (6 * x.mean / piSim.mean) ∧
    (VFfE.drawRatioWithExperimentalData yieldsFile).O_sim.bins[i]? =
      some (16 * o.mean / piSim.mean) ∧
    (VFfE.drawRatioWithExperimentalData yieldsFile).k_fist.bins[i]? =
      some (1 * kF.mean / piFist.mean) ∧
    (VFfE.drawRatioWithExperimentalData yieldsFile).L_fist.bins[i]? =
      some (2 * lF.mean / piFist.mean) ∧
    (VFfE.drawRatioWithExperimentalData yieldsFile).X_fist.bins[i]? =
      some (6 * xF.mean / piFist.mean) ∧
    (VFfE.drawRatioWithExperimentalData yieldsFile).O_fist.bins[i]? =
      some (16 * oF.mean / piFist.mean) := by
  unfold VFfE.drawRatioWithExperimentalData
  simp only []
  rw [ratio_bin _ _ 2 i k piSim hk hpi, ratio_bin _ _ 2 i l piSim hl hpi,
    ratio_bin _ _ 6 i x piSim hx hpi, ratio_bin _ _ 16 i o piSim ho hpi,
    ratio_bin _ _ 1 i kF piFist hkF hpiF, ratio_bin _ _ 2 i lF piFist hlF hpiF,
    ratio_bin _ _ 6 i xF piFist hxF hpiF, ratio_bin _ _ 16 i oF piFist hoF hpiF]
  simp only [if_neg hsim, if_neg hfist, and_self]

/-- Witness for C17 (amended): the yields of one Thermal-FIST entry with one
pion and one neutral kaon, used for both event sources, in the class bin that
the entry populates. -/
theorem drawRatio_scale_factors_witness :
    (VFfE.drawRatioWithExperimentalData
      { pythia := (VFfE.analyze calibLowest [] [fistPionKaon]).fist,
        fist := (VFfE.analyze calibLowest [] [fistPionKaon]).fist }).k_sim.bins[1]? =
      some (2 * (1 : ℚ) / 1) ∧
    (VFfE.drawRatioWithExperimentalData
      { pythia := (VFfE.analyze calibLowest [] [fistPionKaon]).fist,
        fist := (VFfE.analyze calibLowest [] [fistPionKaon]).fist }).k_fist.bins[1]? =
      some (1 * (1 : ℚ) / 1) :=
  have h := drawRatio_scale_factors
    { pythia := (VFfE.analyze calibLowest [] [fistPionKaon]).fist,
      fist := (VFfE.analyze calibLowest [] [fistPionKaon]).fist } 1
    { count := 1, sum := 1, sumOfSquares := 1 } { count := 1, sum := 1, sumOfSquares := 1 }
    { count := 1, sum := 0, sumOfSquares := 0 } { count := 1, sum := 0, sumOfSquares := 0 }
    { count := 1, sum := 0, sumOfSquares := 0 }
    { count := 1, sum := 1, sumOfSquares := 1 } { count := 1, sum := 1, sumOfSquares := 1 }
    { count := 1, sum := 0, sumOfSquares := 0 } { count := 1, sum := 0, sumOfSquares := 0 }
    { count := 1, sum := 0, sumOfSquares := 0 }
    (by decide!) (by decide!) (by decide!) (by decide!) (by decide!)
    (by decide!) (by decide!) (by decide!) (by decide!) (by decide!)
    (by decide!) (by decide!)
  ⟨by simpa [ProfBin.mean] using h.1, by simpa [ProfBin.mean] using h.2.2.2.2.1⟩

/-! ## Calibration -/

lemma addAt_length (l : List ℚ) : ∀ (i : Nat) (w : ℚ), (addAt l i w).length = l.length := by
  induction l with
  | nil => intro i w; rfl
  | cons x rest ih =>
    intro i w
    cases i with
    | zero => rfl
    | succ i => simp [addAt, ih]

lemma addAt_sum (l : List ℚ) : ∀ (i : Nat) (w : ℚ), i < l.length →
    (addAt l i w).sum = l.sum + w := by
  induction l with
  | nil => intro i w h; simp at h
  | cons x rest ih =>
    intro i w h
    cases i with
    | zero => simp [addAt]; ring
    | succ i =>
      simp only [addAt, List.sum_cons, ih i w (by simpa using h)]
      ring

/-- The accumulation over the bins `k+1 ..` is the sum of the list of bin
contents from position `k` on, times the bin width. -/
lemma sumBins_drop (h : TH1D) (n : Nat) : ∀ k : Nat, k + n = h.bins.length →
    TH1D.sumBins (fun b => h.GetBinContent b * h.GetBinWidth) ((k : Int) + 1) n =
      (h.bins.drop k).sum * h.GetBinWidth := by
  induction n with
  | zero =>
    intro k hk
    have : h.bins.drop k = [] := List.drop_eq_nil_of_le (by omega)
    simp [TH1D.sumBins, this]
  | succ n ih =>
    intro k hk
    have hlt : k < h.bins.length := by omega
    have hc : h.GetBinContent ((k : Int) + 1) = h.bins[k] := by
      unfold TH1D.GetBinContent TH1D.GetNbinsX
      have h1 : ¬ ((k : Int) + 1 ≤ 0) := by omega
      have h2 : (k : Int) + 1 ≤ (h.bins.length : Int) := by omega
      have h3 : ((k : Int) + 1).toNat - 1 = k := by omega
      rw [if_neg h1, if_pos h2, h3, List.getD_eq_getElem _ _ hlt]
    have hd : h.bins.drop k = h.bins[k] :: h.bins.drop (k + 1) :=
      List.drop_eq_getElem_cons hlt
    have hrec := ih (k + 1) (by omega)
    push_cast at hrec
    rw [TH1D.sumBins, hc, hrec, hd, List.sum_cons]
    ring

/-- The integral over the regular bins is the sum of their contents times the
bin width. -/
lemma IntegralWidth_eq_sum (h : TH1D) : h.IntegralWidth = h.bins.sum * h.GetBinWidth := by
  rcases Nat.eq_zero_or_pos h.bins.length with h0 | hpos
  · have hn : h.GetNbinsX = 0 := by unfold TH1D.GetNbinsX; omega
    rw [TH1D.IntegralWidth_eq_zero_of_nbins h hn, List.length_eq_zero.mp h0]
    simp
  · have hn : 1 ≤ h.GetNbinsX := by unfold TH1D.GetNbinsX; omega
    unfold TH1D.IntegralWidth
    rw [TH1D.Integral_tail h 1 (by omega) hn]
    have hcount : (h.GetNbinsX + 1 - 1).toNat = h.bins.length := by
      unfold TH1D.GetNbinsX; omega
    have := sumBins_drop h h.bins.length 0 (by omega)
    rw [hcount]
    simpa using this

lemma sum_map_mul (c : ℚ) (l : List ℚ) : (l.map (fun x => c * x)).sum = c * l.sum := by
  induction l with
  | nil => simp
  | cons x rest ih => simp only [List.map_cons, List.sum_cons, ih]; ring

lemma IntegralWidth_Scale (h : TH1D) (c : ℚ) :
    (h.Scale c).IntegralWidth = c * h.IntegralWidth := by
  rw [IntegralWidth_eq_sum, IntegralWidth_eq_sum]
  have hw : (h.Scale c).GetBinWidth = h.GetBinWidth := by
    simp [TH1D.GetBinWidth, TH1D.GetNbinsX, TH1D.Scale]
  rw [hw]
  simp only [TH1D.Scale, sum_map_mul]
  ring

lemma toRats?_map_fin (c : ℚ) (l : List ℚ) :
    Dbl.toRats? (l.map (Dbl.fin c).mul) = some (l.map (fun x => c * x)) := by
  induction l with
  | nil => rfl
  | cons x rest ih => simp [Dbl.toRats?, ih, Dbl.mul, Dbl.toRat?]

/-- Scaling by a finite factor leaves a histogram with finite cells, the one
of the finite `Scale`. -/
lemma ScaleValue_fin (h : TH1D) (c : ℚ) :
    (h.ScaleValue (Dbl.fin c)).toTH1D? = some (h.Scale c) := by
  simp [TH1D.ScaleValue, TH1DValues.toTH1D?, toRats?_map_fin, Dbl.mul, Dbl.toRat?, TH1D.Scale]

lemma countForward_foldl_nonneg (isFwd : RootTrack → Bool) (tracks : List RootTrack) :
    ∀ n : Int, 0 ≤ n →
      0 ≤ tracks.foldl (fun nFwd trk => if isFwd trk then nFwd + 1 else nFwd) n := by
  induction tracks with
  | nil => intro n hn; simpa using hn
  | cons trk rest ih =>
    intro n hn
    simp only [List.foldl_cons]
    apply ih
    split <;> omega

lemma countForward_nonneg (isFwd : RootTrack → Bool) (tracks : List RootTrack) :
    0 ≤ countForward isFwd tracks :=
  countForward_foldl_nonneg isFwd tracks 0 le_rfl

/-- On the calibration axis (100 bins over `[0, 200)`) a count in `0..199`
falls into a regular bin. -/
lemma axisFindBin_calib (n : Int) (h0 : 0 ≤ n) (h200 : n < 200) :
    1 ≤ axisFindBin 100 0 200 (n : ℚ) ∧ axisFindBin 100 0 200 (n : ℚ) ≤ 100 := by
  have hq0 : (0 : ℚ) ≤ (n : ℚ) := by exact_mod_cast h0
  have hq2 : (n : ℚ) < 200 := by exact_mod_cast h200
  unfold axisFindBin
  rw [if_neg (not_lt.mpr hq0), if_neg (not_not.mpr hq2)]
  have hnn : (0 : ℚ) ≤ ((100 : Int) : ℚ) * ((n : ℚ) - 0) / (200 - 0) := by
    push_cast; linarith
  have hlt : ((100 : Int) : ℚ) * ((n : ℚ) - 0) / (200 - 0) < ((100 : Int) : ℚ) := by
    push_cast; linarith
  have h1 := Int.floor_nonneg.mpr hnn
  have h2 := Int.floor_lt.mpr hlt
  omega

/-- The shape of the calibration histogram and the effect of one `Fill` on the
sum of its regular bins. -/
lemma Fill_calib (h : TH1D) (n : Int) (h0 : 0 ≤ n) (hx : h.xmin = 0) (hX : h.xmax = 200)
    (hlen : h.bins.length = 100) :
    (h.Fill (n : ℚ)).xmin = 0 ∧ (h.Fill (n : ℚ)).xmax = 200 ∧
    (h.Fill (n : ℚ)).bins.length = 100 ∧ h.bins.sum ≤ (h.Fill (n : ℚ)).bins.sum ∧
    (n < 200 → (h.Fill (n : ℚ)).bins.sum = h.bins.sum + 1) := by
  have hN : h.GetNbinsX = 100 := by unfold TH1D.GetNbinsX; omega
  unfold TH1D.Fill TH1D.FindBin
  rw [hN, hx, hX]
  by_cases hn : n < 200
  · obtain ⟨b1, b2⟩ := axisFindBin_calib n h0 hn
    have hlt : (axisFindBin 100 0 200 (n : ℚ)).toNat - 1 < h.bins.length := by omega
    simp only [if_neg (not_le.mpr (by omega : (0 : Int) < axisFindBin 100 0 200 (n : ℚ))),
      if_pos b2, hx, hX, addAt_length, hlen, addAt_sum _ _ _ hlt]
    refine ⟨trivial, trivial, trivial, by linarith, fun _ => trivial⟩
  · have hq : ¬ ((n : ℚ) < 200) := by
      intro hc; exact hn (by exact_mod_cast hc)
    have hq0 : ¬ ((n : ℚ) < 0) := by
      intro hc; have : n < 0 := by exact_mod_cast hc
      omega
    have hbin : axisFindBin 100 0 200 (n : ℚ) = 100 + 1 := by
      unfold axisFindBin
      rw [if_neg hq0, if_pos hq]
    rw [hbin]
    simp only [show ¬ ((100 : Int) + 1 ≤ 0) by omega, show ¬ ((100 : Int) + 1 ≤ 100) by omega,
      if_false, hx, hX, hlen, le_refl, true_and]
    intro hc; exact absurd hc hn

/-- The event loop of `calibration` keeps the axis and never lowers the sum of
the regular bins; an event with a forward count below 200 raises it by one. -/
lemma calibration_foldl (isFwd : RootTrack → Bool) (events : List RootEvent) :
    ∀ h : TH1D, h.xmin = 0 → h.xmax = 200 → h.bins.length = 100 →
    (events.foldl (fun hCalib evt => hCalib.Fill (countForward isFwd evt.tracks)) h).xmin = 0 ∧
    (events.foldl (fun hCalib evt => hCalib.Fill (countForward isFwd evt.tracks)) h).xmax
      = 200 ∧
    (events.foldl (fun hCalib evt => hCalib.Fill (countForward isFwd evt.tracks))
      h).bins.length = 100 ∧
    h.bins.sum ≤
      (events.foldl (fun hCalib evt => hCalib.Fill (countForward isFwd evt.tracks))
        h).bins.sum ∧
    ((∃ evt ∈ events, countForward isFwd evt.tracks < 200) →
      h.bins.sum + 1 ≤
        (events.foldl (fun hCalib evt => hCalib.Fill (countForward isFwd evt.tracks))
          h).bins.sum) := by
  induction events with
  | nil =>
    intro h hx hX hlen
    refine ⟨hx, hX, hlen, le_rfl, ?_⟩
    rintro ⟨evt, hmem, _⟩
    simp at hmem
  | cons e rest ih =>
    intro h hx hX hlen
    obtain ⟨f1, f2, f3, f4, f5⟩ :=
      Fill_calib h (countForward isFwd e.tracks) (countForward_nonneg isFwd e.tracks) hx hX hlen
    obtain ⟨r1, r2, r3, r4, r5⟩ := ih _ f1 f2 f3
    simp only [List.foldl_cons]
    refine ⟨r1, r2, r3, le_trans f4 r4, ?_⟩
    rintro ⟨evt, hmem, hlt⟩
    rcases List.mem_cons.mp hmem with heq | hrest
    · subst heq
      have := f5 hlt
      linarith
    · have := r5 ⟨evt, hrest, hlt⟩
      linarith

/-- C12 (as stated, refuted): the non-empty event sequence made of one event
with 200 forward tracks leaves the regular bins empty, so the integral before
`Scale` is `0`, the scale factor is `+inf`, and the written histogram has no
finite cell; it does not integrate to `1`. -/
theorem calibration_overflow_only_not_normalised :
    [busyForwardEvent] ≠ [] ∧
    (calibrationPass VFfE.isForwardTrack [busyForwardEvent]).IntegralWidth = 0 ∧
    VFfE.calibration [busyForwardEvent] =
      { xmin := 0, xmax := 200, underflow := Dbl.nan, bins := List.replicate 100 Dbl.nan,
        overflow := Dbl.pinf } ∧
    (VFfE.calibration [busyForwardEvent]).toTH1D? = none := by
  refine ⟨by simp, by decide!, by decide!, by decide!⟩

/-- C12 (amended): for every event sequence with at least one event whose
forward count is below 200, the histogram written by `calibration` has finite
cells, 100 bins over `[0, 200)`, and integrates (bin content times bin width,
summed over the bins `1..100`) to exactly `1`. -/
theorem calibration_normalised (events : List RootEvent)
    (hin : ∃ evt ∈ events, countForward VFfE.isForwardTrack evt.tracks < 200) :
    ∃ hCalib : TH1D, (VFfE.calibration events).toTH1D? = some hCalib ∧
      hCalib.GetNbinsX = 100 ∧ hCalib.xmin = 0 ∧ hCalib.xmax = 200 ∧
      hCalib.IntegralWidth = 1 := by
  obtain ⟨p1, p2, p3, _, p5⟩ := calibration_foldl VFfE.isForwardTrack events
    { xmin := 0, xmax := 200, underflow := 0, bins := List.replicate 100 0, overflow := 0 }
    rfl rfl (by simp)
  have hsum := p5 hin
  simp only [List.sum_replicate, smul_zero, zero_add] at hsum
  have hw : (calibrationPass VFfE.isForwardTrack events).GetBinWidth = 2 := by
    unfold TH1D.GetBinWidth TH1D.GetNbinsX calibrationPass
    rw [p1, p2, p3]
    norm_num
  have hI : (calibrationPass VFfE.isForwardTrack events).IntegralWidth =
      (calibrationPass VFfE.isForwardTrack events).bins.sum * 2 := by
    rw [IntegralWidth_eq_sum, hw]
  have hIpos : 0 < (calibrationPass VFfE.isForwardTrack events).IntegralWidth := by
    rw [hI]
    unfold calibrationPass
    linarith
  have hdiv : Dbl.div 1 (calibrationPass VFfE.isForwardTrack events).IntegralWidth =
      Dbl.fin (1 / (calibrationPass VFfE.isForwardTrack events).IntegralWidth) := by
    unfold Dbl.div
    rw [if_neg (ne_of_gt hIpos)]
  refine ⟨(calibrationPass VFfE.isForwardTrack events).Scale
    (1 / (calibrationPass VFfE.isForwardTrack events).IntegralWidth), ?_, ?_, ?_, ?_, ?_⟩
  · unfold VFfE.calibration calibrationWith
    simp only [hdiv, ScaleValue_fin]
  · unfold TH1D.GetNbinsX TH1D.Scale
    simp only [List.length_map]
    unfold calibrationPass
    rw [p3]
    rfl
  · exact p1
  · exact p2
  · rw [IntegralWidth_Scale]
    field_simp

/-- Witness for C12 (amended): three events with five pions and one kaon each
(forward count `0`). -/
theorem calibration_normalised_witness :
    (∃ evt ∈ List.replicate 3 fivePionsOneKaon,
      countForward VFfE.isForwardTrack evt.tracks < 200) ∧
    (∃ hCalib : TH1D,
      (VFfE.calibration (List.replicate 3 fivePionsOneKaon)).toTH1D? = some hCalib ∧
      hCalib.GetNbinsX = 100 ∧ hCalib.xmin = 0 ∧ hCalib.xmax = 200 ∧
      hCalib.IntegralWidth = 1) :=
  have hin : ∃ evt ∈ List.replicate 3 fivePionsOneKaon,
      countForward VFfE.isForwardTrack evt.tracks < 200 :=
    ⟨fivePionsOneKaon, by simp, by decide!⟩
  ⟨hin, calibration_normalised (List.replicate 3 fivePionsOneKaon) hin⟩

/-- C13 (as stated, refuted): on the empty event sequence `calibration` (in
`VFfE.C` and in `XVxX.cc`) is not rejected: the integral is `0`, the factor
`1.0 / 0` is `+inf`, and a histogram is produced, every cell of which is
not-a-number. -/
theorem calibration_empty_not_rejected :
    (calibrationPass VFfE.isForwardTrack []).IntegralWidth = 0 ∧
    Dbl.div 1 (calibrationPass VFfE.isForwardTrack []).IntegralWidth = Dbl.pinf ∧
    VFfE.calibration [] =
      { xmin := 0, xmax := 200, underflow := Dbl.nan, bins := List.replicate 100 Dbl.nan,
        overflow := Dbl.nan } ∧
    XVxX.calibration [] =
      { xmin := 0, xmax := 200, underflow := Dbl.nan, bins := List.replicate 100 Dbl.nan,
        overflow := Dbl.nan } := by
  refine ⟨by decide!, by decide!, by decide!, by decide!⟩

/-- C13 (amended): on an empty event sequence the normalisation step of
`calibration` is carried out without any check, for either variant of the
forward-track predicate: the scale factor is `1.0 / 0 = +inf` and the
histogram that is written has 100 bins over `[0, 200)` whose cells, like the
underflow and overflow cells, are all not-a-number. -/
theorem calibration_empty (isForwardTrack : RootTrack → Bool) :
    Dbl.div 1 (calibrationPass isForwardTrack []).IntegralWidth = Dbl.pinf ∧
    calibrationWith isForwardTrack [] =
      { xmin := 0, xmax := 200, underflow := Dbl.nan, bins := List.replicate 100 Dbl.nan,
        overflow := Dbl.nan } ∧
    (calibrationWith isForwardTrack []).toTH1D? = none := by
  have hpass : calibrationPass isForwardTrack [] =
      { xmin := 0, xmax := 200, underflow := 0, bins := List.replicate 100 0, overflow := 0 } :=
    rfl
  have hI : (calibrationPass isForwardTrack []).IntegralWidth = 0 := by
    rw [hpass]; decide!
  have hfac : Dbl.div 1 (calibrationPass isForwardTrack []).IntegralWidth = Dbl.pinf := by
    rw [hI]; decide!
  have hcal : calibrationWith isForwardTrack [] =
      { xmin := 0, xmax := 200, underflow := Dbl.nan, bins := List.replicate 100 Dbl.nan,
        overflow := Dbl.nan } := by
    unfold calibrationWith
    simp only [hfac]
    rw [hpass]
    decide!
  refine ⟨hfac, hcal, ?_⟩
  rw [hcal]
  decide!

/-! ## Yield aggregation -/

lemma profBin_add_assoc (a b c : ProfBin) : (a.add b).add c = a.add (b.add c) := by
  simp only [ProfBin.add, add_assoc]

lemma profBin_add_zero (a : ProfBin) : a.add ProfBin.zero = a := by
  simp only [ProfBin.add, ProfBin.zero, add_zero]

lemma addAtBin_length (l : List ProfBin) : ∀ (i : Nat) (w : ProfBin),
    (addAtBin l i w).length = l.length := by
  induction l with
  | nil => intro i w; rfl
  | cons x rest ih =>
    intro i w
    cases i with
    | zero => rfl
    | succ i => simp [addAtBin, ih]

/-- Adding to a cell commutes with merging: it does not matter on which side
of a merge the contribution of an event is added. -/
lemma zipWith_addAtBin (a : List ProfBin) : ∀ (b : List ProfBin) (i : Nat) (w : ProfBin),
    List.zipWith ProfBin.add a (addAtBin b i w) =
      addAtBin (List.zipWith ProfBin.add a b) i w := by
  induction a with
  | nil => intro b i w; simp [addAtBin]
  | cons x rest ih =>
    intro b i w
    cases b with
    | nil => simp [addAtBin]
    | cons y rest2 =>
      cases i with
      | zero => simp [addAtBin, profBin_add_assoc]
      | succ i => simp [addAtBin, ih]

lemma zipWith_add_replicate_zero (l : List ProfBin) :
    List.zipWith ProfBin.add l (List.replicate l.length ProfBin.zero) = l := by
  induction l with
  | nil => rfl
  | cons x rest ih =>
    simp only [List.length_cons, List.replicate_succ, List.zipWith_cons_cons, ih,
      profBin_add_zero]

lemma Fill_under (p : TProfile) (x y : ℚ) (h : p.FindBin x ≤ 0) :
    p.Fill x y = { p with underflow := p.underflow.add (ProfBin.single y) } := by
  simp only [TProfile.Fill, h, if_true]

lemma Fill_regular (p : TProfile) (x y : ℚ) (h1 : ¬ p.FindBin x ≤ 0)
    (h2 : p.FindBin x ≤ p.GetNbinsX) :
    p.Fill x y =
      { p with bins := addAtBin p.bins ((p.FindBin x).toNat - 1) (ProfBin.single y) } := by
  simp only [TProfile.Fill, h1, h2, if_true, if_false]

lemma Fill_over (p : TProfile) (x y : ℚ) (h1 : ¬ p.FindBin x ≤ 0)
    (h2 : ¬ p.FindBin x ≤ p.GetNbinsX) :
    p.Fill x y = { p with overflow := p.overflow.add (ProfBin.single y) } := by
  simp only [TProfile.Fill, h1, h2, if_false]

lemma Fill_sameAxis (p : TProfile) (x y : ℚ) : (p.Fill x y).SameAxis p := by
  unfold TProfile.SameAxis
  by_cases h1 : p.FindBin x ≤ 0
  · simp only [TProfile.Fill, h1, if_true, and_self]
  · by_cases h2 : p.FindBin x ≤ p.GetNbinsX
    · simp only [TProfile.Fill, h1, h2, if_true, if_false, addAtBin_length, and_self]
    · simp only [TProfile.Fill, h1, h2, if_false, and_self]

lemma SameAxis_trans {p q r : TProfile} (h1 : p.SameAxis q) (h2 : q.SameAxis r) :
    p.SameAxis r :=
  ⟨h1.1.trans h2.1, h1.2.1.trans h2.2.1, h1.2.2.trans h2.2.2⟩

lemma SameAxis_symm {p q : TProfile} (h : p.SameAxis q) : q.SameAxis p :=
  ⟨h.1.symm, h.2.1.symm, h.2.2.symm⟩

/-- Filling commutes with merging, for profiles over the same axis. -/
lemma merge_Fill (p q : TProfile) (x y : ℚ) (h : p.SameAxis q) :
    p.merge (q.Fill x y) = (p.merge q).Fill x y := by
  obtain ⟨h1, h2, h3⟩ := h
  have hbin : (p.merge q).FindBin x = q.FindBin x := by
    unfold TProfile.FindBin TProfile.GetNbinsX TProfile.merge
    simp only [List.length_zipWith, h1, h2, h3, min_self]
  have hn : (p.merge q).GetNbinsX = q.GetNbinsX := by
    unfold TProfile.GetNbinsX TProfile.merge
    simp only [List.length_zipWith, h3, min_self]
  by_cases c1 : q.FindBin x ≤ 0
  · rw [Fill_under q x y c1, Fill_under (p.merge q) x y (by rw [hbin]; exact c1)]
    simp only [TProfile.merge, profBin_add_assoc]
  · by_cases c2 : q.FindBin x ≤ q.GetNbinsX
    · rw [Fill_regular q x y c1 c2,
        Fill_regular (p.merge q) x y (by rw [hbin]; exact c1) (by rw [hbin, hn]; exact c2), hbin]
      simp only [TProfile.merge, zipWith_addAtBin]
    · rw [Fill_over q x y c1 c2,
        Fill_over (p.merge q) x y (by rw [hbin]; exact c1) (by rw [hbin, hn]; exact c2)]
      simp only [TProfile.merge, profBin_add_assoc]

lemma merge_new (p : TProfile) (n : Nat) (lo hi : ℚ) (hlen : p.bins.length = n) :
    p.merge (TProfile.new n lo hi) = p := by
  unfold TProfile.merge TProfile.new
  subst hlen
  simp only [profBin_add_zero, zipWith_add_replicate_zero]

lemma analyzeEvent_sameAxis (ps : List ℚ) (b : Yields) (e : RootEvent) :
    (VFfE.analyzeEvent ps b e).SameAxis b := by
  unfold VFfE.analyzeEvent Yields.SameAxis
  exact ⟨Fill_sameAxis _ _ _, Fill_sameAxis _ _ _, Fill_sameAxis _ _ _, Fill_sameAxis _ _ _,
    Fill_sameAxis _ _ _, Fill_sameAxis _ _ _⟩

lemma Yields_SameAxis_trans {a b c : Yields} (h1 : a.SameAxis b) (h2 : b.SameAxis c) :
    a.SameAxis c :=
  ⟨SameAxis_trans h1.1 h2.1, SameAxis_trans h1.2.1 h2.2.1, SameAxis_trans h1.2.2.1 h2.2.2.1,
    SameAxis_trans h1.2.2.2.1 h2.2.2.2.1, SameAxis_trans h1.2.2.2.2.1 h2.2.2.2.2.1,
    SameAxis_trans h1.2.2.2.2.2 h2.2.2.2.2.2⟩

lemma Yields_SameAxis_symm {a b : Yields} (h : a.SameAxis b) : b.SameAxis a :=
  ⟨SameAxis_symm h.1, SameAxis_symm h.2.1, SameAxis_symm h.2.2.1, SameAxis_symm h.2.2.2.1,
    SameAxis_symm h.2.2.2.2.1, SameAxis_symm h.2.2.2.2.2⟩

/-- The contribution of one event commutes with merging. -/
lemma merge_analyzeEvent (ps : List ℚ) (a b : Yields) (e : RootEvent) (h : a.SameAxis b) :
    a.merge (VFfE.analyzeEvent ps b e) = VFfE.analyzeEvent ps (a.merge b) e := by
  obtain ⟨h1, h2, h3, h4, h5, h6⟩ := h
  unfold VFfE.analyzeEvent Yields.merge
  simp only [merge_Fill _ _ _ _ h1, merge_Fill _ _ _ _ h2, merge_Fill _ _ _ _ h3,
    merge_Fill _ _ _ _ h4, merge_Fill _ _ _ _ h5, merge_Fill _ _ _ _ h6]

lemma analyzePythiaFrom_sameAxis (ps : List ℚ) (events : List RootEvent) : ∀ b : Yields,
    (VFfE.analyzePythiaFrom ps b events).SameAxis b := by
  induction events with
  | nil =>
    intro b
    exact ⟨⟨rfl, rfl, rfl⟩, ⟨rfl, rfl, rfl⟩, ⟨rfl, rfl, rfl⟩, ⟨rfl, rfl, rfl⟩, ⟨rfl, rfl, rfl⟩,
      ⟨rfl, rfl, rfl⟩⟩
  | cons e rest ih =>
    intro b
    exact Yields_SameAxis_trans (ih (VFfE.analyzeEvent ps b e)) (analyzeEvent_sameAxis ps b e)

/-- The event loop commutes with merging: continuing the loop from a merge is
merging with the loop continued from one side. -/
lemma merge_analyzePythiaFrom (ps : List ℚ) (events : List RootEvent) :
    ∀ a b : Yields, a.SameAxis b →
      a.merge (VFfE.analyzePythiaFrom ps b events) =
        VFfE.analyzePythiaFrom ps (a.merge b) events := by
  induction events with
  | nil => intro a b _; rfl
  | cons e rest ih =>
    intro a b h
    have h2 : a.SameAxis (VFfE.analyzeEvent ps b e) :=
      Yields_SameAxis_trans h (Yields_SameAxis_symm (analyzeEvent_sameAxis ps b e))
    have := ih a (VFfE.analyzeEvent ps b e) h2
    unfold VFfE.analyzePythiaFrom at this ⊢
    simp only [List.foldl_cons]
    rw [this, merge_analyzeEvent ps a b e h]

lemma Yields_merge_new (a : Yields) (h : a.SameAxis Yields.new) : a.merge Yields.new = a := by
  obtain ⟨h1, h2, h3, h4, h5, h6⟩ := h
  unfold Yields.merge Yields.new
  rw [merge_new _ 10 0 10 (by simpa [TProfile.new] using h1.2.2),
    merge_new _ 10 0 10 (by simpa [TProfile.new] using h2.2.2),
    merge_new _ 10 0 10 (by simpa [TProfile.new] using h3.2.2),
    merge_new _ 10 0 10 (by simpa [TProfile.new] using h4.2.2),
    merge_new _ 10 0 10 (by simpa [TProfile.new] using h5.2.2),
    merge_new _ 10 0 10 (by simpa [TProfile.new] using h6.2.2)]

/-- C14: the yield aggregation of `analyze` is a homomorphism over
concatenation: for every boundary list and every split of an event sequence
into two parts, aggregating each part from fresh profiles and merging the
(count, sum, sum of squares) triples cell by cell gives exactly the profiles
of one pass over the whole sequence. -/
theorem analyze_aggregation_split (percentiles : List ℚ) (events1 events2 : List RootEvent) :
    VFfE.analyzePythia percentiles (events1 ++ events2) =
      (VFfE.analyzePythia percentiles events1).merge
        (VFfE.analyzePythia percentiles events2) := by
  have hax := analyzePythiaFrom_sameAxis percentiles events1 Yields.new
  unfold VFfE.analyzePythia at hax ⊢
  rw [merge_analyzePythiaFrom percentiles events2 _ _ hax, Yields_merge_new _ hax]
  unfold VFfE.analyzePythiaFrom
  rw [List.foldl_append]

/-! ## Policy B in the Thermal-FIST loop -/

/-- Without a matching interval the loop leaves `binIndex` at `0`. -/
lemma binIndexLoop_miss (n : Nat) (edges : List ℚ) (c : ℚ) : ∀ fuel k : Nat,
    (∀ j : Nat, k ≤ j → j < k + fuel →
      ¬ (c ≥ edges.getD j 0 ∧ c < edges.getD (j + 1) 0)) →
    binIndexLoop n edges c fuel k = 0 := by
  intro fuel
  induction fuel with
  | zero => intro k _; rfl
  | succ fuel ih =>
    intro k h
    simp only [binIndexLoop]
    rw [if_neg (h k le_rfl (by omega))]
    exact ih (k + 1) (fun j hj1 hj2 => h j (by omega) (by omega))

/-- Every edge of the table of the code lies in `[0, 100]`. -/
lemma kCentClasses_bounds (j : Nat) (hj : j < 11) :
    0 ≤ kCentClasses.getD j 0 ∧ kCentClasses.getD j 0 ≤ 100 := by
  unfold kCentClasses
  interval_cases j <;> norm_num

lemma binIndex_outside (c : ℚ) (h : c < 0 ∨ 100 ≤ c) :
    binIndex nMultClasses kCentClasses c = 0 := by
  unfold binIndex
  apply binIndexLoop_miss
  intro j _ hj
  have hj10 : j < 10 := by simpa [nMultClasses] using hj
  have h1 := (kCentClasses_bounds j (by omega)).1
  have h2 := (kCentClasses_bounds (j + 1) (by omega)).2
  rintro ⟨hc1, hc2⟩
  rcases h with h | h <;> linarith

/-- On the class axis an integer value in `0..9` falls into the regular bin
with the next number. -/
lemma axisFindBin_class (b : Int) (h0 : 0 ≤ b) (h9 : b ≤ 9) :
    axisFindBin 10 0 10 (b : ℚ) = b + 1 := by
  have hq0 : (0 : ℚ) ≤ (b : ℚ) := by exact_mod_cast h0
  have hq9 : (b : ℚ) < 10 := by
    have : b < 10 := by omega
    exact_mod_cast this
  unfold axisFindBin
  rw [if_neg (not_lt.mpr hq0), if_neg (not_not.mpr hq9)]
  have : ((10 : Int) : ℚ) * ((b : ℚ) - 0) / (10 - 0) = ((b : Int) : ℚ) := by
    push_cast; ring
  rw [this, Int.floor_intCast]
  ring

/-- A `Fill` at an integer class index in `0..9` adds the value to the
aggregate of that class and to no other cell. -/
lemma Fill_class (p : TProfile) (b : Int) (y : ℚ) (hx : p.xmin = 0) (hX : p.xmax = 10)
    (hlen : p.bins.length = 10) (h0 : 0 ≤ b) (h9 : b ≤ 9) :
    p.Fill (b : ℚ) y = { p with bins := addAtBin p.bins b.toNat (ProfBin.single y) } := by
  have hN : p.GetNbinsX = 10 := by unfold TProfile.GetNbinsX; omega
  have hbin : p.FindBin (b : ℚ) = b + 1 := by
    unfold TProfile.FindBin
    rw [hN, hx, hX]
    exact axisFindBin_class b h0 h9
  rw [Fill_regular p _ y (by rw [hbin]; omega) (by rw [hbin, hN]; omega), hbin]
  have : (b + 1).toNat - 1 = b.toNat := by omega
  rw [this]

lemma addAtBin_count_sum (l : List ProfBin) : ∀ (i : Nat) (w : ProfBin), i < l.length →
    ((addAtBin l i w).map ProfBin.count).sum = (l.map ProfBin.count).sum + w.count := by
  induction l with
  | nil => intro i w h; simp at h
  | cons x rest ih =>
    intro i w h
    cases i with
    | zero => simp [addAtBin, ProfBin.add]; ring
    | succ i =>
      simp only [addAtBin, List.map_cons, List.sum_cons, ih i w (by simpa using h)]
      ring

lemma Fill_classFilled (p : TProfile) (k : ℚ) (b : Int) (y : ℚ) (hp : p.ClassFilled k)
    (h0 : 0 ≤ b) (h9 : b ≤ 9) : (p.Fill (b : ℚ) y).ClassFilled (k + 1) := by
  obtain ⟨hx, hX, hlen, hu, ho, hs⟩ := hp
  rw [Fill_class p b y hx hX hlen h0 h9]
  refine ⟨hx, hX, ?_, hu, ho, ?_⟩
  · simp only [addAtBin_length, hlen]
  · simp only []
    rw [addAtBin_count_sum _ _ _ (by omega), hs]
    rfl

lemma fistBinIndex_range (entry : FistEntry) :
    0 ≤ VFfE.fistBinIndex entry ∧ VFfE.fistBinIndex entry ≤ 9 := by
  have h := binIndexLoop_range nMultClasses kCentClasses (entry.event.fV0A : ℚ) (by decide)
    nMultClasses 0 (by omega)
  unfold VFfE.fistBinIndex binIndex
  simpa [nMultClasses] using h

lemma analyzeFistEntry_classFilled (ys : Yields) (entry : FistEntry) (k : ℚ)
    (h : ∀ p ∈ ys.toList, p.ClassFilled k) :
    ∀ p ∈ (VFfE.analyzeFistEntry ys entry).toList, p.ClassFilled (k + 1) := by
  obtain ⟨b0, b9⟩ := fistBinIndex_range entry
  simp only [Yields.toList, List.mem_cons, List.mem_singleton, List.not_mem_nil, or_false,
    forall_eq_or_imp, forall_eq] at h ⊢
  obtain ⟨h1, h2, h3, h4, h5, h6⟩ := h
  unfold VFfE.analyzeFistEntry
  exact ⟨Fill_classFilled _ k _ _ h1 b0 b9, Fill_classFilled _ k _ _ h2 b0 b9,
    Fill_classFilled _ k _ _ h3 b0 b9, Fill_classFilled _ k _ _ h4 b0 b9,
    Fill_classFilled _ k _ _ h5 b0 b9, Fill_classFilled _ k _ _ h6 b0 b9⟩

lemma analyzeFist_foldl_classFilled (entries : List FistEntry) : ∀ (ys : Yields) (k : ℚ),
    (∀ p ∈ ys.toList, p.ClassFilled k) →
    ∀ p ∈ (entries.foldl VFfE.analyzeFistEntry ys).toList,
      p.ClassFilled (k + entries.length) := by
  induction entries with
  | nil => intro ys k h; simpa using h
  | cons e rest ih =>
    intro ys k h p hp
    have := ih (VFfE.analyzeFistEntry ys e) (k + 1) (analyzeFistEntry_classFilled ys e k h) p hp
    simp only [List.length_cons]
    push_cast
    have heq : k + ((rest.length : ℚ) + 1) = k + 1 + (rest.length : ℚ) := by ring
    rw [heq]
    exact this

/-- C20: in the Thermal-FIST loop of `analyze` the class index of every entry
lies in `0..9`; a centrality value outside every interval of the edge table
(`c < 0` or `c ≥ 100`) gets the fallback class `0`; and every entry is filled
exactly once into the class bin of its index, in each of the six profiles:
after the loop the ten class bins hold as many fills as there are entries, and
the underflow and overflow cells hold none. -/
theorem fist_fallback_class :
    (∀ entry : FistEntry, 0 ≤ VFfE.fistBinIndex entry ∧ VFfE.fistBinIndex entry ≤ 9) ∧
    (∀ entry : FistEntry, (entry.event.fV0A < 0 ∨ 100 ≤ entry.event.fV0A) →
      VFfE.fistBinIndex entry = 0) ∧
    (∀ (p : TProfile) (entry : FistEntry) (y : ℚ),
      p.xmin = 0 → p.xmax = 10 → p.bins.length = 10 →
      p.Fill (VFfE.fistBinIndex entry : ℚ) y =
        { p with bins :=
            addAtBin p.bins (VFfE.fistBinIndex entry).toNat (ProfBin.single y) }) ∧
    (∀ entries : List FistEntry, ∀ p ∈ (VFfE.analyzeFist entries).toList,
      p.underflow.count = 0 ∧ p.overflow.count = 0 ∧
        (p.bins.map ProfBin.count).sum = entries.length) := by
  refine ⟨fistBinIndex_range, ?_, ?_, ?_⟩
  · intro entry h
    unfold VFfE.fistBinIndex
    apply binIndex_outside
    rcases h with h | h
    · left; exact_mod_cast h
    · right; exact_mod_cast h
  · intro p entry y hx hX hlen
    obtain ⟨b0, b9⟩ := fistBinIndex_range entry
    exact Fill_class p _ y hx hX hlen b0 b9
  · intro entries p hp
    have hnew : ∀ q ∈ Yields.new.toList, q.ClassFilled 0 := by
      intro q hq
      simp only [Yields.toList, Yields.new, List.mem_cons, List.mem_singleton,
        List.not_mem_nil, or_false, or_self] at hq
      subst hq
      refine ⟨rfl, rfl, by simp [TProfile.new], rfl, rfl, ?_⟩
      simp [TProfile.new, ProfBin.zero]
    have := analyzeFist_foldl_classFilled entries Yields.new 0 hnew p hp
    obtain ⟨_, _, _, hu, ho, hs⟩ := this
    exact ⟨hu, ho, by simpa using hs⟩

/-- Witness for C20: a Thermal-FIST entry with centrality value `150`, beyond
the last edge of the table. -/
theorem fist_fallback_class_witness :
    ((150 : Int) < 0 ∨ (100 : Int) ≤ 150) ∧
    VFfE.fistBinIndex { event := { fV0A := 150, fV0C := 0, fCL1 := 0 }, tracks := [] } = 0 :=
  ⟨Or.inr (by decide),
    fist_fallback_class.2.1 { event := { fV0A := 150, fV0C := 0, fCL1 := 0 }, tracks := [] }
      (Or.inr (by decide))⟩

/-! ## End-to-end scenario: identical events -/

/-- One `Fill(0)` on a calibration histogram whose weight sits in bin `1`. -/
lemma Fill_zero_calib (k : ℚ) :
    (lowestBinHist k).Fill ((0 : Int) : ℚ) = lowestBinHist (k + 1) := by
  have hbin : axisFindBin 100 0 200 ((0 : Int) : ℚ) = 1 := by decide!
  have hN : (lowestBinHist k).GetNbinsX = 100 := by
    simp [TH1D.GetNbinsX, lowestBinHist]
  unfold TH1D.Fill TH1D.FindBin
  rw [hN]
  have hx : (lowestBinHist k).xmin = 0 := rfl
  have hX : (lowestBinHist k).xmax = 200 := rfl
  rw [hx, hX]
  simp only [hbin]
  rfl

/-- The event loop of `calibration` over `n` copies of the sample event puts
the weight `n` into bin `1`. -/
lemma calibrationPass_identical (n : Nat) : ∀ k : ℚ,
    (List.replicate n fivePionsOneKaon).foldl
        (fun hCalib evt => hCalib.Fill (countForward VFfE.isForwardTrack evt.tracks))
        (lowestBinHist k) = lowestBinHist (k + n) := by
  have hc : countForward VFfE.isForwardTrack fivePionsOneKaon.tracks = 0 := by decide!
  induction n with
  | zero => intro k; simp
  | succ n ih =>
    intro k
    rw [List.replicate_succ, List.foldl_cons, hc, Fill_zero_calib, ih]
    push_cast
    congr 1
    ring

/-- One `Fill(-0.5, y)` on a profile whose fills all sit in the underflow
cell. -/
lemma Fill_underflowProfile (n c : ℚ) :
    (underflowProfile n c).Fill (-1 / 2) c = underflowProfile (n + 1) c := by
  have hbin : (underflowProfile n c).FindBin (-1 / 2) = 0 := by
    unfold TProfile.FindBin axisFindBin underflowProfile
    norm_num
  rw [Fill_under _ _ _ (by rw [hbin])]
  unfold underflowProfile ProfBin.add ProfBin.single
  simp only [TProfile.mk.injEq, ProfBin.mk.injEq, and_true, true_and]
  refine ⟨?_, ?_⟩ <;> ring

/-- The contribution of one sample event when all ten boundaries equal `1`. -/
lemma analyzeEvent_identical (k : ℚ) :
    VFfE.analyzeEvent (List.replicate 10 1) (underflowYields k) fivePionsOneKaon =
      underflowYields (k + 1) := by
  have hc : VFfE.countTracks fivePionsOneKaon.tracks =
      { nFwd := 0, nPi := 5, nP := 0, nK := 1, nL := 0, nXi := 0, nO := 0 } := by decide!
  have hi : cIndex (List.replicate 10 1) 0 = -1 / 2 := by decide!
  have e5 : (((5 : Int) : ℚ)) = 5 := by norm_num
  have e1 : (((1 : Int) : ℚ)) = 1 := by norm_num
  have e0 : (((0 : Int) : ℚ)) = 0 := by norm_num
  unfold VFfE.analyzeEvent underflowYields
  simp only [hc, hi, e5, e1, e0, Fill_underflowProfile]

/-- The PYTHIA loop of `analyze` over `n` copies of the sample event, with all
ten boundaries equal to `1`, puts every fill into the underflow cells. -/
lemma analyzePythia_identical (n : Nat) : ∀ k : ℚ,
    VFfE.analyzePythiaFrom (List.replicate 10 1) (underflowYields k)
        (List.replicate n fivePionsOneKaon) = underflowYields (k + n) := by
  induction n with
  | zero => intro k; simp [VFfE.analyzePythiaFrom]
  | succ n ih =>
    intro k
    have h := ih (k + 1)
    have hr : List.replicate (n + 1) fivePionsOneKaon =
        fivePionsOneKaon :: List.replicate n fivePionsOneKaon := rfl
    unfold VFfE.analyzePythiaFrom at h ⊢
    rw [hr, List.foldl_cons, analyzeEvent_identical, h]
    push_cast
    congr 1
    ring

lemma calibration_identical :
    VFfE.calibration (List.replicate 1000 fivePionsOneKaon) =
      (lowestBinHist 1000).ScaleValue (Dbl.div 1 (lowestBinHist 1000).IntegralWidth) := by
  have h0 : calibrationPass VFfE.isForwardTrack [] = lowestBinHist 0 := by decide!
  have hpass : calibrationPass VFfE.isForwardTrack (List.replicate 1000 fivePionsOneKaon) =
      lowestBinHist 1000 := by
    unfold calibrationPass at h0 ⊢
    rw [List.foldl_nil] at h0
    rw [h0, calibrationPass_identical 1000 0]
    norm_num
  unfold VFfE.calibration calibrationWith
  simp only [hpass]

lemma analyze_identical :
    (VFfE.analyze calibLowest (List.replicate 1000 fivePionsOneKaon) []).pythia =
      underflowYields 1000 := by
  have hp : VFfE.findPercentiles calibLowest = List.replicate 10 1 := by decide!
  have h0 : Yields.new = underflowYields 0 := by decide!
  unfold VFfE.analyze VFfE.analyzePythia
  simp only [hp, h0]
  rw [analyzePythia_identical 1000 0]
  norm_num

lemma analyze_identical_fist :
    (VFfE.analyze calibLowest (List.replicate 1000 fivePionsOneKaon) []).fist = Yields.new :=
  rfl

/-- C19 (as stated, refuted): for 1000 identical events with five pions and
one kaon at mid-rapidity (forward count `0`) the pipeline populates none of
the ten class bins, not exactly one: after `calibration`, `findPercentiles`
and `analyze` no class bin of any of the six profiles holds an entry. -/
theorem pipeline_identical_no_class_bin :
    (VFfE.calibration (List.replicate 1000 fivePionsOneKaon)).toTH1D? = some calibLowest ∧
    (∀ p ∈ (VFfE.analyze calibLowest (List.replicate 1000 fivePionsOneKaon) []).pythia.toList,
      (p.bins.filter (fun b => decide (b.count ≠ 0))).length = 0) ∧
    (0 : Nat) ≠ 1 := by
  refine ⟨?_, ?_, by decide⟩
  · rw [calibration_identical]; decide!
  · rw [analyze_identical]; decide!

/-- C19 (amended): for 1000 identical events with five pions and one kaon
(`pid = 310`) at rapidity `0`, pseudorapidity `0`, `pT = 1` (forward count
`0`), `calibration` puts the whole weight into bin `1`, `findPercentiles`
returns the centre `1` of that bin for all ten thresholds, every event gets
the class index `-0.5`, and `analyze` accumulates all 1000 events in the
underflow cell of each profile, none in the ten class bins; in that cell the
kaon/pion value of the ratio step is `2 * (1/5) = 0.4`, and the standard
errors of the pion and kaon means are `0`. -/
theorem pipeline_identical_underflow :
    (VFfE.calibration (List.replicate 1000 fivePionsOneKaon)).toTH1D? = some calibLowest ∧
    VFfE.findPercentiles calibLowest = List.replicate 10 1 ∧
    cIndex (VFfE.findPercentiles calibLowest)
      (VFfE.countTracks fivePionsOneKaon.tracks).nFwd = -1 / 2 ∧
    (VFfE.analyze calibLowest (List.replicate 1000 fivePionsOneKaon) []).pythia.hPiCent =
      { xmin := 0, xmax := 10,
        underflow := { count := 1000, sum := 5000, sumOfSquares := 25000 },
        bins := List.replicate 10 ProfBin.zero, overflow := ProfBin.zero } ∧
    (VFfE.analyze calibLowest (List.replicate 1000 fivePionsOneKaon) []).pythia.hKCent =
      { xmin := 0, xmax := 10,
        underflow := { count := 1000, sum := 1000, sumOfSquares := 1000 },
        bins := List.replicate 10 ProfBin.zero, overflow := ProfBin.zero } ∧
    (VFfE.drawRatioWithExperimentalData
      (VFfE.analyze calibLowest (List.replicate 1000 fivePionsOneKaon) [])).k_sim.underflow =
      2 / 5 ∧
    ProfBin.stdErrSq { count := 1000, sum := 5000, sumOfSquares := 25000 } = 0 ∧
    ProfBin.stdErrSq { count := 1000, sum := 1000, sumOfSquares := 1000 } = 0 := by
  refine ⟨?_, by decide!, by decide!, ?_, ?_, ?_, by decide!, by decide!⟩
  · rw [calibration_identical]; decide!
  · rw [analyze_identical]; decide!
  · rw [analyze_identical]; decide!
  · unfold VFfE.drawRatioWithExperimentalData
    simp only [analyze_identical]
    decide!

/-! ## Xi-proximity analyses -/

lemma findXi_foldl_eta (tracks : List RootTrack) : ∀ r : XiRef,
    (tracks.foldl VFfE.findXiStep r).etaXi = r.etaXi ∧
    (tracks.foldl VFfE.findXiStep r).etaXiBar = r.etaXiBar := by
  induction tracks with
  | nil => intro r; exact ⟨rfl, rfl⟩
  | cons trk rest ih =>
    intro r
    obtain ⟨h1, h2⟩ := ih (VFfE.findXiStep r trk)
    simp only [List.foldl_cons]
    rw [h1, h2]
    unfold VFfE.findXiStep
    split_ifs <;> exact ⟨rfl, rfl⟩

/-- C21 (the code at the failing input): in `analyzexixibar` the reference
pseudorapidities `etaXi` and `etaXiBar` are `0` for every event, whatever Xi
the event holds; in the event with a Xi at `0.8`, an anti-Xi at `-0.8` and a
pion at `0.1` the pion is counted in `nPiPlus` and in `nPiMinus`, although it
is `0.7` away from the Xi and `0.9` away from the anti-Xi. -/
theorem analyzexixibar_reference_not_assigned :
    (∀ tracks : List RootTrack,
      (VFfE.findXi tracks).etaXi = 0 ∧ (VFfE.findXi tracks).etaXiBar = 0) ∧
    (VFfE.xixibarEvent (2 / 10) 211 [] xiFarFromPion).map Prod.snd =
      some { nFwd := 0, nKPlus := 0, nKMinus := 0, nPiPlus := 1, nPiMinus := 1 } ∧
    ¬ (|(1 / 10 : ℚ) - 8 / 10| < 2 / 10) ∧ ¬ (|(1 / 10 : ℚ) - -8 / 10| < 2 / 10) := by
  refine ⟨fun tracks => findXi_foldl_eta tracks _, by decide!, by decide!, by decide!⟩

lemma countXiTrack_piMinus_never (width etaXi etaXiBar : ℚ) (c : XiCounts) (trk : RootTrack) :
    (VFfE.countXiTrack width (-211) etaXi etaXiBar c trk).nPiMinus = c.nPiMinus := by
  have hne : ¬ (|trk.pid| = -211 ∧ |trk.eta - etaXiBar| < width) := by
    rintro ⟨h, _⟩
    have := abs_nonneg trk.pid
    omega
  unfold VFfE.countXiTrack
  simp only [hne, if_false]
  split_ifs <;> rfl

/-- C22 (the code at the failing input): `analyzexixibar005` and
`analyzexixibar002` compare `abs(trk.pid)` with `-211` in the `nPiMinus`
line, so no track ever raises `nPiMinus`; in the event with a Xi, an anti-Xi
and a negative pion at `eta = 0` the body of `analyzexixibar` with the width
`0.05` counts `nPiMinus = 1`, the body of `analyzexixibar005` counts
`nPiMinus = 0`. -/
theorem analyzexixibar005_piMinus_never_counted :
    (∀ (width etaXi etaXiBar : ℚ) (c : XiCounts) (trk : RootTrack),
      (VFfE.countXiTrack width (-211) etaXi etaXiBar c trk).nPiMinus = c.nPiMinus) ∧
    (VFfE.xixibarEvent (5 / 100) 211 [] xiWithPiMinus).map Prod.snd =
      some { nFwd := 0, nKPlus := 0, nKMinus := 0, nPiPlus := 1, nPiMinus := 1 } ∧
    (VFfE.xixibarEvent (5 / 100) (-211) [] xiWithPiMinus).map Prod.snd =
      some { nFwd := 0, nKPlus := 0, nKMinus := 0, nPiPlus := 1, nPiMinus := 0 } ∧
    (VFfE.xixibarEvent (2 / 100) 211 [] xiWithPiMinus).map Prod.snd =
      some { nFwd := 0, nKPlus := 0, nKMinus := 0, nPiPlus := 1, nPiMinus := 1 } ∧
    (VFfE.xixibarEvent (2 / 100) (-211) [] xiWithPiMinus).map Prod.snd =
      some { nFwd := 0, nKPlus := 0, nKMinus := 0, nPiPlus := 1, nPiMinus := 0 } := by
  refine ⟨countXiTrack_piMinus_never, by decide!, by decide!, by decide!, by decide!⟩

/-! ## Generator-level predicates and `RootTrack::init` -/

/-- C25 (the code at the failing input): the `isForwardTrack` of `GwTx.cc`
rejects only `pT < 0.1`: it is true exactly for charged particles with
`pT ≥ 0.1` inside an acceptance window, and it accepts the charged pion at
`eta = 3` whose `pT` is exactly `0.1`. -/
theorem GwTx_isForwardTrack_accepts_threshold :
    (∀ p : Particle, GwTx.isForwardTrack p = true ↔
      p.isCharged = true ∧ 1 / 10 ≤ p.pT ∧
        ((-37 / 10 < p.eta ∧ p.eta < -17 / 10) ∨ (28 / 10 < p.eta ∧ p.eta < 51 / 10))) ∧
    softForwardPion.isCharged = true ∧ softForwardPion.pT = 1 / 10 ∧
    GwTx.isForwardTrack softForwardPion = true := by
  refine ⟨?_, rfl, rfl, by decide!⟩
  intro p
  unfold GwTx.isForwardTrack
  by_cases hc : p.isCharged = true
  · by_cases hp : p.pT < 1 / 10
    · simp only [hc, hp, Bool.not_true, Bool.false_or, decide_True, if_true,
        Bool.false_eq_true, true_and, false_iff, not_and]
      intro h; exact absurd hp (not_lt.mpr h)
    · simp only [hc, hp, Bool.not_true, Bool.false_or, decide_False, Bool.false_eq_true,
        if_false, true_and, not_lt.mp hp, gt_iff_lt, Bool.or_eq_true, Bool.and_eq_true,
        decide_eq_true_eq]
  · simp only [Bool.not_eq_true] at hc
    simp [hc]

/-- C30: `RootTrack::init` of `main144.h` writes `phi`, `eta`, `y`, `pT` and
`pid` and returns true when the particle is final, and returns false and
changes nothing otherwise; it never changes `isHadron` or `isCharged`, so a
default-constructed track initialised this way is rejected by
`isForwardTrack` for every particle; the `init` of `RootEvent.cxx` copies both
flags as well and always returns true. -/
theorem RootTrack_init_frame (trk : RootTrack) (p : Particle) :
    (p.isFinal = true → main144.init trk p =
      (true, { phi := p.phi, eta := p.eta, y := p.y, pT := p.pT, pid := p.id,
               isHadron := trk.isHadron, isCharged := trk.isCharged })) ∧
    (p.isFinal = false → main144.init trk p = (false, trk)) ∧
    (main144.init trk p).2.isHadron = trk.isHadron ∧
    (main144.init trk p).2.isCharged = trk.isCharged ∧
    VFfE.isForwardTrack (main144.init RootTrack.default p).2 = false ∧
    dSiB.init trk p =
      (true, { phi := p.phi, eta := p.eta, y := p.y, pT := p.pT, pid := p.id,
               isHadron := p.isHadron, isCharged := p.isCharged }) := by
  refine ⟨?_, ?_, ?_, ?_, ?_, rfl⟩
  · intro h; simp only [main144.init, h, if_true]
  · intro h; simp [main144.init, h]
  · unfold main144.init; split <;> rfl
  · unfold main144.init; split <;> rfl
  · have hh : (main144.init RootTrack.default p).2.isHadron = false := by
      unfold main144.init; split <;> rfl
    unfold VFfE.isForwardTrack
    rw [hh]
    rfl

/-- Witness for C30: the final sample pion and a copy of it that is not
final, both on the default-constructed track. -/
theorem RootTrack_init_frame_witness :
    (main144.init RootTrack.default centralPion).1 = true ∧
    main144.init RootTrack.default { centralPion with isFinal := false } =
      (false, RootTrack.default) :=
  ⟨by rw [(RootTrack_init_frame RootTrack.default centralPion).1 rfl],
   (RootTrack_init_frame RootTrack.default { centralPion with isFinal := false }).2.1 rfl⟩

/-! ## Fixed-edge dNch/dEta classification (`k1V5.cc`, `Q5UN.cc`) -/

lemma multiplicityClassLoop_spec (limits : List ℚ) (d : ℚ) : ∀ fuel k : Nat,
    multiplicityClassLoop limits d fuel k = -1 ∨
    ∃ i : Nat, k ≤ i ∧ i < k + fuel ∧ multiplicityClassLoop limits d fuel k = (i : Int) ∧
      limits.getD i 0 ≤ d ∧ d < limits.getD (i + 1) 0 := by
  intro fuel
  induction fuel with
  | zero => intro k; exact Or.inl rfl
  | succ fuel ih =>
    intro k
    simp only [multiplicityClassLoop]
    by_cases h : d ≥ limits.getD k 0 ∧ d < limits.getD (k + 1) 0
    · rw [if_pos h]
      exact Or.inr ⟨k, le_rfl, by omega, rfl, h.1, h.2⟩
    · rw [if_neg h]
      rcases ih (k + 1) with h1 | ⟨i, hi1, hi2, hi3, hi4⟩
      · exact Or.inl h1
      · exact Or.inr ⟨i, by omega, by omega, hi3, hi4⟩

lemma limits_le_fifty (i : Nat) (hi : i < 10) :
    ([0, 5, 10, 15, 20, 25, 30, 35, 40, 45, 50] : List ℚ).getD (i + 1) 0 ≤ 50 := by
  interval_cases i <;> norm_num [List.getD]

lemma multiplicityClassLoop_outside (d : ℚ) (hd : 50 ≤ d) :
    multiplicityClassLoop [0, 5, 10, 15, 20, 25, 30, 35, 40, 45, 50] d 10 0 = -1 := by
  rcases multiplicityClassLoop_spec [0, 5, 10, 15, 20, 25, 30, 35, 40, 45, 50] d 10 0 with
    h | ⟨i, _, hi2, _, _, hi5⟩
  · exact h
  · have := limits_le_fifty i (by omega)
    linarith

lemma multiplicityClassLoop_ge_two (d : ℚ) (hd : 10 ≤ d) :
    multiplicityClassLoop [0, 5, 10, 15, 20, 25, 30, 35, 40, 45, 50] d 10 0 = -1 ∨
    ∃ i : Nat, 2 ≤ i ∧
      multiplicityClassLoop [0, 5, 10, 15, 20, 25, 30, 35, 40, 45, 50] d 10 0 = (i : Int) := by
  rcases multiplicityClassLoop_spec [0, 5, 10, 15, 20, 25, 30, 35, 40, 45, 50] d 10 0 with
    h | ⟨i, _, _, hi3, _, hi5⟩
  · exact Or.inl h
  · refine Or.inr ⟨i, ?_, hi3⟩
    by_contra hlt
    have hi : i = 0 ∨ i = 1 := by omega
    rcases hi with rfl | rfl
    · have h5 : ([0, 5, 10, 15, 20, 25, 30, 35, 40, 45, 50] : List ℚ).getD (0 + 1) 0 = 5 := rfl
      rw [h5] at hi5; linarith
    · have h10 : ([0, 5, 10, 15, 20, 25, 30, 35, 40, 45, 50] : List ℚ).getD (1 + 1) 0 = 10 := rfl
      rw [h10] at hi5; linarith

lemma dNchCountParticle_le (c : DNchCounts) (p : Particle)
    (h : (c.nCharged : ℚ) ≤ c.dNch_dEta) :
    ((dNchCountParticle c p).nCharged : ℚ) ≤ (dNchCountParticle c p).dNch_dEta := by
  simp only [dNchCountParticle]
  split_ifs <;> (push_cast; linarith)

lemma dNchCount_foldl_le (event : List Particle) : ∀ c : DNchCounts,
    (c.nCharged : ℚ) ≤ c.dNch_dEta →
    (((event.foldl dNchCountParticle c).nCharged : Int) : ℚ) ≤
      (event.foldl dNchCountParticle c).dNch_dEta := by
  induction event with
  | nil => intro c h; exact h
  | cons p rest ih => intro c h; exact ih _ (dNchCountParticle_le c p h)

lemma dNchCount_le (event : List Particle) :
    ((dNchCount event).nCharged : ℚ) ≤ (dNchCount event).dNch_dEta :=
  dNchCount_foldl_le event _ (by norm_num)

lemma addAt_getD_of_lt (l : List ℚ) : ∀ (i j : Nat) (w : ℚ), j < i →
    (addAt l i w).getD j 0 = l.getD j 0 := by
  induction l with
  | nil => intro i j w _; rfl
  | cons x rest ih =>
    intro i j w h
    cases i with
    | zero => omega
    | succ i =>
      cases j with
      | zero => rfl
      | succ j =>
        simp only [addAt, List.getD_cons_succ]
        exact ih i j w (by omega)

lemma dNchEventStep_low (ys : DNchYields) (event : Option (List Particle))
    (h : ys.LowClassesEmpty) :
    (dNchEventStep 10 [0, 5, 10, 15, 20, 25, 30, 35, 40, 45, 50] ys event).LowClassesEmpty := by
  cases event with
  | none => exact h
  | some particles =>
    simp only [dNchEventStep]
    by_cases hskip : multiplicityClassLoop [0, 5, 10, 15, 20, 25, 30, 35, 40, 45, 50]
        (dNchCount particles).dNch_dEta 10 0 = -1 ∨ (dNchCount particles).nCharged < 10
    · rw [if_pos hskip]; exact h
    · rw [if_neg hskip]
      push_neg at hskip
      obtain ⟨hne, hch⟩ := hskip
      have hd : (10 : ℚ) ≤ (dNchCount particles).dNch_dEta := by
        have h1 := dNchCount_le particles
        have h2 : ((10 : Int) : ℚ) ≤ ((dNchCount particles).nCharged : ℚ) := by exact_mod_cast hch
        push_cast at h2
        linarith
      rcases multiplicityClassLoop_ge_two _ hd with h1 | ⟨i, hi, hi2⟩
      · exact absurd h1 hne
      · rw [hi2, Int.toNat_ofNat]
        obtain ⟨⟨a0, a1⟩, ⟨b0, b1⟩, ⟨c0, c1⟩, ⟨d0, d1⟩, ⟨e0, e1⟩⟩ := h
        unfold DNchYields.LowClassesEmpty
        simp only [addAt_getD_of_lt _ i 0 _ (by omega), addAt_getD_of_lt _ i 1 _ (by omega)]
        exact ⟨⟨a0, a1⟩, ⟨b0, b1⟩, ⟨c0, c1⟩, ⟨d0, d1⟩, ⟨e0, e1⟩⟩

lemma dNchEventLoop_low (events : List (Option (List Particle))) : ∀ ys : DNchYields,
    ys.LowClassesEmpty →
    (events.foldl (dNchEventStep 10 [0, 5, 10, 15, 20, 25, 30, 35, 40, 45, 50])
      ys).LowClassesEmpty := by
  induction events with
  | nil => intro ys h; exact h
  | cons e rest ih => intro ys h; exact ih _ (dNchEventStep_low ys e h)

/-- C24 counterexample: an event of fifty central charged pions has
`dNch_dEta = 50` and `nCharged = 50`, and after it both event loops leave
every yield array as initialised: the event is skipped, not put in a fallback
class. -/
theorem dNch_outside_event_skipped :
    (dNchCount (List.replicate 50 centralPion)).dNch_dEta = 50 ∧
    (dNchCount (List.replicate 50 centralPion)).nCharged = 50 ∧
    k1V5.eventLoop [some (List.replicate 50 centralPion)] = DNchYields.new 10 ∧
    Q5UN.eventLoop [some (List.replicate 50 centralPion)] = DNchYields.new 10 := by
  refine ⟨by decide!, by decide!, by decide!, by decide!⟩

/-- C24 (amended): an event whose `dNch_dEta` is at least `50` keeps
`multiplicityClass = -1` and is skipped by the guard
`multiplicityClass == -1 || nCharged < 10`: the yield arrays are unchanged, in
`k1V5.cc` and in `Q5UN.cc`. -/
theorem dNch_outside_skipped (ys : DNchYields) (particles : List Particle)
    (h : 50 ≤ (dNchCount particles).dNch_dEta) :
    multiplicityClassLoop k1V5.dNch_dEtaLimits (dNchCount particles).dNch_dEta
      k1V5.nClasses 0 = -1 ∧
    dNchEventStep k1V5.nClasses k1V5.dNch_dEtaLimits ys (some particles) = ys ∧
    multiplicityClassLoop Q5UN.dNch_dEtaLimits (dNchCount particles).dNch_dEta
      Q5UN.nClasses 0 = -1 ∧
    dNchEventStep Q5UN.nClasses Q5UN.dNch_dEtaLimits ys (some particles) = ys := by
  have hm := multiplicityClassLoop_outside _ h
  have hs : dNchEventStep 10 [0, 5, 10, 15, 20, 25, 30, 35, 40, 45, 50] ys (some particles)
      = ys := by
    simp only [dNchEventStep]
    rw [if_pos (Or.inl hm)]
  exact ⟨hm, hs, hm, hs⟩

/-- Witness for C24 (amended): the event of fifty central charged pions, on
the arrays as initialised. -/
theorem dNch_outside_skipped_witness :
    dNchEventStep k1V5.nClasses k1V5.dNch_dEtaLimits (DNchYields.new 10)
      (some (List.replicate 50 centralPion)) = DNchYields.new 10 :=
  (dNch_outside_skipped (DNchYields.new 10) (List.replicate 50 centralPion)
    (by decide!)).2.1

/-- C29: in the dNch/dEta programs `nCharged ≤ dNch_dEta` holds for every
event, and after every sequence of events each of `yieldPions`, `yieldKaons`,
`yieldLambdas`, `yieldXis` and `yieldOmegas` is `0` at the indices `0` and
`1`, in `k1V5.cc` and in `Q5UN.cc`. -/
theorem dNch_low_classes_empty (events : List (Option (List Particle))) :
    (∀ event : List Particle,
      ((dNchCount event).nCharged : ℚ) ≤ (dNchCount event).dNch_dEta) ∧
    (k1V5.eventLoop events).LowClassesEmpty ∧ (Q5UN.eventLoop events).LowClassesEmpty := by
  have h0 : (DNchYields.new 10).LowClassesEmpty := by
    unfold DNchYields.LowClassesEmpty DNchYields.new
    simp [List.getD]
  exact ⟨dNchCount_le, dNchEventLoop_low events _ h0, dNchEventLoop_low events _ h0⟩

/-! ## Threshold classification of `YOdb.cc` -/

lemma YOdb_multiplicityClassLoop_range (f : Int) : ∀ fuel k : Nat,
    YOdb.multiplicityClassLoop f fuel k = -1 ∨
    ∃ i : Nat, k ≤ i ∧ i < k + fuel ∧ YOdb.multiplicityClassLoop f fuel k = (i : Int) := by
  intro fuel
  induction fuel with
  | zero => intro k; exact Or.inl rfl
  | succ fuel ih =>
    intro k
    simp only [YOdb.multiplicityClassLoop]
    split_ifs with h
    · exact Or.inr ⟨k, le_rfl, by omega, rfl⟩
    · rcases ih (k + 1) with h1 | ⟨i, hi1, hi2, hi3⟩
      · exact Or.inl h1
      · exact Or.inr ⟨i, by omega, by omega, hi3⟩

lemma YOdb_multiplicityClassLoop_miss (f : Int) : ∀ fuel k : Nat,
    (∀ j : Nat, k ≤ j → j < k + fuel → ¬ f ≥ YOdb.multThresholds.getD j 0) →
    YOdb.multiplicityClassLoop f fuel k = -1 := by
  intro fuel
  induction fuel with
  | zero => intro k _; rfl
  | succ fuel ih =>
    intro k h
    simp only [YOdb.multiplicityClassLoop]
    rw [if_neg (h k le_rfl (by omega))]
    exact ih (k + 1) (fun j hj1 hj2 => h j (by omega) (by omega))

/-- C28 (the code at the failing input): an event of ten central charged
pions has `nCharged = 10`, `nPions = 10` and `forwardMult = 0`, reaches the
statement `hRatio[multiplicityClass]->Fill(...)` and does so with the index
`-1`; in general the index is `-1` whenever `forwardMult < 1`, and lies in
`0..9` or is `-1` otherwise. -/
theorem YOdb_fillIndex_out_of_bounds :
    (YOdb.count (List.replicate 10 centralPion)).nCharged = 10 ∧
    (YOdb.count (List.replicate 10 centralPion)).nPions = 10 ∧
    (YOdb.count (List.replicate 10 centralPion)).forwardMult = 0 ∧
    YOdb.fillIndex (List.replicate 10 centralPion) = some (-1) ∧
    (∀ f : Int, f < 1 → YOdb.multiplicityClass f = -1) ∧
    (∀ f : Int, YOdb.multiplicityClass f = -1 ∨
      (0 ≤ YOdb.multiplicityClass f ∧ YOdb.multiplicityClass f ≤ 9)) := by
  refine ⟨by decide!, by decide!, by decide!, by decide!, ?_, ?_⟩
  · intro f hf
    apply YOdb_multiplicityClassLoop_miss
    intro j _ hj
    have hj10 : j < 10 := by omega
    unfold YOdb.multThresholds
    interval_cases j <;> simp [List.getD] <;> omega
  · intro f
    rcases YOdb_multiplicityClassLoop_range f 10 0 with h | ⟨i, _, hi2, hi3⟩
    · exact Or.inl h
    · right
      unfold YOdb.multiplicityClass
      rw [hi3]
      omega

/-! ## Order of the particles in `analyzexixibarFIST` -/

lemma findXiFist_hasXi (tracks : List MyParticle) : ∀ r : XiRef,
    ((tracks.foldl VFfE.findXiFistStep r).hasXi = true ↔
      r.hasXi = true ∨ ∃ t ∈ tracks, ¬ |t.fEta| > 1 ∧ t.fPDG = 3312) ∧
    ((tracks.foldl VFfE.findXiFistStep r).hasXibar = true ↔
      r.hasXibar = true ∨ ∃ t ∈ tracks, ¬ |t.fEta| > 1 ∧ t.fPDG = -3312) := by
  induction tracks with
  | nil => intro r; simp
  | cons t rest ih =>
    intro r
    simp only [List.foldl_cons, List.mem_cons, exists_eq_or_imp]
    rw [(ih _).1, (ih _).2]
    unfold VFfE.findXiFistStep
    by_cases h1 : |t.fEta| > 1
    · simp [h1]
    · by_cases h2 : t.fPDG = 3312
      · simp [h1, h2]
      · by_cases h3 : t.fPDG = -3312
        · simp [h1, h3]
        · simp [h1, h2, h3]

lemma findXiFistStep_comm (x y : MyParticle) (r : XiRef)
    (h : ¬ |x.fEta| > 1 → ¬ |y.fEta| > 1 → x.fPDG = y.fPDG →
      (x.fPDG = 3312 ∨ x.fPDG = -3312) → x.fEta = y.fEta) :
    VFfE.findXiFistStep (VFfE.findXiFistStep r x) y =
      VFfE.findXiFistStep (VFfE.findXiFistStep r y) x := by
  unfold VFfE.findXiFistStep
  by_cases hx : |x.fEta| > 1
  · simp only [hx, if_true]
  by_cases hy : |y.fEta| > 1
  · simp only [hy, if_true]
  simp only [hx, hy, if_false]
  by_cases hx1 : x.fPDG = 3312
  · by_cases hy1 : y.fPDG = 3312
    · have := h hx hy (by rw [hx1, hy1]) (Or.inl hx1)
      simp only [hx1, hy1, if_true, this]
    · simp only [hx1, hy1, if_true, if_false]
      split_ifs <;> rfl
  · by_cases hy1 : y.fPDG = 3312
    · simp only [hx1, hy1, if_true, if_false]
      split_ifs <;> rfl
    · simp only [hx1, hy1, if_false]
      by_cases hx2 : x.fPDG = -3312
      · by_cases hy2 : y.fPDG = -3312
        · have := h hx hy (by rw [hx2, hy2]) (Or.inr hx2)
          simp only [hx2, hy2, if_true, this]
        · simp only [hx2, hy2, if_true, if_false]
      · by_cases hy2 : y.fPDG = -3312
        · simp only [hx2, hy2, if_true, if_false]
        · simp only [hx2, hy2, if_false]

lemma countXiFistTrack_eq (e eb : ℚ) (c : FistXiCounts) (t : MyParticle) :
    VFfE.countXiFistTrack e eb c t =
      { nKPlus := c.nKPlus +
          (if ¬ |t.fEta| > 1 ∧ t.fPDG = 321 ∧ |t.fEta - e| < 2 / 10 then 1 else 0),
        nKMinus := c.nKMinus +
          (if ¬ |t.fEta| > 1 ∧ t.fPDG = -321 ∧ |t.fEta - eb| < 2 / 10 then 1 else 0),
        nPiPlus := c.nPiPlus +
          (if ¬ |t.fEta| > 1 ∧ |t.fPDG| = 211 ∧ |t.fEta - e| < 2 / 10 then 1 else 0),
        nPiMinus := c.nPiMinus +
          (if ¬ |t.fEta| > 1 ∧ |t.fPDG| = 211 ∧ |t.fEta - eb| < 2 / 10 then 1 else 0) } := by
  unfold VFfE.countXiFistTrack
  by_cases h0 : |t.fEta| > 1
  · simp [h0]
  · simp only [h0, if_false, not_false_eq_true, true_and]
    split_ifs <;> first | rfl | simp only [add_zero]

lemma countXiFistTrack_comm (e eb : ℚ) (c : FistXiCounts) (x y : MyParticle) :
    VFfE.countXiFistTrack e eb (VFfE.countXiFistTrack e eb c x) y =
      VFfE.countXiFistTrack e eb (VFfE.countXiFistTrack e eb c y) x := by
  simp only [countXiFistTrack_eq, add_right_comm]

/-- C23 counterexample: with two Xi at different pseudorapidities the counts
of `analyzexixibarFIST` depend on the order of the particles: the track list
`twoXiTracks` gives `nPiPlus = 0`, the same list with its first two particles
exchanged gives `nPiPlus = 1`; both lists pass the selection. -/
theorem analyzexixibarFIST_order_dependent :
    twoXiTracks.Perm twoXiTracksSwapped ∧
    VFfE.fistXiSelected twoXiTracks = true ∧
    VFfE.fistXiSelected twoXiTracksSwapped = true ∧
    (VFfE.fistXiCounts twoXiTracks).nPiPlus = 0 ∧
    (VFfE.fistXiCounts twoXiTracksSwapped).nPiPlus = 1 := by
  refine ⟨List.Perm.swap _ _ _, by decide!, by decide!, by decide!, by decide!⟩

/-- C23 (amended): for every permutation of the track list of an entry the
event-selection decision of `analyzexixibarFIST` is unchanged, and the four
counts are unchanged when all accepted Xi of the list share one
pseudorapidity and all accepted anti-Xi share one pseudorapidity (in
particular when there is at most one of each). -/
theorem analyzexixibarFIST_perm (l1 l2 : List MyParticle) (hp : l1.Perm l2) :
    VFfE.fistXiSelected l1 = VFfE.fistXiSelected l2 ∧
    ((∀ a ∈ l1, ∀ b ∈ l1, ¬ |a.fEta| > 1 → ¬ |b.fEta| > 1 → a.fPDG = b.fPDG →
        (a.fPDG = 3312 ∨ a.fPDG = -3312) → a.fEta = b.fEta) →
      VFfE.fistXiCounts l1 = VFfE.fistXiCounts l2) := by
  constructor
  · have h1 : (VFfE.findXiFist l1).hasXi = (VFfE.findXiFist l2).hasXi := by
      rw [Bool.eq_iff_iff]
      unfold VFfE.findXiFist
      rw [(findXiFist_hasXi l1 _).1, (findXiFist_hasXi l2 _).1]
      simp only [hp.mem_iff]
    have h2 : (VFfE.findXiFist l1).hasXibar = (VFfE.findXiFist l2).hasXibar := by
      rw [Bool.eq_iff_iff]
      unfold VFfE.findXiFist
      rw [(findXiFist_hasXi l1 _).2, (findXiFist_hasXi l2 _).2]
      simp only [hp.mem_iff]
    unfold VFfE.fistXiSelected
    rw [h1, h2]
  · intro h
    have hf : VFfE.findXiFist l1 = VFfE.findXiFist l2 := by
      unfold VFfE.findXiFist
      exact hp.foldl_eq' (fun x hx y hy z => findXiFistStep_comm x y z (h x hx y hy)) _
    unfold VFfE.fistXiCounts
    rw [hf]
    exact hp.foldl_eq' (fun x _ y _ z => countXiFistTrack_comm _ _ z x y) _

/-- Witness for C23 (amended): the track list with one Xi, one anti-Xi and a
pion, and the same list with the pion first. -/
theorem analyzexixibarFIST_perm_witness :
    oneXiTracks.Perm oneXiTracksRotated ∧
    VFfE.fistXiSelected oneXiTracks = VFfE.fistXiSelected oneXiTracksRotated ∧
    VFfE.fistXiCounts oneXiTracks = VFfE.fistXiCounts oneXiTracksRotated := by
  have hp : oneXiTracks.Perm oneXiTracksRotated := by
    unfold oneXiTracks oneXiTracksRotated
    exact List.perm_append_singleton (fistParticleAt 211 0)
      [fistParticleAt 3312 0, fistParticleAt (-3312) 0]
  have h := analyzexixibarFIST_perm oneXiTracks oneXiTracksRotated hp
  refine ⟨hp, h.1, h.2 ?_⟩
  intro a ha b hb _ _ _ _
  have hall : ∀ t ∈ oneXiTracks, t.fEta = 0 := by
    intro t ht
    simp only [oneXiTracks, List.mem_cons, List.mem_singleton, List.not_mem_nil, or_false] at ht
    rcases ht with rfl | rfl | rfl <;> rfl
  rw [hall a ha, hall b hb]

/-! ## Non-increasing boundaries and the class index as a count -/

lemma percentilesXVxX_sorted : List.Pairwise (fun a b => a ≤ b) XVxX.percentiles := by
  norm_num [XVxX.percentiles, List.pairwise_cons]

/-- The boundaries of the linear scan for an ascending threshold list are
non-increasing. -/
lemma findPercentilesLinear_antitone (hCalib : TH1D)
    (hw : 0 ≤ hCalib.GetBinWidth) (ht : 0 ≤ hCalib.IntegralWidth) (ps : List ℚ)
    (hps : List.Pairwise (fun a b => a ≤ b) ps) :
    List.Pairwise (fun a b => b ≤ a) (findPercentilesLinear ps hCalib) := by
  unfold findPercentilesLinear
  refine List.Pairwise.filterMap (linearBoundary hCalib) ?_ hps
  intro p q hpq x hxp y hyq
  simp only [linearBoundary, Option.mem_def, Option.map_eq_some'] at hxp hyq
  obtain ⟨b, hb, rfl⟩ := hxp
  obtain ⟨b2, hb2, rfl⟩ := hyq
  obtain ⟨_, _, _, s4⟩ := scanDown_some hCalib _ _ _ b hb
  obtain ⟨_, t2, _, _⟩ := scanDown_some hCalib _ _ _ b2 hb2
  have hthr : p / 100 * hCalib.IntegralWidth ≤ q / 100 * hCalib.IntegralWidth :=
    mul_le_mul_of_nonneg_right (by linarith) ht
  apply GetBinCenter_mono hCalib hw
  by_contra hlt
  push_neg at hlt
  have := s4 b2 hlt t2
  linarith

/-- Along a non-increasing list the position of the first boundary below the
count is the number of boundaries at or above the count. -/
lemma findIdx_eq_countP (n : ℚ) (bs : List ℚ) (h : bs.Pairwise (fun a b => b ≤ a)) :
    bs.findIdx (fun p => decide (n > p)) = bs.countP (fun p => decide (p ≥ n)) := by
  induction bs with
  | nil => rfl
  | cons p rest ih =>
    rw [List.pairwise_cons] at h
    rw [List.findIdx_cons, List.countP_cons]
    by_cases hp : n > p
    · have hz : rest.countP (fun p => decide (p ≥ n)) = 0 := by
        rw [List.countP_eq_zero]
        intro a ha
        have := h.1 a ha
        simp only [ge_iff_le, decide_eq_true_eq, not_le]
        linarith
      have hnp : ¬ p ≥ n := not_le.mpr hp
      simp [hp, hz, hnp]
    · have hnp : p ≥ n := not_lt.mp hp
      simp only [hp, decide_False, cond_false, ih h.2, hnp, decide_True, if_true]

/-- C26: for every histogram with non-negative bin contents and positive
total integral the boundaries returned by `findPercentiles` are non-increasing
in the order of the ascending threshold list, for the linear scan (`VFfE.C`,
`XVxX.cc`) and for the binary search (`RGbM.C`); hence for every forward
count the Policy A class index is `9.5` minus the number of boundaries that
are at least the count. -/
theorem findPercentiles_antitone_policyA (hCalib : TH1D) (hpos : ∀ x ∈ hCalib.bins, 0 ≤ x)
    (ht : 0 < hCalib.IntegralWidth) :
    List.Pairwise (fun a b => b ≤ a) (VFfE.findPercentiles hCalib) ∧
    List.Pairwise (fun a b => b ≤ a) (XVxX.findPercentiles hCalib) ∧
    List.Pairwise (fun a b => b ≤ a) (RGbM.findPercentiles hCalib) ∧
    (∀ n : Int, cIndex (VFfE.findPercentiles hCalib) n =
      19 / 2 - ((VFfE.findPercentiles hCalib).countP (fun p => decide (p ≥ (n : ℚ))) : ℚ)) ∧
    (∀ n : Int, cIndex (RGbM.findPercentiles hCalib) n =
      19 / 2 - ((RGbM.findPercentiles hCalib).countP (fun p => decide (p ≥ (n : ℚ))) : ℚ)) := by
  obtain ⟨hn, hw⟩ := TH1D.pos_of_IntegralWidth_pos hCalib hpos ht
  have h1 : List.Pairwise (fun a b => b ≤ a) (VFfE.findPercentiles hCalib) :=
    findPercentilesLinear_antitone hCalib (le_of_lt hw) (le_of_lt ht) _
      percentilesVFfE_sorted
  have h2 : List.Pairwise (fun a b => b ≤ a) (XVxX.findPercentiles hCalib) :=
    findPercentilesLinear_antitone hCalib (le_of_lt hw) (le_of_lt ht) _
      percentilesXVxX_sorted
  have h3 : List.Pairwise (fun a b => b ≤ a) (RGbM.findPercentiles hCalib) := by
    have heq : RGbM.findPercentiles hCalib = XVxX.findPercentiles hCalib :=
      findPercentilesBinary_eq_linear hCalib hpos (le_of_lt hw) hn (le_of_lt ht)
        XVxX.percentiles percentilesXVxX_le
    rw [heq]
    exact h2
  refine ⟨h1, h2, h3, ?_, ?_⟩
  · intro n
    unfold cIndex
    rw [cIndexLoop_findIdx, findIdx_eq_countP _ _ h1]
  · intro n
    unfold cIndex
    rw [cIndexLoop_findIdx, findIdx_eq_countP _ _ h3]

/-- Witness for C26: the two-bin histogram with contents `1` and `3`. -/
theorem findPercentiles_antitone_policyA_witness :
    (∀ x ∈ histTwo.bins, 0 ≤ x) ∧ 0 < histTwo.IntegralWidth ∧
    List.Pairwise (fun a b => b ≤ a) (RGbM.findPercentiles histTwo) ∧
    cIndex (VFfE.findPercentiles histTwo) 0 =
      19 / 2 - ((VFfE.findPercentiles histTwo).countP (fun p => decide (p ≥ ((0 : Int) : ℚ))) : ℚ) :=
  have hpos : ∀ x ∈ histTwo.bins, 0 ≤ x := by
    intro x hx
    simp only [histTwo, List.mem_cons, List.mem_singleton, List.not_mem_nil, or_false] at hx
    rcases hx with h | h <;> subst h <;> norm_num
  have ht : 0 < histTwo.IntegralWidth := by decide!
  ⟨hpos, ht, (findPercentiles_antitone_policyA histTwo hpos ht).2.2.1,
    (findPercentiles_antitone_policyA histTwo hpos ht).2.2.2.1 0⟩

/-! ## Calibrating and classifying on the same sample -/

lemma countTracks_foldl_nFwd (tracks : List RootTrack) : ∀ (c : Counts) (n : Int),
    c.nFwd = n →
    (tracks.foldl VFfE.countTrack c).nFwd =
      tracks.foldl (fun nFwd trk => if VFfE.isForwardTrack trk then nFwd + 1 else nFwd) n := by
  induction tracks with
  | nil => intro c n h; exact h
  | cons trk rest ih =>
    intro c n h
    simp only [List.foldl_cons]
    apply ih
    unfold VFfE.countTrack
    by_cases hf : VFfE.isForwardTrack trk = true
    · simp only [hf, if_true, h]
    · simp only [hf, if_false, Bool.false_eq_true]
      rw [← h]
      split_ifs <;> rfl

/-- The forward count of `analyze` is the forward count of `calibration`. -/
lemma countTracks_nFwd (tracks : List RootTrack) :
    (VFfE.countTracks tracks).nFwd = countForward VFfE.isForwardTrack tracks :=
  countTracks_foldl_nFwd tracks _ 0 rfl

/-- One `Fill` of the calibration histogram with a count in `0..199` adds `1`
to the regular bin that the axis lookup names. -/
lemma Fill_calib_bins (h : TH1D) (n : Int) (h0 : 0 ≤ n) (hn : n < 200) (hx : h.xmin = 0)
    (hX : h.xmax = 200) (hlen : h.bins.length = 100) :
    (h.Fill (n : ℚ)).bins = addAt h.bins ((axisFindBin 100 0 200 (n : ℚ)).toNat - 1) 1 := by
  have hN : h.GetNbinsX = 100 := by unfold TH1D.GetNbinsX; omega
  obtain ⟨b1, b2⟩ := axisFindBin_calib n h0 hn
  unfold TH1D.Fill TH1D.FindBin
  rw [hN, hx, hX]
  simp only [if_neg (not_le.mpr (by omega : (0 : Int) < axisFindBin 100 0 200 (n : ℚ))),
    if_pos b2]

/-- The axis lookup of the calibration histogram is monotone. -/
lemma axisFindBin_calib_mono (a b : Int) (h0 : 0 ≤ a) (hab : a ≤ b) (hb : b < 200) :
    axisFindBin 100 0 200 (a : ℚ) ≤ axisFindBin 100 0 200 (b : ℚ) := by
  have ha0 : ¬ ((a : ℚ) < 0) := not_lt.mpr (by exact_mod_cast h0)
  have hb0 : ¬ ((b : ℚ) < 0) := not_lt.mpr (by exact_mod_cast (le_trans h0 hab))
  have ha2 : (a : ℚ) < 200 := by exact_mod_cast (lt_of_le_of_lt hab hb)
  have hb2 : (b : ℚ) < 200 := by exact_mod_cast hb
  unfold axisFindBin
  rw [if_neg ha0, if_neg hb0, if_neg (not_not.mpr ha2), if_neg (not_not.mpr hb2)]
  have hq : (a : ℚ) ≤ (b : ℚ) := by exact_mod_cast hab
  have : ((100 : Int) : ℚ) * ((a : ℚ) - 0) / (200 - 0) ≤
      ((100 : Int) : ℚ) * ((b : ℚ) - 0) / (200 - 0) := by
    push_cast; linarith
  have := Int.floor_le_floor this
  omega

/-- A count in `0..199` is at most the centre `2 m - 1` of its calibration
bin `m`. -/
lemma le_center_calib (n : Int) (h0 : 0 ≤ n) (hn : n < 200) :
    (n : ℚ) ≤ 2 * ((axisFindBin 100 0 200 (n : ℚ) : Int) : ℚ) - 1 := by
  have hq0 : ¬ ((n : ℚ) < 0) := not_lt.mpr (by exact_mod_cast h0)
  have hq2 : (n : ℚ) < 200 := by exact_mod_cast hn
  have hm : axisFindBin 100 0 200 (n : ℚ) =
      1 + ⌊((100 : Int) : ℚ) * ((n : ℚ) - 0) / (200 - 0)⌋ := by
    unfold axisFindBin
    rw [if_neg hq0, if_neg (not_not.mpr hq2)]
  have hfl := Int.lt_floor_add_one (((100 : Int) : ℚ) * ((n : ℚ) - 0) / (200 - 0))
  have hlt : (n : ℚ) < 2 * ((axisFindBin 100 0 200 (n : ℚ) : Int) : ℚ) := by
    rw [hm]
    push_cast at hfl ⊢
    linarith
  have hlt2 : n < 2 * axisFindBin 100 0 200 (n : ℚ) := by exact_mod_cast hlt
  have hle : n ≤ 2 * axisFindBin 100 0 200 (n : ℚ) - 1 := by omega
  have : (n : ℚ) ≤ ((2 * axisFindBin 100 0 200 (n : ℚ) - 1 : Int) : ℚ) := by exact_mod_cast hle
  push_cast at this
  linarith

/-- A non-empty list has an element at which an integer-valued function is
least. -/
lemma exists_min_of_ne_nil {α : Type} (f : α → Int) (l : List α) (hne : l ≠ []) :
    ∃ x ∈ l, ∀ y ∈ l, f x ≤ f y := by
  induction l with
  | nil => exact absurd rfl hne
  | cons a rest ih =>
    by_cases hr : rest = []
    · subst hr
      exact ⟨a, List.mem_cons_self _ _, fun y hy => by
        rw [List.mem_singleton] at hy; rw [hy]⟩
    · obtain ⟨x, hx, hmin⟩ := ih hr
      by_cases hax : f a ≤ f x
      · refine ⟨a, List.mem_cons_self _ _, ?_⟩
        intro y hy
        rcases List.mem_cons.mp hy with rfl | hy
        · exact le_rfl
        · exact le_trans hax (hmin y hy)
      · refine ⟨x, List.mem_cons_of_mem _ hx, ?_⟩
        intro y hy
        rcases List.mem_cons.mp hy with rfl | hy
        · omega
        · exact hmin y hy

lemma addAt_getD_self (l : List ℚ) : ∀ (i : Nat) (w : ℚ), i < l.length →
    (addAt l i w).getD i 0 = l.getD i 0 + w := by
  induction l with
  | nil => intro i w h; simp at h
  | cons a rest ih =>
    intro i w h
    cases i with
    | zero => rfl
    | succ i =>
      simp only [addAt, List.getD_cons_succ]
      exact ih i w (by simpa using h)

lemma addAt_getD_le (l : List ℚ) : ∀ (i k : Nat) (w : ℚ), 0 ≤ w →
    l.getD k 0 ≤ (addAt l i w).getD k 0 := by
  induction l with
  | nil => intro i k w _; exact le_rfl
  | cons a rest ih =>
    intro i k w hw
    cases i with
    | zero =>
      cases k with
      | zero => simp only [addAt, List.getD_cons_zero]; linarith
      | succ k => exact le_rfl
    | succ i =>
      cases k with
      | zero => exact le_rfl
      | succ k =>
        simp only [addAt, List.getD_cons_succ]
        exact ih i k w hw

lemma getD_map_mul_zero (c : ℚ) (l : List ℚ) : ∀ k : Nat, l.getD k 0 = 0 →
    (l.map (fun x => c * x)).getD k 0 = 0 := by
  induction l with
  | nil => intro k _; rfl
  | cons a rest ih =>
    intro k h
    cases k with
    | zero =>
      simp only [List.getD_cons_zero] at h
      simp only [List.map_cons, List.getD_cons_zero, h, mul_zero]
    | succ k =>
      simp only [List.getD_cons_succ] at h
      simp only [List.map_cons, List.getD_cons_succ]
      exact ih k h

lemma getD_map_mul_pos (c : ℚ) (hc : 0 < c) (l : List ℚ) : ∀ k : Nat, 0 < l.getD k 0 →
    0 < (l.map (fun x => c * x)).getD k 0 := by
  induction l with
  | nil => intro k h; simp at h
  | cons a rest ih =>
    intro k h
    cases k with
    | zero =>
      simp only [List.getD_cons_zero] at h
      simp only [List.map_cons, List.getD_cons_zero]
      exact mul_pos hc h
    | succ k =>
      simp only [List.getD_cons_succ] at h
      simp only [List.map_cons, List.getD_cons_succ]
      exact ih k h

lemma getD_replicate_zero (n k : Nat) : (List.replicate n (0 : ℚ)).getD k 0 = 0 := by
  induction n generalizing k with
  | zero => rfl
  | succ n ih =>
    cases k with
    | zero => rfl
    | succ k => simp only [List.replicate_succ, List.getD_cons_succ]; exact ih k

/-- The event loop of `calibration` leaves every bin below `m0` empty when no
event falls below `m0`, never lowers a bin, and leaves at least `1` in the bin
of each of its events. -/
lemma calibration_foldl_low (isFwd : RootTrack → Bool) (m0 : Int) (events : List RootEvent) :
    ∀ h : TH1D, h.xmin = 0 → h.xmax = 200 → h.bins.length = 100 →
    (∀ evt ∈ events, countForward isFwd evt.tracks < 200) →
    ((∀ evt ∈ events, m0 ≤ axisFindBin 100 0 200 (countForward isFwd evt.tracks : ℚ)) →
      ∀ k : Nat, (k : Int) + 1 < m0 → h.bins.getD k 0 = 0 →
        (events.foldl (fun hCalib evt => hCalib.Fill (countForward isFwd evt.tracks))
          h).bins.getD k 0 = 0) ∧
    (∀ k : Nat, h.bins.getD k 0 ≤
      (events.foldl (fun hCalib evt => hCalib.Fill (countForward isFwd evt.tracks))
        h).bins.getD k 0) ∧
    (∀ evt ∈ events, ∀ k : Nat,
      k = (axisFindBin 100 0 200 (countForward isFwd evt.tracks : ℚ)).toNat - 1 →
      h.bins.getD k 0 + 1 ≤
        (events.foldl (fun hCalib evt => hCalib.Fill (countForward isFwd evt.tracks))
          h).bins.getD k 0) := by
  induction events with
  | nil =>
    intro h _ _ _ _
    refine ⟨fun _ k _ hk => hk, fun k => le_rfl, ?_⟩
    intro evt hmem
    simp at hmem
  | cons e rest ih =>
    intro h hx hX hlen hlt
    have h0 := countForward_nonneg isFwd e.tracks
    have hn := hlt e (List.mem_cons_self _ _)
    obtain ⟨f1, f2, f3, _, _⟩ := Fill_calib h (countForward isFwd e.tracks) h0 hx hX hlen
    have hb := Fill_calib_bins h (countForward isFwd e.tracks) h0 hn hx hX hlen
    obtain ⟨b1, b2⟩ := axisFindBin_calib (countForward isFwd e.tracks) h0 hn
    obtain ⟨r1, r2, r3⟩ := ih _ f1 f2 f3 (fun evt hevt => hlt evt (List.mem_cons_of_mem _ hevt))
    simp only [List.foldl_cons]
    refine ⟨?_, ?_, ?_⟩
    · intro hm k hk hz
      apply r1 (fun evt hevt => hm evt (List.mem_cons_of_mem _ hevt)) k hk
      rw [hb, addAt_getD_of_lt _ _ _ _ (by
        have := hm e (List.mem_cons_self _ _)
        omega)]
      exact hz
    · intro k
      refine le_trans ?_ (r2 k)
      rw [hb]
      exact addAt_getD_le _ _ _ _ (by norm_num)
    · intro evt hmem k hk
      rcases List.mem_cons.mp hmem with heq | hrest
      · subst heq
        refine le_trans ?_ (r2 k)
        rw [hb, ← hk, addAt_getD_self _ _ _ (by omega)]
      · refine le_trans ?_ (r3 evt hrest k hk)
        have : h.bins.getD k 0 ≤
            (h.Fill (countForward isFwd e.tracks : ℚ)).bins.getD k 0 := by
          rw [hb]
          exact addAt_getD_le _ _ _ _ (by norm_num)
        linarith

/-- With at least one event below 200 forward tracks the histogram written by
`calibration` is the filled histogram scaled by the finite, positive factor
`1 / Integral("width")`. -/
lemma calibration_finite (events : List RootEvent)
    (hin : ∃ evt ∈ events, countForward VFfE.isForwardTrack evt.tracks < 200) :
    0 < (calibrationPass VFfE.isForwardTrack events).IntegralWidth ∧
    (VFfE.calibration events).toTH1D? =
      some ((calibrationPass VFfE.isForwardTrack events).Scale
        (1 / (calibrationPass VFfE.isForwardTrack events).IntegralWidth)) ∧
    (calibrationPass VFfE.isForwardTrack events).xmin = 0 ∧
    (calibrationPass VFfE.isForwardTrack events).xmax = 200 ∧
    (calibrationPass VFfE.isForwardTrack events).bins.length = 100 := by
  obtain ⟨p1, p2, p3, _, p5⟩ := calibration_foldl VFfE.isForwardTrack events
    { xmin := 0, xmax := 200, underflow := 0, bins := List.replicate 100 0, overflow := 0 }
    rfl rfl (by simp)
  have hsum := p5 hin
  simp only [List.sum_replicate, smul_zero, zero_add] at hsum
  have hw : (calibrationPass VFfE.isForwardTrack events).GetBinWidth = 2 := by
    unfold TH1D.GetBinWidth TH1D.GetNbinsX calibrationPass
    rw [p1, p2, p3]
    norm_num
  have hI : (calibrationPass VFfE.isForwardTrack events).IntegralWidth =
      (calibrationPass VFfE.isForwardTrack events).bins.sum * 2 := by
    rw [IntegralWidth_eq_sum, hw]
  have hIpos : 0 < (calibrationPass VFfE.isForwardTrack events).IntegralWidth := by
    rw [hI]
    unfold calibrationPass
    linarith
  have hdiv : Dbl.div 1 (calibrationPass VFfE.isForwardTrack events).IntegralWidth =
      Dbl.fin (1 / (calibrationPass VFfE.isForwardTrack events).IntegralWidth) := by
    unfold Dbl.div
    rw [if_neg (ne_of_gt hIpos)]
  refine ⟨hIpos, ?_, p1, p2, p3⟩
  unfold VFfE.calibration calibrationWith
  simp only [hdiv, ScaleValue_fin]

/-- When every bin below `m` is empty, each boundary of the linear scan is at
least the centre of bin `m`, and no threshold is left without a boundary. -/
lemma boundaries_ge_center (hCalib : TH1D) (hn : 1 ≤ hCalib.GetNbinsX)
    (hw : 0 ≤ hCalib.GetBinWidth) (ht : 0 ≤ hCalib.IntegralWidth) (m : Int) (hm1 : 1 ≤ m)
    (hmn : m ≤ hCalib.GetNbinsX)
    (hzero : ∀ i : Int, 1 ≤ i → i < m → hCalib.GetBinContent i = 0)
    (ps : List ℚ) (hps : ∀ p ∈ ps, p ≤ 100) :
    (findPercentilesLinear ps hCalib).length = ps.length ∧
    ∀ q ∈ findPercentilesLinear ps hCalib, hCalib.GetBinCenter m ≤ q := by
  have htot : hCalib.Integral m hCalib.GetNbinsX = hCalib.IntegralWidth := by
    obtain ⟨d, hd⟩ : ∃ d : Nat, m = 1 + (d : Int) := ⟨(m - 1).toNat, by omega⟩
    subst hd
    exact Integral_tail_eq_total_below hCalib _ hmn hzero d le_rfl
  constructor
  · unfold findPercentilesLinear
    rw [filterMap_eq_map_of_some (linearBoundary hCalib)
      (fun p => (linearBoundary hCalib p).getD 0) ps, List.length_map]
    intro p hp
    obtain ⟨b, _, hb⟩ := linearBoundary_topBin hCalib p hn ht (hps p hp)
    rw [hb, Option.getD_some]
  · intro q hq
    unfold findPercentilesLinear at hq
    rw [List.mem_filterMap] at hq
    obtain ⟨p, hp, hpq⟩ := hq
    obtain ⟨b, ⟨_, _, _, htop⟩, hb⟩ := linearBoundary_topBin hCalib p hn ht (hps p hp)
    rw [hb] at hpq
    cases hpq
    apply GetBinCenter_mono hCalib hw
    by_contra hlt
    push_neg at hlt
    have h1 := htop m hlt hmn
    have h2 := threshold_le_total p _ (hps p hp) ht
    rw [htot] at h1
    linarith

/-- A `Fill` at the class index `-0.5` of a profile as created by `analyze`
goes to the underflow cell and leaves the ten class bins empty. -/
lemma Fill_new_below (y : ℚ) :
    ((TProfile.new 10 0 10).Fill (-1 / 2) y).bins = List.replicate 10 ProfBin.zero ∧
    ((TProfile.new 10 0 10).Fill (-1 / 2) y).underflow.count = 1 := by
  have hbin : (TProfile.new 10 0 10).FindBin (-1 / 2) = 0 := by
    unfold TProfile.FindBin axisFindBin TProfile.new
    norm_num
  rw [Fill_under _ _ _ (by rw [hbin])]
  simp [TProfile.new, ProfBin.add, ProfBin.single, ProfBin.zero]

/-- The bins of the filled calibration histogram: at least `1` in the bin of
every event, and `0` in every bin below `m0` when no event falls below
`m0`. -/
lemma calibrationPass_bins (events : List RootEvent)
    (hlt : ∀ evt ∈ events, countForward VFfE.isForwardTrack evt.tracks < 200) :
    (∀ evt ∈ events, ∀ k : Nat,
      k = (axisFindBin 100 0 200 (countForward VFfE.isForwardTrack evt.tracks : ℚ)).toNat - 1 →
      1 ≤ (calibrationPass VFfE.isForwardTrack events).bins.getD k 0) ∧
    (∀ m0 : Int,
      (∀ evt ∈ events,
        m0 ≤ axisFindBin 100 0 200 (countForward VFfE.isForwardTrack evt.tracks : ℚ)) →
      ∀ k : Nat, (k : Int) + 1 < m0 →
        (calibrationPass VFfE.isForwardTrack events).bins.getD k 0 = 0) := by
  constructor
  · intro evt hevt k hk
    obtain ⟨_, _, q3⟩ := calibration_foldl_low VFfE.isForwardTrack 0 events
      { xmin := 0, xmax := 200, underflow := 0, bins := List.replicate 100 0, overflow := 0 }
      rfl rfl (by simp) hlt
    have := q3 evt hevt k hk
    simp only [getD_replicate_zero, zero_add] at this
    exact this
  · intro m0 hm k hk
    obtain ⟨q1, _, _⟩ := calibration_foldl_low VFfE.isForwardTrack m0 events
      { xmin := 0, xmax := 200, underflow := 0, bins := List.replicate 100 0, overflow := 0 }
      rfl rfl (by simp) hlt
    exact q1 hm k hk (getD_replicate_zero 100 k)

/-- The scaled calibration histogram: its axis and the content of its regular
bins. -/
lemma Scale_calib (pass : TH1D) (c : ℚ) (p1 : pass.xmin = 0) (p2 : pass.xmax = 200)
    (p3 : pass.bins.length = 100) :
    (pass.Scale c).GetNbinsX = 100 ∧ (pass.Scale c).GetBinWidth = 2 ∧
    (∀ x : ℚ, (pass.Scale c).FindBin x = axisFindBin 100 0 200 x) ∧
    (∀ m : Int, (pass.Scale c).GetBinCenter m = 2 * (m : ℚ) - 1) ∧
    (∀ i : Int, 1 ≤ i → i ≤ 100 → (pass.Scale c).GetBinContent i =
      (pass.bins.map (fun x => c * x)).getD (i.toNat - 1) 0) := by
  have hN : (pass.Scale c).GetNbinsX = 100 := by
    unfold TH1D.GetNbinsX TH1D.Scale
    simp only [List.length_map, p3]
    rfl
  have hx : (pass.Scale c).xmin = 0 := p1
  have hX : (pass.Scale c).xmax = 200 := p2
  have hW : (pass.Scale c).GetBinWidth = 2 := by
    unfold TH1D.GetBinWidth
    rw [hN, hx, hX]
    norm_num
  refine ⟨hN, hW, ?_, ?_, ?_⟩
  · intro x
    unfold TH1D.FindBin
    rw [hN, hx, hX]
  · intro m
    unfold TH1D.GetBinCenter
    rw [hW, hx]
    ring
  · intro i h1 h2
    unfold TH1D.GetBinContent
    rw [hN, if_neg (by omega), if_pos h2]
    rfl

/-- C27: for every non-empty event sequence whose forward counts are all
below 200, `calibration` writes a finite histogram `hCalib`; the calibration
bin of every event of the sample is non-empty; every event below whose
calibration bin all bins are empty (an event in the lowest non-empty bin) gets
the Policy A class index `-0.5` from `findPercentiles(hCalib)`, and its
`Fill` calls leave the ten class bins of fresh profiles empty and go to the
underflow cell; and the sample has such an event. -/
theorem calibrate_classify_lowest (events : List RootEvent) (hne : events ≠ [])
    (hlt : ∀ evt ∈ events, countForward VFfE.isForwardTrack evt.tracks < 200) :
    ∃ hCalib : TH1D, (VFfE.calibration events).toTH1D? = some hCalib ∧
      (∀ evt ∈ events,
        0 < hCalib.GetBinContent (hCalib.FindBin ((VFfE.countTracks evt.tracks).nFwd : ℚ))) ∧
      (∀ evt ∈ events,
        (∀ i : Int, 1 ≤ i → i < hCalib.FindBin ((VFfE.countTracks evt.tracks).nFwd : ℚ) →
          hCalib.GetBinContent i = 0) →
        cIndex (VFfE.findPercentiles hCalib) (VFfE.countTracks evt.tracks).nFwd = -1 / 2 ∧
        ∀ p ∈ (VFfE.analyzeEvent (VFfE.findPercentiles hCalib) Yields.new evt).toList,
          p.bins = List.replicate 10 ProfBin.zero ∧ p.underflow.count = 1) ∧
      (∃ evt ∈ events,
        ∀ i : Int, 1 ≤ i → i < hCalib.FindBin ((VFfE.countTracks evt.tracks).nFwd : ℚ) →
          hCalib.GetBinContent i = 0) := by
  obtain ⟨e1, he1⟩ := List.exists_mem_of_ne_nil events hne
  obtain ⟨hIpos, hcal, p1, p2, p3⟩ := calibration_finite events ⟨e1, he1, hlt e1 he1⟩
  obtain ⟨hfull, hlow⟩ := calibrationPass_bins events hlt
  have hc : 0 < 1 / (calibrationPass VFfE.isForwardTrack events).IntegralWidth :=
    one_div_pos.mpr hIpos
  obtain ⟨hN, hW, hFB, hGC, hBC⟩ := Scale_calib (calibrationPass VFfE.isForwardTrack events)
    (1 / (calibrationPass VFfE.isForwardTrack events).IntegralWidth) p1 p2 p3
  have hT : ((calibrationPass VFfE.isForwardTrack events).Scale
      (1 / (calibrationPass VFfE.isForwardTrack events).IntegralWidth)).IntegralWidth = 1 := by
    rw [IntegralWidth_Scale]
    field_simp
  refine ⟨_, hcal, ?_, ?_, ?_⟩
  · intro evt hevt
    have h0 := countForward_nonneg VFfE.isForwardTrack evt.tracks
    obtain ⟨b1, b2⟩ := axisFindBin_calib _ h0 (hlt evt hevt)
    rw [countTracks_nFwd, hFB, hBC _ b1 b2]
    apply getD_map_mul_pos _ hc
    have := hfull evt hevt _ rfl
    linarith
  · intro evt hevt hzero
    have h0 := countForward_nonneg VFfE.isForwardTrack evt.tracks
    obtain ⟨b1, b2⟩ := axisFindBin_calib _ h0 (hlt evt hevt)
    rw [countTracks_nFwd] at hzero ⊢
    rw [hFB] at hzero
    obtain ⟨hlen, hge⟩ := boundaries_ge_center _ (by rw [hN]; norm_num) (by rw [hW]; norm_num)
      (by rw [hT]; norm_num) _ b1 (by rw [hN]; exact b2) hzero VFfE.percentiles
      percentilesVFfE_le
    have hidx : cIndex (VFfE.findPercentiles ((calibrationPass VFfE.isForwardTrack events).Scale
        (1 / (calibrationPass VFfE.isForwardTrack events).IntegralWidth)))
        (countForward VFfE.isForwardTrack evt.tracks) = -1 / 2 := by
      unfold cIndex VFfE.findPercentiles
      rw [cIndexLoop_all _ _ (fun q hq => le_trans
        (le_center_calib _ h0 (hlt evt hevt)) (by rw [← hGC]; exact hge q hq)), hlen]
      norm_num [VFfE.percentiles]
    refine ⟨hidx, ?_⟩
    intro p hp
    unfold VFfE.analyzeEvent at hp
    simp only [countTracks_nFwd, hidx, Yields.toList, Yields.new, List.mem_cons,
      List.mem_singleton, List.not_mem_nil, or_false] at hp
    rcases hp with h | h | h | h | h | h <;> subst h <;> exact Fill_new_below _
  · obtain ⟨e0, he0, hmin⟩ := exists_min_of_ne_nil
      (fun evt : RootEvent => countForward VFfE.isForwardTrack evt.tracks) events hne
    refine ⟨e0, he0, ?_⟩
    intro i hi1 hi2
    have h0 := countForward_nonneg VFfE.isForwardTrack e0.tracks
    obtain ⟨b1, b2⟩ := axisFindBin_calib _ h0 (hlt e0 he0)
    rw [countTracks_nFwd, hFB] at hi2
    rw [hBC i hi1 (by omega)]
    apply getD_map_mul_zero
    apply hlow (axisFindBin 100 0 200 (countForward VFfE.isForwardTrack e0.tracks : ℚ))
    · intro evt hevt
      exact axisFindBin_calib_mono _ _ h0 (hmin evt hevt) (hlt evt hevt)
    · omega

/-- Witness for C27: three events with five pions and one kaon each (forward
count `0`). -/
theorem calibrate_classify_lowest_witness :
    List.replicate 3 fivePionsOneKaon ≠ [] ∧
    (∀ evt ∈ List.replicate 3 fivePionsOneKaon,
      countForward VFfE.isForwardTrack evt.tracks < 200) ∧
    (∃ hCalib : TH1D,
      (VFfE.calibration (List.replicate 3 fivePionsOneKaon)).toTH1D? = some hCalib ∧
      ∃ evt ∈ List.replicate 3 fivePionsOneKaon,
        cIndex (VFfE.findPercentiles hCalib) (VFfE.countTracks evt.tracks).nFwd = -1 / 2) := by
  have hne : List.replicate 3 fivePionsOneKaon ≠ [] := by simp
  have hlt : ∀ evt ∈ List.replicate 3 fivePionsOneKaon,
      countForward VFfE.isForwardTrack evt.tracks < 200 := by
    intro evt hevt
    rw [List.eq_of_mem_replicate hevt]
    decide!
  obtain ⟨hCalib, h1, _, h3, ⟨evt, hevt, h4⟩⟩ :=
    calibrate_classify_lowest (List.replicate 3 fivePionsOneKaon) hne hlt
  exact ⟨hne, hlt, hCalib, h1, evt, hevt, (h3 evt hevt h4).1⟩
